import Mathlib

/-!
Verification of the profile data model and the stack-table transform engine
of `src/profile-logic/transforms.js`.

The columnar tables of the profile data model are embedded as Lean
structures whose columns are lists; a row index is a `Nat`.  JavaScript
`null` is modelled with `Option`; a JavaScript array read that can fall off
the end of an array (yielding `undefined`) is modelled with `List.getElem?`.
JavaScript numbers appearing as table values that can legitimately be `-1`
(resource indices, string-table indices) are modelled as `Int`.

Helper functions that `transforms.js` imports from modules that are not part
of the sources under verification (`profile-data.js`, `data-structures.js`,
`uintarray-encoding.js`, `flow.js`, `time-code.js`) are modelled from the
specification; each of those carries a doc comment starting with
`Modelled from the spec:`.
-/

/-- One row of the stack table: `{frame, category, subcategory, prefix}`.
The source's `prefix` column is called `prefixCol` here. `category` and
`subcategory` are never null on a stack row at rest. -/
structure StackRow where
  prefixCol : Option Nat
  frame : Nat
  category : Nat
  subcategory : Nat
  deriving DecidableEq, Repr

/-- The stack table: the tree of call-stack nodes, stored as an array of
rows (the source stores the same data as parallel columns plus a `length`
field; the columns always have equal length, so an array of rows carries
the same information). -/
structure StackTable where
  rows : List StackRow
  deriving DecidableEq, Repr

/-- The frame table, columnar, as in the processed-profile format. -/
structure FrameTable where
  address : List Int
  inlineDepth : List Int
  category : List (Option Int)
  subcategory : List (Option Int)
  func : List Nat
  nativeSymbol : List (Option Int)
  line : List (Option Int)
  column : List (Option Int)
  innerWindowID : List (Option Int)
  implementation : List (Option Int)
  optimizations : List (Option Int)
  deriving DecidableEq, Repr

/-- The func table, columnar. `name` and `resource` are `Int` because a
resource index can be `-1` (no resource) and a collapsed func's name can
come from a resource-table entry that is `-1`. -/
structure FuncTable where
  name : List Int
  isJS : List Bool
  relevantForJS : List Bool
  resource : List Int
  fileName : List (Option Int)
  lineNumber : List (Option Int)
  columnNumber : List (Option Int)
  deriving DecidableEq, Repr

/-- The resource table (only the columns read by the transform engine). -/
structure ResourceTable where
  name : List Int
  lib : List (Option Int)
  deriving DecidableEq, Repr

/-- A sample-like table: a `stack` column of nullable stack indices plus
the per-sample columns that transforms must carry through unchanged. -/
structure SamplesTable where
  stack : List (Option Nat)
  time : List Int
  weight : Option (List Int)
  weightType : String
  deriving DecidableEq, Repr

/-- A thread: the tables the transform engine reads and rewrites.  The
string table is modelled as the backing list of strings of the
`UniqueStringArray`. -/
structure Thread where
  stackTable : StackTable
  frameTable : FrameTable
  funcTable : FuncTable
  resourceTable : ResourceTable
  stringTable : List String
  samples : SamplesTable
  jsAllocations : Option SamplesTable
  nativeAllocations : Option SamplesTable
  deriving DecidableEq, Repr

/-- The implementation filter: `combined`, `cpp` or `js`. -/
inductive ImplementationFilter where
  | combined
  | cpp
  | js
  deriving DecidableEq, Repr

/-- The closed sum of the eight transform kinds, as in
`src/types/transforms.js`.  The numeric index fields are `Int` because the
URL decoder can produce negative numbers (see `parseTransforms`). -/
inductive Transform where
  | focusSubtree (implementation : ImplementationFilter)
      (callNodePath : List Nat) (inverted : Bool)
  | focusFunction (funcIndex : Int)
  | mergeCallNode (implementation : ImplementationFilter)
      (callNodePath : List Nat)
  | mergeFunction (funcIndex : Int)
  | dropFunction (funcIndex : Int)
  | collapseResource (implementation : ImplementationFilter)
      (resourceIndex : Int) (collapsedFuncIndex : Int)
  | collapseDirectRecursion (implementation : ImplementationFilter)
      (funcIndex : Int)
  | collapseFunctionSubtree (funcIndex : Int)
  deriving DecidableEq, Repr

/-- The eight transform-type tags (`src/types/transforms.js`). -/
inductive TransformType where
  | focusSubtree
  | focusFunction
  | mergeCallNode
  | mergeFunction
  | dropFunction
  | collapseResource
  | collapseDirectRecursion
  | collapseFunctionSubtree
  deriving DecidableEq, Repr

/-- Modelled from the spec: `getEmptyStackTable` of `data-structures.js`
returns a stack table with no rows. -/
def getEmptyStackTable : StackTable := ⟨[]⟩

/-- Modelled from the spec: `shallowCloneFrameTable` of
`data-structures.js`; in a persistent embedding a shallow clone has the
same contents as the original. -/
def shallowCloneFrameTable (frameTable : FrameTable) : FrameTable := frameTable

/-- Modelled from the spec: `shallowCloneFuncTable` of
`data-structures.js`. -/
def shallowCloneFuncTable (funcTable : FuncTable) : FuncTable := funcTable

/-- Modelled from the spec: `timeCode` of `time-code.js` is a timing
wrapper; semantically it just runs its callback. -/
def timeCode (_label : String) (fn : Unit → α) : α := fn ()

/-- Apply a stack-index converter to the `stack` column of a sample-like
table, leaving every other column unchanged. -/
def SamplesTable.mapStacks (s : SamplesTable) (f : Option Nat → Option Nat) :
    SamplesTable :=
  { s with stack := s.stack.map f }

/-- Modelled from the spec: `updateThreadStacks` of `profile-data.js`
replaces the thread's stack table and rewrites the `stack` column of every
sample-like table (samples, JS allocations, native allocations) through the
converter. -/
def updateThreadStacks (t : Thread) (newStackTable : StackTable)
    (converter : Option Nat → Option Nat) : Thread :=
  { t with
    stackTable := newStackTable
    samples := t.samples.mapStacks converter
    jsAllocations := t.jsAllocations.map fun a => a.mapStacks converter
    nativeAllocations := t.nativeAllocations.map fun a => a.mapStacks converter }

/-- The `oldStackToNewStack` map of a transform: position `i` holds the
entry for old stack index `i` (`none` when the map has no entry for `i`,
which JavaScript reports as `undefined`).  The seeded `null -> null` entry
is built into `mapFind`. -/
abbrev StackMap := List (Option (Option Nat))

/-- Look up an old stack index (or null) in an `oldStackToNewStack` map.
Returns `none` when the map has no entry (JavaScript `undefined`), and
`some v` when the map maps the key to `v` (where `v = none` is null). -/
def mapFind (m : StackMap) : Option Nat → Option (Option Nat)
  | none => some none
  | some i => (m[i]?).getD none

/-- Modelled from the spec: `getMapStackUpdater` of `profile-data.js` turns
an old-to-new stack map into a converter for sample stacks.  A missing
entry is a fatal invariant violation in the source; it is modelled as null
here, and the theorems' hypotheses keep that case unreachable. -/
def getMapStackUpdater (m : StackMap) : Option Nat → Option Nat :=
  fun oldStack => (mapFind m oldStack).getD none

/-- String-table lookup (`stringTable.getString`); out-of-range or negative
indices are modelled as the empty string. -/
def getString (stringTable : List String) (i : Int) : String :=
  if h : 0 ≤ i ∧ i.toNat < stringTable.length then stringTable[i.toNat] else ""

/-- The func index of a frame-table row, as an `Int` for comparison with a
transform's `Int`-typed func index (`none` when the frame index is out of
range, i.e. JavaScript `undefined`). -/
def frameFuncInt (t : Thread) (frameIndex : Nat) : Option Int :=
  (t.frameTable.func[frameIndex]?).map fun n => (n : Int)

/-- The `FUNC_MATCHES` implementation-filter predicates.  `funcIndex` is an
`Option` because call sites pass `frameTable.func[frameIndex]`, which can
be `undefined` for a malformed frame reference; table reads on a missing
func index behave like reads of `undefined` properties (falsy / no match). -/
def FUNC_MATCHES (implementation : ImplementationFilter) (t : Thread)
    (funcIndex : Option Nat) : Bool :=
  match implementation with
  | .combined => true
  | .cpp =>
    if (funcIndex.bind fun f => t.funcTable.isJS[f]?).getD false then
      false
    else
      let locationString :=
        getString t.stringTable
          ((funcIndex.bind fun f => t.funcTable.name[f]?).getD (-1))
      let isProbablyJitCode :=
        decide ((funcIndex.bind fun f => t.funcTable.resource[f]?) =
            some (-1)) && locationString.startsWith "0x"
      !isProbablyJitCode
  | .js =>
    (funcIndex.bind fun f => t.funcTable.isJS[f]?).getD false ||
      (funcIndex.bind fun f => t.funcTable.relevantForJS[f]?).getD false

/-! ## mergeFunction -/

/-- Loop state of `mergeFunction`: the old-to-new stack map and the rows of
the new stack table built so far. -/
structure MFState where
  map : StackMap
  newRows : List StackRow
  deriving Repr

/-- One iteration of the `mergeFunction` loop over the old stack table. -/
def mergeFunctionStep (t : Thread) (funcIndexToMerge : Int) (st : MFState)
    (stackIndex : Nat) : MFState :=
  match t.stackTable.rows[stackIndex]? with
  | none => st
  | some row =>
    let funcIndex := frameFuncInt t row.frame
    if funcIndex = some funcIndexToMerge then
      let newStackPrefix := (mapFind st.map row.prefixCol).getD none
      { st with map := st.map ++ [some newStackPrefix] }
    else
      let newStackIndex := st.newRows.length
      let newStackPrefix := (mapFind st.map row.prefixCol).getD none
      { map := st.map ++ [some (some newStackIndex)]
        newRows := st.newRows ++
          [{ prefixCol := newStackPrefix, frame := row.frame,
             category := row.category, subcategory := row.subcategory }] }

/-- The final state of the `mergeFunction` loop. -/
def mergeFunctionState (t : Thread) (funcIndexToMerge : Int) : MFState :=
  (List.range t.stackTable.rows.length).foldl
    (mergeFunctionStep t funcIndexToMerge) ⟨[], []⟩

/-- `mergeFunction`: remove every stack whose frame's func is
`funcIndexToMerge`, merging its timing into its caller. -/
def mergeFunction (t : Thread) (funcIndexToMerge : Int) : Thread :=
  let st := mergeFunctionState t funcIndexToMerge
  updateThreadStacks t ⟨st.newRows⟩ (getMapStackUpdater st.map)

/-! ## dropFunction -/

/-- The `stackContainsFunc` array of `dropFunction`: position `i` tells
whether stack `i`'s own func or any ancestor's func is `funcIndexToDrop`.
Reads of not-yet-set positions are falsy, as in the source's sparse array. -/
def dropFunctionContains (rows : List StackRow) (funcCol : List Nat)
    (funcIndexToDrop : Int) : List Bool :=
  (List.range rows.length).foldl
    (fun acc stackIndex =>
      match rows[stackIndex]? with
      | none => acc ++ [false]
      | some row =>
        let funcIndex := (funcCol[row.frame]?).map fun n => (n : Int)
        let prefixContains :=
          match row.prefixCol with
          | none => false
          | some p => (acc[p]?).getD false
        acc ++ [decide (funcIndex = some funcIndexToDrop) || prefixContains])
    []

/-- `dropFunction`: drop any samples that contain the given function; the
stack table itself is passed through unchanged. -/
def dropFunction (t : Thread) (funcIndexToDrop : Int) : Thread :=
  let stackContainsFunc :=
    dropFunctionContains t.stackTable.rows t.frameTable.func funcIndexToDrop
  updateThreadStacks t t.stackTable fun stack =>
    match stack with
    | none => none
    | some s => if (stackContainsFunc[s]?).getD false then none else some s

/-! ## mergeCallNode -/

/-- Loop state of `mergeCallNode`: the map, the new rows, and the two cache
arrays `stackDepths` and `stackMatches`. -/
structure MCNState where
  map : StackMap
  newRows : List StackRow
  stackDepths : List Int
  stackMatches : List Bool
  deriving Repr

/-- The per-stack match computation of `mergeCallNode`: given whether the
prefix matched and the prefix's depth on the path, decide
`(doMerge, doesMatchCallNodePath, stackDepth)` for a stack whose frame has
the given func. -/
def mcnRowMatch (t : Thread) (callNodePath : List Nat)
    (implementation : ImplementationFilter) (doesPrefixMatch : Bool)
    (prefixDepth : Int) (funcIndex : Option Nat) : Bool × Bool × Int :=
  let depthAtCallNodePathLeaf : Int := (callNodePath.length : Int) - 1
  let currentFuncOnPath : Option Nat := callNodePath[(prefixDepth + 1).toNat]?
  if doesPrefixMatch ∧ prefixDepth < depthAtCallNodePathLeaf then
    if currentFuncOnPath = funcIndex then
      if prefixDepth + 1 = depthAtCallNodePathLeaf then
        (true, true, prefixDepth)
      else
        (false, true, prefixDepth + 1)
    else if ¬ FUNC_MATCHES implementation t funcIndex then
      (false, true, prefixDepth)
    else
      (false, false, prefixDepth)
  else
    (false, false, prefixDepth)

/-- One iteration of the `mergeCallNode` loop.  `stackDepths` reads of
not-yet-set positions default to `0`; the source reads `undefined` there,
and such a read is only reachable when the corresponding `stackMatches`
read was also unset (falsy), in which case the depth value is unused. -/
def mergeCallNodeStep (t : Thread) (callNodePath : List Nat)
    (implementation : ImplementationFilter) (st : MCNState)
    (stackIndex : Nat) : MCNState :=
  match t.stackTable.rows[stackIndex]? with
  | none => st
  | some row =>
    let funcIndex : Option Nat := t.frameTable.func[row.frame]?
    let doesPrefixMatch : Bool :=
      match row.prefixCol with
      | none => true
      | some p => (st.stackMatches[p]?).getD false
    let prefixDepth : Int :=
      match row.prefixCol with
      | none => -1
      | some p => (st.stackDepths[p]?).getD 0
    let res : Bool × Bool × Int :=
      mcnRowMatch t callNodePath implementation doesPrefixMatch prefixDepth
        funcIndex
    let doMerge := res.1
    let doesMatchCallNodePath := res.2.1
    let stackDepth := res.2.2
    if doMerge then
      let newStackPrefix := (mapFind st.map row.prefixCol).getD none
      { st with
        map := st.map ++ [some newStackPrefix]
        stackDepths := st.stackDepths ++ [stackDepth]
        stackMatches := st.stackMatches ++ [doesMatchCallNodePath] }
    else
      let newStackIndex := st.newRows.length
      let newStackPrefix := (mapFind st.map row.prefixCol).getD none
      { map := st.map ++ [some (some newStackIndex)]
        newRows := st.newRows ++
          [{ prefixCol := newStackPrefix, frame := row.frame,
             category := row.category, subcategory := row.subcategory }]
        stackDepths := st.stackDepths ++ [stackDepth]
        stackMatches := st.stackMatches ++ [doesMatchCallNodePath] }

/-- The final state of the `mergeCallNode` loop. -/
def mergeCallNodeState (t : Thread) (callNodePath : List Nat)
    (implementation : ImplementationFilter) : MCNState :=
  (List.range t.stackTable.rows.length).foldl
    (mergeCallNodeStep t callNodePath implementation) ⟨[], [], [], []⟩

/-- `mergeCallNode`: merge the stacks matching the call-node path into the
calling stack. -/
def mergeCallNode (t : Thread) (callNodePath : List Nat)
    (implementation : ImplementationFilter) : Thread :=
  timeCode "mergeCallNode" fun _ =>
    let st := mergeCallNodeState t callNodePath implementation
    updateThreadStacks t ⟨st.newRows⟩ (getMapStackUpdater st.map)

/-! ## collapseResource -/

/-- Loop state of `collapseResource`. `collapsedStacks` holds new stack
indices; `prefixToCollapsed` is the `prefixStackToCollapsedStack` map as an
association list keyed by old prefix (or null). -/
structure CRState where
  newFrameTable : FrameTable
  newFuncTable : FuncTable
  map : StackMap
  newRows : List StackRow
  prefixToCollapsed : List (Option Nat × Nat)
  collapsedStacks : List Nat
  collapsedFrameIndex : Option Nat
  collapsedFuncIndex : Option Nat
  deriving Repr

/-- Association-list lookup for `prefixStackToCollapsedStack`. -/
def assocFind (l : List (Option Nat × Nat)) (k : Option Nat) : Option Nat :=
  (l.find? fun e => decide (e.1 = k)).map fun e => e.2

/-- One iteration of the `collapseResource` loop.  The source's
`throw new Error('newStackPrefix must not be undefined')` branch is
modelled as leaving the state unchanged; it is unreachable when the input
stack table satisfies the ordering invariant. -/
def collapseResourceStep (t : Thread) (resourceIndexToCollapse : Int)
    (implementation : ImplementationFilter) (defaultCategory : Nat)
    (st : CRState) (stackIndex : Nat) : CRState :=
  match t.stackTable.rows[stackIndex]? with
  | none => st
  | some row =>
    let resourceNameIndex : Option Int :=
      if 0 ≤ resourceIndexToCollapse then
        t.resourceTable.name[resourceIndexToCollapse.toNat]?
      else none
    let funcIndex : Option Nat := t.frameTable.func[row.frame]?
    let resourceIndex : Option Int :=
      funcIndex.bind fun f => t.funcTable.resource[f]?
    match mapFind st.map row.prefixCol with
    | none => st
    | some newStackPrefix =>
      if resourceIndex = some resourceIndexToCollapse then
        if ¬ ((match newStackPrefix with
              | some v => decide (v ∈ st.collapsedStacks)
              | none => false) = true) then
          match assocFind st.prefixToCollapsed row.prefixCol with
          | none =>
            let newStackIndex := st.newRows.length
            let created :
                FrameTable × FuncTable × Nat × Option Nat :=
              match st.collapsedFrameIndex with
              | some cfi =>
                (st.newFrameTable, st.newFuncTable, cfi, st.collapsedFuncIndex)
              | none =>
                let cfi := st.newFrameTable.func.length
                let cfui := st.newFuncTable.name.length
                let ft := t.frameTable
                let fut := t.funcTable
                let nft : FrameTable :=
                  { address := st.newFrameTable.address ++
                      [(ft.address[row.frame]?).getD 0]
                    inlineDepth := st.newFrameTable.inlineDepth ++
                      [(ft.inlineDepth[row.frame]?).getD 0]
                    category := st.newFrameTable.category ++
                      [(ft.category[row.frame]?).getD none]
                    subcategory := st.newFrameTable.subcategory ++
                      [(ft.subcategory[row.frame]?).getD none]
                    func := st.newFrameTable.func ++ [cfui]
                    nativeSymbol := st.newFrameTable.nativeSymbol ++
                      [(ft.nativeSymbol[row.frame]?).getD none]
                    line := st.newFrameTable.line ++
                      [(ft.line[row.frame]?).getD none]
                    column := st.newFrameTable.column ++
                      [(ft.column[row.frame]?).getD none]
                    innerWindowID := st.newFrameTable.innerWindowID ++
                      [(ft.innerWindowID[row.frame]?).getD none]
                    implementation := st.newFrameTable.implementation ++
                      [(ft.implementation[row.frame]?).getD none]
                    optimizations := st.newFrameTable.optimizations ++
                      [(ft.optimizations[row.frame]?).getD none] }
                -- The source pushes onto every func column except
                -- `relevantForJS` (an omission reproduced faithfully here).
                let nfut : FuncTable :=
                  { isJS := st.newFuncTable.isJS ++
                      [(funcIndex.bind fun f => fut.isJS[f]?).getD false]
                    name := st.newFuncTable.name ++
                      [resourceNameIndex.getD (-1)]
                    relevantForJS := st.newFuncTable.relevantForJS
                    resource := st.newFuncTable.resource ++
                      [(funcIndex.bind fun f => fut.resource[f]?).getD (-1)]
                    fileName := st.newFuncTable.fileName ++
                      [(funcIndex.bind fun f => fut.fileName[f]?).getD none]
                    lineNumber := st.newFuncTable.lineNumber ++ [none]
                    columnNumber := st.newFuncTable.columnNumber ++ [none] }
                (nft, nfut, cfi, some cfui)
            { newFrameTable := created.1
              newFuncTable := created.2.1
              map := st.map ++ [some (some newStackIndex)]
              newRows := st.newRows ++
                [{ prefixCol := newStackPrefix, frame := created.2.2.1,
                   category := row.category, subcategory := row.subcategory }]
              prefixToCollapsed :=
                (row.prefixCol, newStackIndex) :: st.prefixToCollapsed
              collapsedStacks := newStackIndex :: st.collapsedStacks
              collapsedFrameIndex := some created.2.2.1
              collapsedFuncIndex := created.2.2.2 }
          | some existingCollapsedStack =>
            let newRows :=
              match st.newRows[existingCollapsedStack]? with
              | none => st.newRows
              | some er =>
                if er.category ≠ row.category then
                  st.newRows.set existingCollapsedStack
                    { er with category := defaultCategory, subcategory := 0 }
                else if er.subcategory ≠ row.subcategory then
                  st.newRows.set existingCollapsedStack
                    { er with subcategory := 0 }
                else st.newRows
            { st with
              map := st.map ++ [some (some existingCollapsedStack)]
              newRows := newRows }
        else
          { st with map := st.map ++ [some newStackPrefix] }
      else
        let skipAsCollapsedTail : Bool :=
          if ¬ FUNC_MATCHES implementation t funcIndex ∧ newStackPrefix ≠ none
          then
            match newStackPrefix with
            | some np =>
              let prefixFrame := (st.newRows[np]?).map fun r => r.frame
              let prefixFunc :=
                prefixFrame.bind fun pf => st.newFrameTable.func[pf]?
              let prefixResource :=
                prefixFunc.bind fun pfu => st.newFuncTable.resource[pfu]?
              decide (prefixResource = some resourceIndexToCollapse)
            | none => false
          else false
        if skipAsCollapsedTail then
          { st with map := st.map ++ [some newStackPrefix] }
        else
          let newStackIndex := st.newRows.length
          { st with
            map := st.map ++ [some (some newStackIndex)]
            newRows := st.newRows ++
              [{ prefixCol := newStackPrefix, frame := row.frame,
                 category := row.category, subcategory := row.subcategory }] }

/-- The final state of the `collapseResource` loop. -/
def collapseResourceState (t : Thread) (resourceIndexToCollapse : Int)
    (implementation : ImplementationFilter) (defaultCategory : Nat) :
    CRState :=
  (List.range t.stackTable.rows.length).foldl
    (collapseResourceStep t resourceIndexToCollapse implementation
      defaultCategory)
    ⟨shallowCloneFrameTable t.frameTable, shallowCloneFuncTable t.funcTable,
      [], [], [], [], none, none⟩

/-- `collapseResource`: collapse the stacks of funcs belonging to the given
resource into one synthetic stack node per insertion point. -/
def collapseResource (t : Thread) (resourceIndexToCollapse : Int)
    (implementation : ImplementationFilter) (defaultCategory : Nat) :
    Thread :=
  let st := collapseResourceState t resourceIndexToCollapse implementation
    defaultCategory
  let newThread : Thread :=
    { t with frameTable := st.newFrameTable, funcTable := st.newFuncTable }
  updateThreadStacks newThread ⟨st.newRows⟩ (getMapStackUpdater st.map)

/-! ## collapseDirectRecursion -/

/-- Loop state of `collapseDirectRecursion`; `recursiveStacks` holds old
stack indices. -/
structure CDRState where
  map : StackMap
  newRows : List StackRow
  recursiveStacks : List Nat
  deriving Repr

/-- One iteration of the `collapseDirectRecursion` loop.  The source's
`throw` on an undefined map entry is modelled by defaulting to null; it is
unreachable when the stack table satisfies the ordering invariant. -/
def collapseDirectRecursionStep (t : Thread) (funcToCollapse : Int)
    (implementation : ImplementationFilter) (st : CDRState)
    (stackIndex : Nat) : CDRState :=
  match t.stackTable.rows[stackIndex]? with
  | none => st
  | some row =>
    let funcIndex := frameFuncInt t row.frame
    let funcIndexNat : Option Nat := t.frameTable.func[row.frame]?
    let prefixIsRecursive : Bool :=
      match row.prefixCol with
      | none => false
      | some p => decide (p ∈ st.recursiveStacks)
    if prefixIsRecursive ∧
        (funcIndex = some funcToCollapse ∨
          ¬ FUNC_MATCHES implementation t funcIndexNat) then
      let newPrefixStackIndex := (mapFind st.map row.prefixCol).getD none
      { st with
        map := st.map ++ [some newPrefixStackIndex]
        recursiveStacks := stackIndex :: st.recursiveStacks }
    else
      let newStackIndex := st.newRows.length
      let newStackPrefix := (mapFind st.map row.prefixCol).getD none
      { map := st.map ++ [some (some newStackIndex)]
        newRows := st.newRows ++
          [{ prefixCol := newStackPrefix, frame := row.frame,
             category := row.category, subcategory := row.subcategory }]
        recursiveStacks :=
          if funcIndex = some funcToCollapse then
            stackIndex :: st.recursiveStacks
          else st.recursiveStacks }

/-- The final state of the `collapseDirectRecursion` loop. -/
def collapseDirectRecursionState (t : Thread) (funcToCollapse : Int)
    (implementation : ImplementationFilter) : CDRState :=
  (List.range t.stackTable.rows.length).foldl
    (collapseDirectRecursionStep t funcToCollapse implementation) ⟨[], [], []⟩

/-- `collapseDirectRecursion`: collapse consecutive occurrences of the
given func into the first occurrence. -/
def collapseDirectRecursion (t : Thread) (funcToCollapse : Int)
    (implementation : ImplementationFilter) : Thread :=
  let st := collapseDirectRecursionState t funcToCollapse implementation
  updateThreadStacks t ⟨st.newRows⟩ (getMapStackUpdater st.map)

/-! ## collapseFunctionSubtree -/

/-- Loop state of `collapseFunctionSubtree`; `collapsedStacks` holds old
stack indices. -/
structure CFSState where
  map : StackMap
  newRows : List StackRow
  collapsedStacks : List Nat
  deriving Repr

/-- One iteration of the `collapseFunctionSubtree` loop. -/
def collapseFunctionSubtreeStep (t : Thread) (funcToCollapse : Int)
    (defaultCategory : Nat) (st : CFSState) (stackIndex : Nat) : CFSState :=
  match t.stackTable.rows[stackIndex]? with
  | none => st
  | some row =>
    let prefixIsCollapsed : Bool :=
      match row.prefixCol with
      | none => false
      | some p => decide (p ∈ st.collapsedStacks)
    if prefixIsCollapsed then
      let newPrefixStackIndex := (mapFind st.map row.prefixCol).getD none
      let newRows :=
        match newPrefixStackIndex with
        | none => st.newRows
        | some np =>
          match st.newRows[np]? with
          | none => st.newRows
          | some er =>
            if er.category ≠ row.category then
              st.newRows.set np
                { er with category := defaultCategory, subcategory := 0 }
            else if er.subcategory ≠ row.subcategory then
              st.newRows.set np { er with subcategory := 0 }
            else st.newRows
      { map := st.map ++ [some newPrefixStackIndex]
        newRows := newRows
        collapsedStacks := stackIndex :: st.collapsedStacks }
    else
      let newStackIndex := st.newRows.length
      let newStackPrefix := (mapFind st.map row.prefixCol).getD none
      let funcIndex := frameFuncInt t row.frame
      { map := st.map ++ [some (some newStackIndex)]
        newRows := st.newRows ++
          [{ prefixCol := newStackPrefix, frame := row.frame,
             category := row.category, subcategory := row.subcategory }]
        collapsedStacks :=
          if funcIndex = some funcToCollapse then
            stackIndex :: st.collapsedStacks
          else st.collapsedStacks }

/-- The final state of the `collapseFunctionSubtree` loop. -/
def collapseFunctionSubtreeState (t : Thread) (funcToCollapse : Int)
    (defaultCategory : Nat) : CFSState :=
  (List.range t.stackTable.rows.length).foldl
    (collapseFunctionSubtreeStep t funcToCollapse defaultCategory) ⟨[], [], []⟩

/-- `collapseFunctionSubtree`: keep the first occurrence of the func on
each path but drop its descendants, redirecting their samples to it. -/
def collapseFunctionSubtree (t : Thread) (funcToCollapse : Int)
    (defaultCategory : Nat) : Thread :=
  let st := collapseFunctionSubtreeState t funcToCollapse defaultCategory
  updateThreadStacks t ⟨st.newRows⟩ (getMapStackUpdater st.map)

/-! ## focusSubtree -/

/-- Loop state of `focusSubtree`; `stackMatches` mirrors the source's
`Int32Array` (reads of positions outside the filled range default to 0,
matching the zero-initialised typed array). -/
structure FSState where
  map : StackMap
  newRows : List StackRow
  stackMatches : List Int
  deriving Repr

/-- One iteration of the `focusSubtree` loop. -/
def focusSubtreeStep (t : Thread) (callNodePath : List Nat)
    (implementation : ImplementationFilter) (st : FSState)
    (stackIndex : Nat) : FSState :=
  match t.stackTable.rows[stackIndex]? with
  | none => st
  | some row =>
    let prefixDepth : Int := (callNodePath.length : Int)
    let prefixMatchesUpTo : Int :=
      match row.prefixCol with
      | none => 0
      | some p => (st.stackMatches[p]?).getD 0
    if prefixMatchesUpTo ≠ -1 then
      let funcIndex : Option Nat := t.frameTable.func[row.frame]?
      let stackMatchesUpTo : Int :=
        if prefixMatchesUpTo = prefixDepth then prefixDepth
        else if callNodePath[prefixMatchesUpTo.toNat]? = funcIndex then
          prefixMatchesUpTo + 1
        else if ¬ FUNC_MATCHES implementation t funcIndex then
          prefixMatchesUpTo
        else -1
      if stackMatchesUpTo = prefixDepth then
        let newStackIndex := st.newRows.length
        let newStackPrefix := (mapFind st.map row.prefixCol).join
        { map := st.map ++ [some (some newStackIndex)]
          newRows := st.newRows ++
            [{ prefixCol := newStackPrefix, frame := row.frame,
               category := row.category, subcategory := row.subcategory }]
          stackMatches := st.stackMatches ++ [stackMatchesUpTo] }
      else
        { st with
          map := st.map ++ [none]
          stackMatches := st.stackMatches ++ [stackMatchesUpTo] }
    else
      { st with
        map := st.map ++ [none]
        stackMatches := st.stackMatches ++ [-1] }

/-- The final state of the `focusSubtree` loop. -/
def focusSubtreeState (t : Thread) (callNodePath : List Nat)
    (implementation : ImplementationFilter) : FSState :=
  (List.range t.stackTable.rows.length).foldl
    (focusSubtreeStep t callNodePath implementation) ⟨[], [], []⟩

/-- `focusSubtree`: keep only stacks whose filtered ancestor chain starts
with the call-node path, re-rooted at the path's tip.  The sample updater
returns null unless the stack fully matched; the source's `throw` on a
missing map entry for a matched stack is modelled as null (unreachable:
matched stacks always receive a map entry). -/
def focusSubtree (t : Thread) (callNodePath : List Nat)
    (implementation : ImplementationFilter) : Thread :=
  timeCode "focusSubtree" fun _ =>
    let prefixDepth : Int := (callNodePath.length : Int)
    let st := focusSubtreeState t callNodePath implementation
    updateThreadStacks t ⟨st.newRows⟩ fun oldStack =>
      match oldStack with
      | none => none
      | some s =>
        if (st.stackMatches[s]?).getD 0 ≠ prefixDepth then none
        else (mapFind st.map (some s)).getD none

/-! ## focusInvertedSubtree -/

/-- The `convertStack` walk of `focusInvertedSubtree`: starting from a leaf
stack, walk up the prefix chain matching the postfix call-node path from
the leaf; return the stack where the full path was matched, or null when a
func on the chain diverges and matches the implementation filter.  `fuel`
bounds the walk (the source's loop terminates because prefixes strictly
decrease on a well-formed table); it is called with the stack-table length,
which is enough fuel for any chain of a table satisfying the ordering
invariant. -/
def convertStackGo (t : Thread) (postfixCallNodePath : List Nat)
    (implementation : ImplementationFilter) :
    (fuel : Nat) → (matchesUpToDepth : Nat) → Option Nat → Option Nat
  | _, _, none => none
  | 0, _, some _ => none
  | fuel + 1, matchesUpToDepth, some stack =>
    match t.stackTable.rows[stack]? with
    | none => none
    | some row =>
      let postfixDepth := postfixCallNodePath.length
      let funcIndex : Option Nat := t.frameTable.func[row.frame]?
      if funcIndex = postfixCallNodePath[matchesUpToDepth]? then
        if matchesUpToDepth + 1 = postfixDepth then some stack
        else
          convertStackGo t postfixCallNodePath implementation fuel
            (matchesUpToDepth + 1) row.prefixCol
      else if FUNC_MATCHES implementation t funcIndex then none
      else
        convertStackGo t postfixCallNodePath implementation fuel
          matchesUpToDepth row.prefixCol

/-- `focusInvertedSubtree`: keep only stacks whose chains end with the
postfix call-node path; the stack table is reused unchanged and only the
sample stacks are redirected.  The source memoises `convertStack` in
`oldStackToNewStack`; memoisation is pure caching, so the updater is
modelled as a direct call (with the seeded null -> null entry giving the
`none` case). -/
def focusInvertedSubtree (t : Thread) (postfixCallNodePath : List Nat)
    (implementation : ImplementationFilter) : Thread :=
  timeCode "focusInvertedSubtree" fun _ =>
    updateThreadStacks t t.stackTable fun stackIndex =>
      match stackIndex with
      | none => none
      | some s =>
        convertStackGo t postfixCallNodePath implementation
          t.stackTable.rows.length 0 (some s)

/-! ## focusFunction -/

/-- Loop state of `focusFunction`. -/
structure FFState where
  map : StackMap
  newRows : List StackRow
  deriving Repr

/-- One iteration of the `focusFunction` loop. -/
def focusFunctionStep (t : Thread) (funcIndexToFocus : Int) (st : FFState)
    (stackIndex : Nat) : FFState :=
  match t.stackTable.rows[stackIndex]? with
  | none => st
  | some row =>
    let funcIndex := frameFuncInt t row.frame
    let matchesFocusFunc := funcIndex = some funcIndexToFocus
    let newPrefix := (mapFind st.map row.prefixCol).getD none
    if newPrefix ≠ none ∨ matchesFocusFunc then
      let newStackIndex := st.newRows.length
      { map := st.map ++ [some (some newStackIndex)]
        newRows := st.newRows ++
          [{ prefixCol := newPrefix, frame := row.frame,
             category := row.category, subcategory := row.subcategory }] }
    else
      { st with map := st.map ++ [some none] }

/-- The final state of the `focusFunction` loop. -/
def focusFunctionState (t : Thread) (funcIndexToFocus : Int) : FFState :=
  (List.range t.stackTable.rows.length).foldl
    (focusFunctionStep t funcIndexToFocus) ⟨[], []⟩

/-- `focusFunction`: keep a stack only if its own func or some ancestor's
func is the focused one, re-rooted at the first occurrence. -/
def focusFunction (t : Thread) (funcIndexToFocus : Int) : Thread :=
  timeCode "focusFunction" fun _ =>
    let st := focusFunctionState t funcIndexToFocus
    updateThreadStacks t ⟨st.newRows⟩ (getMapStackUpdater st.map)

/-! ## applyTransform -/

/-- `applyTransform` dispatches over the transform kind (the `inverted`
flag of focus-subtree selects the inverted variant). -/
def applyTransform (t : Thread) (transform : Transform)
    (defaultCategory : Nat) : Thread :=
  match transform with
  | .focusSubtree implementation callNodePath inverted =>
    if inverted then focusInvertedSubtree t callNodePath implementation
    else focusSubtree t callNodePath implementation
  | .mergeCallNode implementation callNodePath =>
    mergeCallNode t callNodePath implementation
  | .mergeFunction funcIndex => mergeFunction t funcIndex
  | .dropFunction funcIndex => dropFunction t funcIndex
  | .focusFunction funcIndex => focusFunction t funcIndex
  | .collapseResource implementation resourceIndex _collapsedFuncIndex =>
    collapseResource t resourceIndex implementation defaultCategory
  | .collapseDirectRecursion implementation funcIndex =>
    collapseDirectRecursion t funcIndex implementation
  | .collapseFunctionSubtree funcIndex =>
    collapseFunctionSubtree t funcIndex defaultCategory

/-! ## The transform-stack codec -/

/-- Modelled from the spec: the compact reversible integer-array encoding of
`uintarray-encoding.js`.  Each number is emitted little-endian in 3-bit
chunks; a chunk value below 8 terminates a number, a chunk value in 8..15
carries 3 payload bits with a continuation marker. -/
def encodeNatChunks (n : Nat) : List Nat :=
  if n < 8 then [n]
  else (n % 8 + 8) :: encodeNatChunks (n / 8)
decreasing_by omega

/-- Modelled from the spec: decoder loop for the chunk stream;
`acc`/`shift` accumulate the number currently being read, and a trailing
incomplete number is discarded (the decoder is total on all inputs). -/
def decodeChunksGo : List Nat → Nat → Nat → List Nat
  | [], _, _ => []
  | c :: rest, acc, shift =>
    if c < 8 then (acc + c * 8 ^ shift) :: decodeChunksGo rest 0 0
    else decodeChunksGo rest (acc + (c - 8) * 8 ^ shift) (shift + 1)

/-- A chunk value (0..15) rendered as one of the URL-safe characters
`a`..`p`. -/
def chunkChar (v : Nat) : Char := Char.ofNat (97 + v)

/-- The chunk value of a character (total; characters outside `a`..`p`
simply decode to some chunk value). -/
def charChunk (c : Char) : Nat := c.toNat - 97

/-- Modelled from the spec: `encodeUintArrayForUrlComponent` on a character
list. -/
def encodeUintArrayForUrlComponentChars (l : List Nat) : List Char :=
  ((l.map encodeNatChunks).flatten).map chunkChar

/-- Modelled from the spec: `encodeUintArrayForUrlComponent`. -/
def encodeUintArrayForUrlComponent (l : List Nat) : String :=
  ⟨encodeUintArrayForUrlComponentChars l⟩

/-- Modelled from the spec: `decodeUintArrayFromUrlComponent` on a
character list. -/
def decodeUintArrayFromUrlComponentChars (cs : List Char) : List Nat :=
  decodeChunksGo (cs.map charChunk) 0 0

/-- Modelled from the spec: `decodeUintArrayFromUrlComponent`. -/
def decodeUintArrayFromUrlComponent (s : String) : List Nat :=
  decodeUintArrayFromUrlComponentChars s.data

/-- Decimal digits of a natural number (the rendering used by a JavaScript
template literal for a non-negative number). -/
def natToChars (n : Nat) : List Char :=
  if n < 10 then [Char.ofNat (48 + n)]
  else natToChars (n / 10) ++ [Char.ofNat (48 + n % 10)]
decreasing_by omega

/-- Decimal rendering of an integer, with a leading minus sign when
negative. -/
def intToChars (i : Int) : List Char :=
  if i < 0 then '-' :: natToChars (-i).toNat else natToChars i.toNat

/-- The whitespace characters skipped by `parseInt`. -/
def isJsWhitespace (c : Char) : Bool :=
  c == ' ' || c == '\t' || c == '\n' || c == '\r' || c == '\x0b' || c == '\x0c'

/-- Decimal digit test. -/
def isDigitChar (c : Char) : Bool := 48 ≤ c.toNat && c.toNat ≤ 57

/-- Value of a decimal digit character. -/
def digitVal (c : Char) : Nat := c.toNat - 48

/-- Value of a list of decimal digit characters (most significant first). -/
def digitsToNat (ds : List Char) : Nat :=
  ds.foldl (fun acc c => acc * 10 + digitVal c) 0

/-- The leading digit run of a string, as a number (`none` when the string
does not start with a digit, i.e. `parseInt` yields `NaN`). -/
def jsParseIntDigits (cs : List Char) : Option Nat :=
  let ds := cs.takeWhile isDigitChar
  if ds.isEmpty then none else some (digitsToNat ds)

/-- JavaScript `parseInt(s, 10)`: skip leading whitespace, read an optional
sign and then the leading run of decimal digits; `none` models `NaN`. -/
def jsParseInt (cs : List Char) : Option Int :=
  match cs.dropWhile isJsWhitespace with
  | '-' :: rest => (jsParseIntDigits rest).map fun n => -(n : Int)
  | '+' :: rest => (jsParseIntDigits rest).map fun n => (n : Int)
  | rest => (jsParseIntDigits rest).map fun n => (n : Int)

/-- `parseInt` applied to a tuple slot that can be absent
(`parseInt(undefined)` is `NaN`). -/
def jsParseIntOpt (o : Option (List Char)) : Option Int := o.bind jsParseInt

/-- Split a character list on a separator character (JavaScript
`String.prototype.split` with a one-character separator: always returns at
least one, possibly empty, piece). -/
def splitOnChar (sep : Char) : List Char → List (List Char)
  | [] => [[]]
  | c :: rest =>
    match splitOnChar sep rest with
    | [] => [[]]
    | g :: gs => if c = sep then [] :: g :: gs else (c :: g) :: gs

/-- Join character lists with a separator character (JavaScript
`Array.prototype.join` / template-literal concatenation). -/
def joinChar (sep : Char) : List (List Char) → List Char
  | [] => []
  | [t] => t
  | t :: ts => t ++ sep :: joinChar sep ts

/-- The short-key-to-transform-type mapping built at module load
(`SHORT_KEY_TO_TRANSFORM`), as the resulting lookup function. -/
def SHORT_KEY_TO_TRANSFORM (shortKey : List Char) : Option TransformType :=
  if shortKey = "f".data then some .focusSubtree
  else if shortKey = "ff".data then some .focusFunction
  else if shortKey = "mcn".data then some .mergeCallNode
  else if shortKey = "mf".data then some .mergeFunction
  else if shortKey = "df".data then some .dropFunction
  else if shortKey = "cr".data then some .collapseResource
  else if shortKey = "rec".data then some .collapseDirectRecursion
  else if shortKey = "cfs".data then some .collapseFunctionSubtree
  else none

/-- The transform-type-to-short-key mapping (`TRANSFORM_TO_SHORT_KEY`). -/
def TRANSFORM_TO_SHORT_KEY : TransformType → List Char
  | .focusSubtree => "f".data
  | .focusFunction => "ff".data
  | .mergeCallNode => "mcn".data
  | .mergeFunction => "mf".data
  | .dropFunction => "df".data
  | .collapseResource => "cr".data
  | .collapseDirectRecursion => "rec".data
  | .collapseFunctionSubtree => "cfs".data

/-- Modelled from the spec: `convertToTransformType` of `flow.js` validates
a candidate transform-type value, mapping `undefined` to null; applied to
the already-typed result of `SHORT_KEY_TO_TRANSFORM` it is the identity. -/
def convertToTransformType (x : Option TransformType) : Option TransformType :=
  x

/-- Modelled from the spec: `toValidImplementationFilter` of
`profile-data.js` keeps `cpp` and `js` and coerces anything else to
`combined`. -/
def toValidImplementationFilter (cs : List Char) : ImplementationFilter :=
  if cs = "cpp".data then .cpp
  else if cs = "js".data then .js
  else .combined

/-- `toValidImplementationFilter` applied to a tuple slot that can be
absent. -/
def toValidImplementationFilterOpt :
    Option (List Char) → ImplementationFilter
  | some cs => toValidImplementationFilter cs
  | none => .combined

/-- The string written for an implementation filter by a template literal. -/
def implementationChars : ImplementationFilter → List Char
  | .combined => "combined".data
  | .cpp => "cpp".data
  | .js => "js".data

/-- One iteration of the `parseTransforms` loop: parse one `~`-separated
token (already split on `-` into its tuple).  Returns the transforms pushed
(zero or one) and the short keys passed to `console.error` (the
unrecognised-key branch logs; every other rejection is silent). -/
def parseTransformToken (tuple : List (List Char)) :
    List Transform × List (List Char) :=
  let shortKey := (tuple[0]?).getD []
  match convertToTransformType (SHORT_KEY_TO_TRANSFORM shortKey) with
  | none => ([], [shortKey])
  | some ttype =>
    match ttype with
    | .collapseResource =>
      match jsParseIntOpt tuple[2]?, jsParseIntOpt tuple[3]? with
      | some resourceIndex, some collapsedFuncIndex =>
        if 0 ≤ resourceIndex then
          ([.collapseResource (toValidImplementationFilterOpt tuple[1]?)
              resourceIndex collapsedFuncIndex], [])
        else ([], [])
      | _, _ => ([], [])
    | .collapseDirectRecursion =>
      match jsParseIntOpt tuple[2]? with
      | some funcIndex =>
        if funcIndex < 0 then ([], [])
        else
          ([.collapseDirectRecursion (toValidImplementationFilterOpt tuple[1]?)
              funcIndex], [])
      | none => ([], [])
    | .mergeFunction =>
      match jsParseIntOpt tuple[1]? with
      | some funcIndex =>
        if 0 ≤ funcIndex then ([.mergeFunction funcIndex], []) else ([], [])
      | none => ([], [])
    | .focusFunction =>
      match jsParseIntOpt tuple[1]? with
      | some funcIndex =>
        if 0 ≤ funcIndex then ([.focusFunction funcIndex], []) else ([], [])
      | none => ([], [])
    | .dropFunction =>
      match jsParseIntOpt tuple[1]? with
      | some funcIndex =>
        if 0 ≤ funcIndex then ([.dropFunction funcIndex], []) else ([], [])
      | none => ([], [])
    | .collapseFunctionSubtree =>
      match jsParseIntOpt tuple[1]? with
      | some funcIndex =>
        if 0 ≤ funcIndex then ([.collapseFunctionSubtree funcIndex], [])
        else ([], [])
      | none => ([], [])
    | .focusSubtree =>
      let implementation := toValidImplementationFilterOpt tuple[1]?
      let callNodePath :=
        decodeUintArrayFromUrlComponentChars ((tuple[2]?).getD [])
      let inverted :=
        match tuple[3]? with
        | none => false
        | some cs => !cs.isEmpty
      ([.focusSubtree implementation callNodePath inverted], [])
    | .mergeCallNode =>
      let implementation := toValidImplementationFilterOpt tuple[1]?
      let callNodePath :=
        decodeUintArrayFromUrlComponentChars ((tuple[2]?).getD [])
      ([.mergeCallNode implementation callNodePath], [])

/-- `parseTransforms` on a character list: the empty string is shortcut to
the empty stack, otherwise the `~`-separated tokens are each split on `-`
and parsed, concatenating whatever each token contributes. -/
def parseTransformsChars (cs : List Char) : List Transform :=
  if cs = [] then []
  else
    ((splitOnChar '~' cs).map fun tok =>
      (parseTransformToken (splitOnChar '-' tok)).1).flatten

/-- The short keys logged via `console.error` while parsing, in order. -/
def parseTransformsLogsChars (cs : List Char) : List (List Char) :=
  if cs = [] then []
  else
    ((splitOnChar '~' cs).map fun tok =>
      (parseTransformToken (splitOnChar '-' tok)).2).flatten

/-- `parseTransforms`: parse the transform stack of a URL. -/
def parseTransforms (transformString : String) : List Transform :=
  parseTransformsChars transformString.data

/-- The `console.error` log produced by `parseTransforms`. -/
def parseTransformsLogs (transformString : String) : List (List Char) :=
  parseTransformsLogsChars transformString.data

/-- The transform-type tag of a transform value (`transform.type`). -/
def Transform.ttype : Transform → TransformType
  | .focusSubtree _ _ _ => .focusSubtree
  | .focusFunction _ => .focusFunction
  | .mergeCallNode _ _ => .mergeCallNode
  | .mergeFunction _ => .mergeFunction
  | .dropFunction _ => .dropFunction
  | .collapseResource _ _ _ => .collapseResource
  | .collapseDirectRecursion _ _ => .collapseDirectRecursion
  | .collapseFunctionSubtree _ => .collapseFunctionSubtree

/-- Serialize one transform: the short key and its fields joined by `-`,
with focus-subtree appending `-i` when inverted. -/
def stringifyOneTransform (transform : Transform) : List Char :=
  let shortKey := TRANSFORM_TO_SHORT_KEY transform.ttype
  match transform with
  | .mergeFunction funcIndex => joinChar '-' [shortKey, intToChars funcIndex]
  | .dropFunction funcIndex => joinChar '-' [shortKey, intToChars funcIndex]
  | .collapseFunctionSubtree funcIndex =>
    joinChar '-' [shortKey, intToChars funcIndex]
  | .focusFunction funcIndex => joinChar '-' [shortKey, intToChars funcIndex]
  | .collapseResource implementation resourceIndex collapsedFuncIndex =>
    joinChar '-' [shortKey, implementationChars implementation,
      intToChars resourceIndex, intToChars collapsedFuncIndex]
  | .collapseDirectRecursion implementation funcIndex =>
    joinChar '-' [shortKey, implementationChars implementation,
      intToChars funcIndex]
  | .focusSubtree implementation callNodePath inverted =>
    let string := joinChar '-' [shortKey, implementationChars implementation,
      encodeUintArrayForUrlComponentChars callNodePath]
    if inverted then string ++ "-i".data else string
  | .mergeCallNode implementation callNodePath =>
    joinChar '-' [shortKey, implementationChars implementation,
      encodeUintArrayForUrlComponentChars callNodePath]

/-- `stringifyTransforms`: each transform stringified and joined by `~`. -/
def stringifyTransforms (transformStack : List Transform) : String :=
  ⟨joinChar '~' (transformStack.map stringifyOneTransform)⟩

/-- The loop body of `_collapseDirectRecursionInCallNodePath`, carrying
`previousFunc` (initially `undefined`, modelled as `none`). -/
def collapseDRPathGo (funcIndex : Int) :
    List Int → Option Int → List Int
  | [], _ => []
  | p :: rest, previousFunc =>
    if p ≠ funcIndex ∨ some p ≠ previousFunc then
      p :: collapseDRPathGo funcIndex rest (some p)
    else collapseDRPathGo funcIndex rest (some p)

/-- `_collapseDirectRecursionInCallNodePath`: drop each path entry that
equals the collapsed func and repeats its immediate predecessor. -/
def collapseDirectRecursionInCallNodePath (funcIndex : Int)
    (callNodePath : List Int) : List Int :=
  collapseDRPathGo funcIndex callNodePath none

/-! ## Invariants and declarative descriptions used by the theorems -/

/-- The stack-table ordering invariant: every row's prefix is null or a
strictly smaller index. -/
def StackTable.orderedB (st : StackTable) : Bool :=
  (List.range st.rows.length).all fun i =>
    match st.rows[i]? with
    | none => true
    | some row =>
      match row.prefixCol with
      | none => true
      | some p => decide (p < i)

/-- Every entry of the `stack` column is null or a valid index below
`len`. -/
def SamplesTable.stacksOkB (s : SamplesTable) (len : Nat) : Bool :=
  s.stack.all fun os =>
    match os with
    | none => true
    | some v => decide (v < len)

/-- Every sample-like table of the thread has a `stack` column of null or
valid indices into the thread's own stack table. -/
def Thread.samplesOkB (t : Thread) : Bool :=
  t.samples.stacksOkB t.stackTable.rows.length &&
    (match t.jsAllocations with
     | none => true
     | some a => a.stacksOkB t.stackTable.rows.length) &&
    (match t.nativeAllocations with
     | none => true
     | some a => a.stacksOkB t.stackTable.rows.length)

/-- Whether the given func (as `Int`) appears on the ancestor chain of a
stack (the stack's own frame's func included); `fuel` bounds the walk. -/
def stackHasFuncInAncestry (rows : List StackRow) (funcCol : List Nat)
    (funcIndex : Int) : (fuel : Nat) → Option Nat → Bool
  | _, none => false
  | 0, some _ => false
  | fuel + 1, some s =>
    match rows[s]? with
    | none => false
    | some row =>
      decide ((funcCol[row.frame]?).map (fun n => (n : Int)) = some funcIndex)
        || stackHasFuncInAncestry rows funcCol funcIndex fuel row.prefixCol

/-- The funcs along the ancestor chain of a stack, root first, the stack's
own func last (an out-of-range frame or func reference contributes `-1`;
the theorems' hypotheses keep every reference in range). -/
def funcChain (rows : List StackRow) (funcCol : List Nat) :
    (fuel : Nat) → Option Nat → List Int
  | _, none => []
  | 0, some _ => []
  | fuel + 1, some s =>
    match rows[s]? with
    | none => []
    | some row =>
      funcChain rows funcCol fuel row.prefixCol ++
        [((funcCol[row.frame]?).map fun n => (n : Int)).getD (-1)]

/-- Every stack row's frame reference is a valid frame-table index and that
frame's func matches the implementation filter. -/
def Thread.stackFuncsMatchB (t : Thread)
    (implementation : ImplementationFilter) : Bool :=
  t.stackTable.rows.all fun row =>
    (t.frameTable.func[row.frame]?).isSome &&
      FUNC_MATCHES implementation t t.frameTable.func[row.frame]?

/-- The implementation-filtered ancestor func chain of a stack: the funcs
along the chain from the root to the stack itself, keeping only funcs that
match the implementation filter. -/
def filteredFuncChain (t : Thread) (implementation : ImplementationFilter) :
    (fuel : Nat) → Option Nat → List Nat
  | _, none => []
  | 0, some _ => []
  | fuel + 1, some s =>
    match t.stackTable.rows[s]? with
    | none => []
    | some row =>
      let rest := filteredFuncChain t implementation fuel row.prefixCol
      match t.frameTable.func[row.frame]? with
      | none => rest
      | some f =>
        if FUNC_MATCHES implementation t (some f) then rest ++ [f] else rest

/-- The ancestor chain of a stack as a list of stack indices, root first,
the stack itself last. -/
def stackAncestors (rows : List StackRow) :
    (fuel : Nat) → Option Nat → List Nat
  | _, none => []
  | 0, some _ => []
  | fuel + 1, some s =>
    match rows[s]? with
    | none => []
    | some row => stackAncestors rows fuel row.prefixCol ++ [s]

/-- The match state of `mergeCallNode` computed declaratively over the
prefix chain instead of over the loop's cache arrays: for a stack (or
null), whether the chain so far lies on the call-node path and the depth
reached on the path. -/
def mcnMatchDepth (t : Thread) (callNodePath : List Nat)
    (implementation : ImplementationFilter) :
    (fuel : Nat) → Option Nat → Bool × Int
  | _, none => (true, -1)
  | 0, some _ => (false, 0)
  | fuel + 1, some s =>
    match t.stackTable.rows[s]? with
    | none => (false, 0)
    | some row =>
      let pm :=
        mcnMatchDepth t callNodePath implementation fuel row.prefixCol
      let res := mcnRowMatch t callNodePath implementation pm.1 pm.2
        t.frameTable.func[row.frame]?
      (res.2.1, res.2.2)

/-- Whether `mergeCallNode` merges away the given stack: its prefix chain
matches the call-node path and its own func is the path's tip at leaf
depth. -/
def mcnMerged (t : Thread) (callNodePath : List Nat)
    (implementation : ImplementationFilter) (s : Nat) : Bool :=
  match t.stackTable.rows[s]? with
  | none => false
  | some row =>
    let pm := mcnMatchDepth t callNodePath implementation
      t.stackTable.rows.length row.prefixCol
    (mcnRowMatch t callNodePath implementation pm.1 pm.2
      t.frameTable.func[row.frame]?).1

/-- The claim `merge-call-node removes exactly the one stack node at the
tip of the path and no other`, formalised: (1) the new stack table has
exactly one row fewer per stack whose implementation-filtered ancestor
chain equals the path; (2) each such stack's samples are redirected to its
parent's image; (3) every stack that is not on a branch through such a
node is re-emitted with frame, category and subcategory unchanged and its
prefix attached to its parent's image. -/
def mergeCallNodeClaimB (t : Thread) (callNodePath : List Nat)
    (implementation : ImplementationFilter) : Bool :=
  let st := mergeCallNodeState t callNodePath implementation
  let len := t.stackTable.rows.length
  let upd := getMapStackUpdater st.map
  let isTip := fun s =>
    decide (filteredFuncChain t implementation len (some s) = callNodePath)
  let onMatchingBranch := fun s =>
    (stackAncestors t.stackTable.rows len (some s)).any isTip
  (decide (st.newRows.length =
      len - ((List.range len).filter isTip).length)) &&
    ((List.range len).all fun s =>
      if isTip s then
        match t.stackTable.rows[s]? with
        | none => true
        | some row => decide (upd (some s) = upd row.prefixCol)
      else true) &&
    ((List.range len).all fun s =>
      if onMatchingBranch s then true
      else
        match t.stackTable.rows[s]? with
        | none => true
        | some row =>
          match upd (some s) with
          | none => false
          | some j =>
            match st.newRows[j]? with
            | none => false
            | some newRow =>
              decide (newRow.frame = row.frame) &&
                decide (newRow.category = row.category) &&
                decide (newRow.subcategory = row.subcategory) &&
                decide (newRow.prefixCol = upd row.prefixCol))

/-- Whether an old stack contributes its category to the collapsed node
`n` in `collapseResource`'s final state: its func belongs to the collapsed
resource, it is mapped to `n`, and its parent's image is not itself a
collapsed node (such stacks take the branch that creates or category-merges
into `n`; stacks below a collapsed node merge in without touching the
node's category). -/
def crContributes (t : Thread) (resourceIndexToCollapse : Int)
    (st : CRState) (n : Nat) (s : Nat) : Bool :=
  match t.stackTable.rows[s]? with
  | none => false
  | some row =>
    let funcIndex := t.frameTable.func[row.frame]?
    decide ((funcIndex.bind fun f => t.funcTable.resource[f]?) =
        some resourceIndexToCollapse) &&
      decide (mapFind st.map (some s) = some (some n)) &&
      (match (mapFind st.map row.prefixCol).getD none with
       | some v => !decide (v ∈ st.collapsedStacks)
       | none => true)

/-- The sequential category-conflict resolution applied to a collapsed
node: starting from the creator's category/subcategory, each further
contributor either agrees, conflicts on category (fall back to the default
category with subcategory 0), or conflicts only on subcategory (subcategory
0). -/
def resolveCategories (defaultCategory : Nat) :
    Nat × Nat → List (Nat × Nat) → Nat × Nat
  | cur, [] => cur
  | cur, c :: rest =>
    resolveCategories defaultCategory
      (if cur.1 ≠ c.1 then (defaultCategory, 0)
       else if cur.2 ≠ c.2 then (cur.1, 0)
       else cur) rest

/-- Well-formedness of a transform for the URL round trip: the numeric
index fields are non-negative (call-node paths, implementation filters and
the inverted flag are well typed by construction). -/
def Transform.wellFormedB : Transform → Bool
  | .focusSubtree _ _ _ => true
  | .mergeCallNode _ _ => true
  | .focusFunction funcIndex => decide (0 ≤ funcIndex)
  | .mergeFunction funcIndex => decide (0 ≤ funcIndex)
  | .dropFunction funcIndex => decide (0 ≤ funcIndex)
  | .collapseFunctionSubtree funcIndex => decide (0 ≤ funcIndex)
  | .collapseDirectRecursion _ funcIndex => decide (0 ≤ funcIndex)
  | .collapseResource _ resourceIndex collapsedFuncIndex =>
    decide (0 ≤ resourceIndex) && decide (0 ≤ collapsedFuncIndex)

/-! ## Concrete example threads for witnesses and counterexamples -/

/-- A frame table with one frame per func, frame `i` referencing func `i`. -/
def mkFrameTable (funcs : List Nat) : FrameTable :=
  { address := funcs.map fun _ => 0
    inlineDepth := funcs.map fun _ => 0
    category := funcs.map fun _ => none
    subcategory := funcs.map fun _ => none
    func := funcs
    nativeSymbol := funcs.map fun _ => none
    line := funcs.map fun _ => none
    column := funcs.map fun _ => none
    innerWindowID := funcs.map fun _ => none
    implementation := funcs.map fun _ => none
    optimizations := funcs.map fun _ => none }

/-- A func table from per-func `(name, isJS, resource)` descriptions. -/
def mkFuncTable (descs : List (Int × Bool × Int)) : FuncTable :=
  { name := descs.map fun d => d.1
    isJS := descs.map fun d => d.2.1
    relevantForJS := descs.map fun _ => false
    resource := descs.map fun d => d.2.2
    fileName := descs.map fun _ => none
    lineNumber := descs.map fun _ => none
    columnNumber := descs.map fun _ => none }

/-- A thread with two funcs `A = 0`, `B = 1` (one frame each) and the stack
chain `A -> B -> B` (`B` calling itself), with one sample per stack plus a
null sample. -/
def exThreadABB : Thread :=
  { stackTable := ⟨[⟨none, 0, 1, 0⟩, ⟨some 0, 1, 1, 0⟩, ⟨some 1, 1, 1, 0⟩]⟩
    frameTable := mkFrameTable [0, 1]
    funcTable := mkFuncTable [(0, false, -1), (1, false, -1)]
    resourceTable := { name := [], lib := [] }
    stringTable := ["A", "B"]
    samples := { stack := [some 0, some 1, some 2, none]
                 time := [0, 1, 2, 3]
                 weight := none
                 weightType := "samples" }
    jsAllocations := none
    nativeAllocations := none }

/-- A thread for collapse-resource: funcs `parent = 0` (no resource),
`f1 = 1` and `f2 = 2` (both in resource 0), `jsf = 3` (JS, no resource);
stacks `parent`, `parent -> f1` (category 2), `parent -> f2` (category 3),
`f1` as a root, and `parent -> f1 -> jsf`. -/
def exThreadRes : Thread :=
  { stackTable := ⟨[⟨none, 0, 1, 0⟩, ⟨some 0, 1, 2, 0⟩, ⟨some 0, 2, 3, 1⟩,
      ⟨none, 1, 2, 0⟩, ⟨some 1, 3, 2, 0⟩]⟩
    frameTable := mkFrameTable [0, 1, 2, 3]
    funcTable := mkFuncTable
      [(0, false, -1), (1, false, 0), (2, false, 0), (3, true, -1)]
    resourceTable := { name := [9], lib := [none] }
    stringTable := ["parent", "f1", "f2", "jsf"]
    samples := { stack := [some 0, some 1, some 2, some 3, some 4]
                 time := [0, 1, 2, 3, 4]
                 weight := none
                 weightType := "samples" }
    jsAllocations := none
    nativeAllocations := none }

/-- A thread whose single chain is `A -> X -> A` where `A = 0` is JS and
`X = 1` is not (used for collapse-direct-recursion with the `js` filter). -/
def exThreadAXA : Thread :=
  { stackTable := ⟨[⟨none, 0, 1, 0⟩, ⟨some 0, 1, 1, 0⟩, ⟨some 1, 0, 1, 0⟩]⟩
    frameTable := mkFrameTable [0, 1]
    funcTable := mkFuncTable [(0, true, -1), (1, false, -1)]
    resourceTable := { name := [], lib := [] }
    stringTable := ["A", "X"]
    samples := { stack := [some 0, some 1, some 2, none]
                 time := [0, 1, 2, 3]
                 weight := none
                 weightType := "samples" }
    jsAllocations := none
    nativeAllocations := none }

/-- A thread whose single chain is `A -> A -> A -> B -> A -> A`
(`A = 0`, `B = 1`), the collapse-direct-recursion example. -/
def exThreadAAABAA : Thread :=
  { stackTable := ⟨[⟨none, 0, 1, 0⟩, ⟨some 0, 0, 1, 0⟩, ⟨some 1, 0, 1, 0⟩,
      ⟨some 2, 1, 1, 0⟩, ⟨some 3, 0, 1, 0⟩, ⟨some 4, 0, 1, 0⟩]⟩
    frameTable := mkFrameTable [0, 1]
    funcTable := mkFuncTable [(0, false, -1), (1, false, -1)]
    resourceTable := { name := [], lib := [] }
    stringTable := ["A", "B"]
    samples := { stack := [some 5]
                 time := [0]
                 weight := none
                 weightType := "samples" }
    jsAllocations := none
    nativeAllocations := none }

/-- The name index given to the synthetic collapsed func: the resource's
name, or `-1` when the resource index is out of range (the source reads
`resourceTable.name[resourceIndexToCollapse]`). -/
def crCollapsedNameIndex (t : Thread) (R : Int) : Int :=
  ((if 0 ≤ R then t.resourceTable.name[R.toNat]? else none)).getD (-1)

/-- A thread like `exThreadRes` whose two sibling resource funcs agree on
category but differ in subcategory (for the subcategory-only conflict). -/
def exThreadResSub : Thread :=
  { stackTable := ⟨[⟨none, 0, 1, 0⟩, ⟨some 0, 1, 2, 0⟩, ⟨some 0, 2, 2, 1⟩]⟩
    frameTable := mkFrameTable [0, 1, 2]
    funcTable := mkFuncTable [(0, false, -1), (1, false, 0), (2, false, 0)]
    resourceTable := { name := [9], lib := [none] }
    stringTable := ["parent", "f1", "f2"]
    samples := { stack := [some 0, some 1, some 2]
                 time := [0, 1, 2]
                 weight := none
                 weightType := "samples" }
    jsAllocations := none
    nativeAllocations := none }

/-! ## Lemmas about splitting and joining -/

theorem splitOnChar_sepFree (sep : Char) (l : List Char) (h : sep ∉ l) :
    splitOnChar sep l = [l] := by
  induction l with
  | nil => rfl
  | cons c rest ih =>
    have hc : c ≠ sep := fun hc => h (hc ▸ List.mem_cons_self c rest)
    have hrest : sep ∉ rest := fun hr => h (List.mem_cons_of_mem c hr)
    simp [splitOnChar, ih hrest, hc]

theorem splitOnChar_ne_nil (sep : Char) (l : List Char) :
    splitOnChar sep l ≠ [] := by
  cases l with
  | nil => simp [splitOnChar]
  | cons c rest =>
    simp only [splitOnChar]
    cases splitOnChar sep rest with
    | nil => simp
    | cons g gs =>
      by_cases hc : c = sep <;> simp [hc]

theorem splitOnChar_append (sep : Char) (l r : List Char) (h : sep ∉ l) :
    splitOnChar sep (l ++ sep :: r) = l :: splitOnChar sep r := by
  induction l with
  | nil =>
    show splitOnChar sep (sep :: r) = [] :: splitOnChar sep r
    simp only [splitOnChar]
    obtain ⟨g, gs, hg⟩ : ∃ g gs, splitOnChar sep r = g :: gs := by
      cases hr : splitOnChar sep r with
      | nil => exact (splitOnChar_ne_nil sep r hr).elim
      | cons g gs => exact ⟨g, gs, rfl⟩
    rw [hg]
    simp
  | cons c rest ih =>
    have hc : c ≠ sep := fun hc => h (hc ▸ List.mem_cons_self c rest)
    have hrest : sep ∉ rest := fun hr => h (List.mem_cons_of_mem c hr)
    show splitOnChar sep (c :: (rest ++ sep :: r)) =
      (c :: rest) :: splitOnChar sep r
    simp only [splitOnChar]
    rw [ih hrest]
    simp [hc]

theorem splitOnChar_joinChar (sep : Char) (ts : List (List Char))
    (hne : ts ≠ []) (hfree : ∀ t ∈ ts, sep ∉ t) :
    splitOnChar sep (joinChar sep ts) = ts := by
  induction ts with
  | nil => exact (hne rfl).elim
  | cons t rest ih =>
    cases rest with
    | nil =>
      exact splitOnChar_sepFree sep t (hfree t (List.mem_cons_self t []))
    | cons u us =>
      have hfree' : ∀ x ∈ u :: us, sep ∉ x := fun x hx =>
        hfree x (List.mem_cons_of_mem t hx)
      have : joinChar sep (t :: u :: us) = t ++ sep :: joinChar sep (u :: us) :=
        rfl
      rw [this, splitOnChar_append sep t _ (hfree t (List.mem_cons_self t _)),
        ih (by simp) hfree']

theorem mem_joinChar (sep : Char) (ts : List (List Char)) (c : Char)
    (h : c ∈ joinChar sep ts) : c = sep ∨ ∃ t ∈ ts, c ∈ t := by
  induction ts with
  | nil => simp [joinChar] at h
  | cons t rest ih =>
    cases rest with
    | nil =>
      simp only [joinChar] at h
      exact Or.inr ⟨t, List.mem_cons_self t [], h⟩
    | cons u us =>
      have : joinChar sep (t :: u :: us) = t ++ sep :: joinChar sep (u :: us) :=
        rfl
      rw [this] at h
      rcases List.mem_append.mp h with h1 | h2
      · exact Or.inr ⟨t, List.mem_cons_self t _, h1⟩
      · rcases List.mem_cons.mp h2 with h3 | h4
        · exact Or.inl h3
        · rcases ih h4 with h5 | ⟨x, hx, hcx⟩
          · exact Or.inl h5
          · exact Or.inr ⟨x, List.mem_cons_of_mem t hx, hcx⟩

theorem joinChar_cons_ne_nil (sep : Char) (t : List Char)
    (ts : List (List Char)) (h : t ≠ []) : joinChar sep (t :: ts) ≠ [] := by
  cases ts with
  | nil => simpa [joinChar]
  | cons u us =>
    have : joinChar sep (t :: u :: us) = t ++ sep :: joinChar sep (u :: us) :=
      rfl
    rw [this]
    simp

theorem joinChar_append_snoc (sep : Char) (ts : List (List Char))
    (q : List Char) (h : ts ≠ []) :
    joinChar sep ts ++ sep :: q = joinChar sep (ts ++ [q]) := by
  induction ts with
  | nil => exact (h rfl).elim
  | cons t rest ih =>
    cases rest with
    | nil => rfl
    | cons u us =>
      have h1 : joinChar sep (t :: u :: us) = t ++ sep :: joinChar sep (u :: us) :=
        rfl
      have h2 : joinChar sep ((t :: u :: us) ++ [q]) =
          t ++ sep :: joinChar sep ((u :: us) ++ [q]) := rfl
      rw [h1, h2, List.append_assoc, List.cons_append]
      rw [ih (by simp)]

/-! ## Lemmas about decimal rendering and parseInt -/

theorem toNat_char_ofNat (n : Nat) (h : n < 55296) : (Char.ofNat n).toNat = n := by
  have hv : Nat.isValidChar n := Or.inl h
  unfold Char.ofNat
  rw [dif_pos hv]
  simp [Char.ofNatAux, Char.toNat, UInt32.toNat, UInt32.ofNat']

theorem natToChars_ne_nil (n : Nat) : natToChars n ≠ [] := by
  rw [natToChars]
  by_cases h : n < 10 <;> simp [h]

theorem mem_natToChars_isDigit (n : Nat) :
    ∀ c ∈ natToChars n, isDigitChar c = true := by
  induction n using Nat.strong_induction_on with
  | _ n ih =>
    intro c hc
    rw [natToChars] at hc
    by_cases h : n < 10
    · simp only [if_pos h, List.mem_singleton] at hc
      subst hc
      have hv : (48 + n) < 55296 := by omega
      simp [isDigitChar, toNat_char_ofNat _ hv]
      omega
    · simp only [if_neg h, List.mem_append, List.mem_singleton] at hc
      rcases hc with hc | hc
      · exact ih (n / 10) (by omega) c hc
      · subst hc
        have h10 : n % 10 < 10 := Nat.mod_lt n (by omega)
        have hv : (48 + n % 10) < 55296 := by omega
        simp [isDigitChar, toNat_char_ofNat _ hv]
        omega

theorem digitsToNat_append (a : List Char) (c : Char) :
    digitsToNat (a ++ [c]) = digitsToNat a * 10 + digitVal c := by
  simp [digitsToNat, List.foldl_append]

theorem digitsToNat_natToChars (n : Nat) :
    digitsToNat (natToChars n) = n := by
  induction n using Nat.strong_induction_on with
  | _ n ih =>
    rw [natToChars]
    by_cases h : n < 10
    · have hv : (48 + n) < 55296 := by omega
      simp [h, digitsToNat, digitVal, toNat_char_ofNat _ hv]
    · rw [if_neg h, digitsToNat_append, ih (n / 10) (by omega)]
      have h10 : n % 10 < 10 := Nat.mod_lt n (by omega)
      have hv : (48 + n % 10) < 55296 := by omega
      simp [digitVal, toNat_char_ofNat _ hv]
      omega

theorem not_ws_of_digit (c : Char) (h : isDigitChar c = true) :
    isJsWhitespace c = false ∧ c ≠ '-' ∧ c ≠ '+' := by
  simp only [isDigitChar, Bool.and_eq_true, decide_eq_true_eq] at h
  refine ⟨?_, ?_, ?_⟩
  · simp only [isJsWhitespace, Bool.or_eq_false_iff, beq_eq_false_iff_ne]
    refine ⟨⟨⟨⟨⟨?_, ?_⟩, ?_⟩, ?_⟩, ?_⟩, ?_⟩ <;> intro he <;> rw [he] at h <;>
      exact absurd h (by decide)
  · intro he; rw [he] at h; exact absurd h (by decide)
  · intro he; rw [he] at h; exact absurd h (by decide)

theorem jsParseInt_digits (cs : List Char) (hne : cs ≠ [])
    (hd : ∀ c ∈ cs, isDigitChar c = true) :
    jsParseInt cs = some ((digitsToNat cs : Nat) : Int) := by
  obtain ⟨c, rest, rfl⟩ : ∃ c rest, cs = c :: rest := by
    cases cs with
    | nil => exact (hne rfl).elim
    | cons c rest => exact ⟨c, rest, rfl⟩
  have hc := hd c (List.mem_cons_self c rest)
  obtain ⟨hws, hminus, hplus⟩ := not_ws_of_digit c hc
  have hdrop : (c :: rest).dropWhile isJsWhitespace = c :: rest := by
    rw [List.dropWhile_cons_of_neg (by simp [hws])]
  have htake : (c :: rest).takeWhile isDigitChar = c :: rest := by
    rw [List.takeWhile_eq_self_iff]
    exact hd
  have hres : jsParseIntDigits (c :: rest) =
      some (digitsToNat (c :: rest)) := by
    rw [jsParseIntDigits]
    simp [htake]
  rw [jsParseInt, hdrop]
  split
  · next heq => exact absurd (List.head_eq_of_cons_eq heq) hminus
  · next heq => exact absurd (List.head_eq_of_cons_eq heq) hplus
  · rw [hres]
    rfl

theorem jsParseInt_natToChars (n : Nat) :
    jsParseInt (natToChars n) = some (n : Int) := by
  rw [jsParseInt_digits (natToChars n) (natToChars_ne_nil n)
    (mem_natToChars_isDigit n), digitsToNat_natToChars]

theorem jsParseInt_intToChars (i : Int) (h : 0 ≤ i) :
    jsParseInt (intToChars i) = some i := by
  rw [intToChars, if_neg (by omega), jsParseInt_natToChars,
    Int.toNat_of_nonneg h]

theorem mem_natToChars_ne (n : Nat) (d : Char) (hd : isDigitChar d = false) :
    d ∉ natToChars n := by
  intro hmem
  rw [mem_natToChars_isDigit n d hmem] at hd
  exact absurd hd (by decide)

theorem mem_intToChars_nonneg_ne (i : Int) (h : 0 ≤ i) (d : Char)
    (hd : isDigitChar d = false) : d ∉ intToChars i := by
  rw [intToChars, if_neg (by omega)]
  exact mem_natToChars_ne _ d hd

/-! ## Lemmas about the uint-array codec -/

theorem mem_encodeNatChunks_lt (n : Nat) :
    ∀ c ∈ encodeNatChunks n, c < 16 := by
  induction n using Nat.strong_induction_on with
  | _ n ih =>
    intro c hc
    rw [encodeNatChunks] at hc
    by_cases h : n < 8
    · simp only [if_pos h, List.mem_singleton] at hc
      omega
    · simp only [if_neg h, List.mem_cons] at hc
      rcases hc with hc | hc
      · have := Nat.mod_lt n (y := 8) (by omega)
        omega
      · exact ih (n / 8) (by omega) c hc

theorem charChunk_chunkChar (v : Nat) (h : v < 16) :
    charChunk (chunkChar v) = v := by
  rw [charChunk, chunkChar, toNat_char_ofNat _ (by omega)]
  omega

theorem chunkChar_ne (v : Nat) (h : v < 16) (d : Char)
    (hd : d.toNat < 97 ∨ 112 < d.toNat) : chunkChar v ≠ d := by
  intro he
  have := congrArg Char.toNat he
  rw [chunkChar, toNat_char_ofNat _ (by omega)] at this
  omega

theorem decodeChunksGo_encode (n : Nat) :
    ∀ (rest : List Nat) (acc shift : Nat),
    decodeChunksGo (encodeNatChunks n ++ rest) acc shift =
      (acc + n * 8 ^ shift) :: decodeChunksGo rest 0 0 := by
  induction n using Nat.strong_induction_on with
  | _ n ih =>
    intro rest acc shift
    rw [encodeNatChunks]
    by_cases h : n < 8
    · simp only [if_pos h, List.cons_append, List.nil_append, decodeChunksGo,
        if_pos h]
    · have h8 : ¬ (n % 8 + 8 < 8) := by omega
      simp only [if_neg h, List.cons_append, decodeChunksGo, if_neg h8]
      rw [ih (n / 8) (by omega) rest (acc + (n % 8 + 8 - 8) * 8 ^ shift)
        (shift + 1)]
      have h2 : n % 8 + 8 - 8 = n % 8 := by omega
      have key : acc + n % 8 * 8 ^ shift + n / 8 * 8 ^ (shift + 1) =
          acc + n * 8 ^ shift := by
        have hmd : n % 8 + 8 * (n / 8) = n := Nat.mod_add_div n 8
        calc acc + n % 8 * 8 ^ shift + n / 8 * 8 ^ (shift + 1)
            = acc + (n % 8 + 8 * (n / 8)) * 8 ^ shift := by ring
          _ = acc + n * 8 ^ shift := by rw [hmd]
      rw [h2, key]

theorem decodeChunksGo_flatten (l : List Nat) :
    decodeChunksGo ((l.map encodeNatChunks).flatten) 0 0 = l := by
  induction l with
  | nil => rfl
  | cons n rest ihl =>
    rw [List.map_cons, List.flatten_cons, decodeChunksGo_encode n _ 0 0]
    simp only [Nat.pow_zero, Nat.mul_one, Nat.zero_add]
    rw [ihl]

theorem decodeChars_encode_list (l : List Nat) :
    decodeUintArrayFromUrlComponentChars
      (encodeUintArrayForUrlComponentChars l) = l := by
  rw [decodeUintArrayFromUrlComponentChars, encodeUintArrayForUrlComponentChars]
  have hmap : (((l.map encodeNatChunks).flatten).map chunkChar).map charChunk =
      (l.map encodeNatChunks).flatten := by
    rw [List.map_map]
    conv_rhs => rw [← List.map_id ((l.map encodeNatChunks).flatten)]
    apply List.map_congr_left
    intro c hc
    obtain ⟨chunks, hchunks, hcmem⟩ := List.mem_flatten.mp hc
    obtain ⟨m, _, rfl⟩ := List.mem_map.mp hchunks
    exact charChunk_chunkChar c (mem_encodeNatChunks_lt m c hcmem)
  rw [hmap, decodeChunksGo_flatten]

theorem mem_encodeChars_ne (l : List Nat) (d : Char)
    (hd : d.toNat < 97 ∨ 112 < d.toNat) :
    d ∉ encodeUintArrayForUrlComponentChars l := by
  intro hmem
  rw [encodeUintArrayForUrlComponentChars] at hmem
  obtain ⟨v, hv, hvd⟩ := List.mem_map.mp hmem
  obtain ⟨chunks, hchunks, hcmem⟩ := List.mem_flatten.mp hv
  obtain ⟨m, _, rfl⟩ := List.mem_map.mp hchunks
  exact chunkChar_ne v (mem_encodeNatChunks_lt m v hcmem) d hd hvd

/-! ## Lemmas about the transform codec -/

theorem toValid_implChars (i : ImplementationFilter) :
    toValidImplementationFilter (implementationChars i) = i := by
  cases i <;> decide

theorem implChars_no_dash (i : ImplementationFilter) :
    '-' ∉ implementationChars i := by
  cases i <;> decide

theorem implChars_no_tilde (i : ImplementationFilter) :
    '~' ∉ implementationChars i := by
  cases i <;> decide

theorem mem_intToChars_ne (i : Int) (d : Char) (hd : isDigitChar d = false)
    (hm : d ≠ '-') : d ∉ intToChars i := by
  rw [intToChars]
  by_cases h : i < 0
  · rw [if_pos h]
    intro hc
    rcases List.mem_cons.mp hc with h1 | h2
    · exact hm h1
    · exact mem_natToChars_ne _ d hd h2
  · rw [if_neg h]
    exact mem_natToChars_ne _ d hd

theorem stringifyOne_ne_nil (tr : Transform) :
    stringifyOneTransform tr ≠ [] := by
  cases tr with
  | focusSubtree implementation callNodePath inverted =>
    rw [stringifyOneTransform]
    cases inverted
    · simp only [Bool.false_eq_true, if_false]
      exact joinChar_cons_ne_nil _ _ _ (by simp [Transform.ttype,
        TRANSFORM_TO_SHORT_KEY])
    · simp only [if_true]
      simp
  | mergeCallNode implementation callNodePath =>
    exact joinChar_cons_ne_nil _ _ _ (by simp [Transform.ttype,
      TRANSFORM_TO_SHORT_KEY])
  | mergeFunction funcIndex =>
    exact joinChar_cons_ne_nil _ _ _ (by simp [Transform.ttype,
      TRANSFORM_TO_SHORT_KEY])
  | dropFunction funcIndex =>
    exact joinChar_cons_ne_nil _ _ _ (by simp [Transform.ttype,
      TRANSFORM_TO_SHORT_KEY])
  | focusFunction funcIndex =>
    exact joinChar_cons_ne_nil _ _ _ (by simp [Transform.ttype,
      TRANSFORM_TO_SHORT_KEY])
  | collapseFunctionSubtree funcIndex =>
    exact joinChar_cons_ne_nil _ _ _ (by simp [Transform.ttype,
      TRANSFORM_TO_SHORT_KEY])
  | collapseResource implementation resourceIndex collapsedFuncIndex =>
    exact joinChar_cons_ne_nil _ _ _ (by simp [Transform.ttype,
      TRANSFORM_TO_SHORT_KEY])
  | collapseDirectRecursion implementation funcIndex =>
    exact joinChar_cons_ne_nil _ _ _ (by simp [Transform.ttype,
      TRANSFORM_TO_SHORT_KEY])

theorem stringifyOne_no_tilde (tr : Transform) :
    '~' ∉ stringifyOneTransform tr := by
  have hkey : ∀ k : TransformType, '~' ∉ TRANSFORM_TO_SHORT_KEY k := by
    intro k
    cases k <;> decide
  have hint : ∀ i : Int, '~' ∉ intToChars i := fun i =>
    mem_intToChars_ne i '~' (by decide) (by decide)
  have henc : ∀ l : List Nat, '~' ∉ encodeUintArrayForUrlComponentChars l :=
    fun l => mem_encodeChars_ne l '~' (by decide)
  have hjoin : ∀ ts : List (List Char), (∀ t ∈ ts, '~' ∉ t) →
      '~' ∉ joinChar '-' ts := by
    intro ts hts hmem
    rcases mem_joinChar '-' ts '~' hmem with h1 | ⟨t, ht, hct⟩
    · exact absurd h1 (by decide)
    · exact hts t ht hct
  cases tr with
  | focusSubtree implementation callNodePath inverted =>
    rw [stringifyOneTransform]
    cases inverted
    · simp only [Bool.false_eq_true, if_false]
      apply hjoin
      intro t ht
      simp only [List.mem_cons, List.not_mem_nil, or_false] at ht
      rcases ht with rfl | rfl | rfl
      · exact hkey _
      · exact implChars_no_tilde _
      · exact henc _
    · simp only [if_true]
      intro hc
      rcases List.mem_append.mp hc with h1 | h2
      · apply hjoin _ ?_ h1
        intro t ht
        simp only [List.mem_cons, List.not_mem_nil, or_false] at ht
        rcases ht with rfl | rfl | rfl
        · exact hkey _
        · exact implChars_no_tilde _
        · exact henc _
      · exact absurd h2 (by decide)
  | mergeCallNode implementation callNodePath =>
    apply hjoin
    intro t ht
    simp only [List.mem_cons, List.not_mem_nil, or_false] at ht
    rcases ht with rfl | rfl | rfl
    · exact hkey _
    · exact implChars_no_tilde _
    · exact henc _
  | mergeFunction funcIndex =>
    apply hjoin
    intro t ht
    simp only [List.mem_cons, List.not_mem_nil, or_false] at ht
    rcases ht with rfl | rfl
    · exact hkey _
    · exact hint _
  | dropFunction funcIndex =>
    apply hjoin
    intro t ht
    simp only [List.mem_cons, List.not_mem_nil, or_false] at ht
    rcases ht with rfl | rfl
    · exact hkey _
    · exact hint _
  | focusFunction funcIndex =>
    apply hjoin
    intro t ht
    simp only [List.mem_cons, List.not_mem_nil, or_false] at ht
    rcases ht with rfl | rfl
    · exact hkey _
    · exact hint _
  | collapseFunctionSubtree funcIndex =>
    apply hjoin
    intro t ht
    simp only [List.mem_cons, List.not_mem_nil, or_false] at ht
    rcases ht with rfl | rfl
    · exact hkey _
    · exact hint _
  | collapseResource implementation resourceIndex collapsedFuncIndex =>
    apply hjoin
    intro t ht
    simp only [List.mem_cons, List.not_mem_nil, or_false] at ht
    rcases ht with rfl | rfl | rfl | rfl
    · exact hkey _
    · exact implChars_no_tilde _
    · exact hint _
    · exact hint _
  | collapseDirectRecursion implementation funcIndex =>
    apply hjoin
    intro t ht
    simp only [List.mem_cons, List.not_mem_nil, or_false] at ht
    rcases ht with rfl | rfl | rfl
    · exact hkey _
    · exact implChars_no_tilde _
    · exact hint _

theorem parseToken_stringifyOne (tr : Transform) (h : tr.wellFormedB = true) :
    parseTransformToken (splitOnChar '-' (stringifyOneTransform tr)) =
      ([tr], []) := by
  have hdd : isDigitChar '-' = false := by decide
  cases tr with
  | mergeFunction funcIndex =>
    simp only [Transform.wellFormedB, decide_eq_true_eq] at h
    rw [stringifyOneTransform]
    simp only [Transform.ttype, TRANSFORM_TO_SHORT_KEY]
    have hfree : ∀ t ∈ ["mf".data, intToChars funcIndex], '-' ∉ t := by
      intro t ht
      simp only [List.mem_cons, List.not_mem_nil, or_false] at ht
      rcases ht with rfl | rfl
      · decide
      · exact mem_intToChars_nonneg_ne _ h '-' hdd
    rw [splitOnChar_joinChar '-' _ (by simp) hfree]
    simp only [parseTransformToken, List.getElem?_cons_zero,
      List.getElem?_cons_succ, Option.getD_some]
    rw [show SHORT_KEY_TO_TRANSFORM "mf".data = some .mergeFunction from by
      decide]
    simp only [convertToTransformType, jsParseIntOpt, Option.some_bind]
    rw [jsParseInt_intToChars _ h]
    simp [h]
  | dropFunction funcIndex =>
    simp only [Transform.wellFormedB, decide_eq_true_eq] at h
    rw [stringifyOneTransform]
    simp only [Transform.ttype, TRANSFORM_TO_SHORT_KEY]
    have hfree : ∀ t ∈ ["df".data, intToChars funcIndex], '-' ∉ t := by
      intro t ht
      simp only [List.mem_cons, List.not_mem_nil, or_false] at ht
      rcases ht with rfl | rfl
      · decide
      · exact mem_intToChars_nonneg_ne _ h '-' hdd
    rw [splitOnChar_joinChar '-' _ (by simp) hfree]
    simp only [parseTransformToken, List.getElem?_cons_zero,
      List.getElem?_cons_succ, Option.getD_some]
    rw [show SHORT_KEY_TO_TRANSFORM "df".data = some .dropFunction from by
      decide]
    simp only [convertToTransformType, jsParseIntOpt, Option.some_bind]
    rw [jsParseInt_intToChars _ h]
    simp [h]
  | focusFunction funcIndex =>
    simp only [Transform.wellFormedB, decide_eq_true_eq] at h
    rw [stringifyOneTransform]
    simp only [Transform.ttype, TRANSFORM_TO_SHORT_KEY]
    have hfree : ∀ t ∈ ["ff".data, intToChars funcIndex], '-' ∉ t := by
      intro t ht
      simp only [List.mem_cons, List.not_mem_nil, or_false] at ht
      rcases ht with rfl | rfl
      · decide
      · exact mem_intToChars_nonneg_ne _ h '-' hdd
    rw [splitOnChar_joinChar '-' _ (by simp) hfree]
    simp only [parseTransformToken, List.getElem?_cons_zero,
      List.getElem?_cons_succ, Option.getD_some]
    rw [show SHORT_KEY_TO_TRANSFORM "ff".data = some .focusFunction from by
      decide]
    simp only [convertToTransformType, jsParseIntOpt, Option.some_bind]
    rw [jsParseInt_intToChars _ h]
    simp [h]
  | collapseFunctionSubtree funcIndex =>
    simp only [Transform.wellFormedB, decide_eq_true_eq] at h
    rw [stringifyOneTransform]
    simp only [Transform.ttype, TRANSFORM_TO_SHORT_KEY]
    have hfree : ∀ t ∈ ["cfs".data, intToChars funcIndex], '-' ∉ t := by
      intro t ht
      simp only [List.mem_cons, List.not_mem_nil, or_false] at ht
      rcases ht with rfl | rfl
      · decide
      · exact mem_intToChars_nonneg_ne _ h '-' hdd
    rw [splitOnChar_joinChar '-' _ (by simp) hfree]
    simp only [parseTransformToken, List.getElem?_cons_zero,
      List.getElem?_cons_succ, Option.getD_some]
    rw [show SHORT_KEY_TO_TRANSFORM "cfs".data = some .collapseFunctionSubtree
      from by decide]
    simp only [convertToTransformType, jsParseIntOpt, Option.some_bind]
    rw [jsParseInt_intToChars _ h]
    simp [h]
  | collapseDirectRecursion implementation funcIndex =>
    simp only [Transform.wellFormedB, decide_eq_true_eq] at h
    rw [stringifyOneTransform]
    simp only [Transform.ttype, TRANSFORM_TO_SHORT_KEY]
    have hfree : ∀ t ∈ ["rec".data, implementationChars implementation,
        intToChars funcIndex], '-' ∉ t := by
      intro t ht
      simp only [List.mem_cons, List.not_mem_nil, or_false] at ht
      rcases ht with rfl | rfl | rfl
      · decide
      · exact implChars_no_dash _
      · exact mem_intToChars_nonneg_ne _ h '-' hdd
    rw [splitOnChar_joinChar '-' _ (by simp) hfree]
    simp only [parseTransformToken, List.getElem?_cons_zero,
      List.getElem?_cons_succ, Option.getD_some]
    rw [show SHORT_KEY_TO_TRANSFORM "rec".data =
        some .collapseDirectRecursion from by decide]
    simp only [convertToTransformType, jsParseIntOpt, Option.some_bind]
    rw [jsParseInt_intToChars _ h]
    simp only [toValidImplementationFilterOpt]
    rw [toValid_implChars]
    rw [if_neg (by omega)]
  | collapseResource implementation resourceIndex collapsedFuncIndex =>
    simp only [Transform.wellFormedB, Bool.and_eq_true, decide_eq_true_eq]
      at h
    obtain ⟨h1, h2⟩ := h
    rw [stringifyOneTransform]
    simp only [Transform.ttype, TRANSFORM_TO_SHORT_KEY]
    have hfree : ∀ t ∈ ["cr".data, implementationChars implementation,
        intToChars resourceIndex, intToChars collapsedFuncIndex], '-' ∉ t := by
      intro t ht
      simp only [List.mem_cons, List.not_mem_nil, or_false] at ht
      rcases ht with rfl | rfl | rfl | rfl
      · decide
      · exact implChars_no_dash _
      · exact mem_intToChars_nonneg_ne _ h1 '-' hdd
      · exact mem_intToChars_nonneg_ne _ h2 '-' hdd
    rw [splitOnChar_joinChar '-' _ (by simp) hfree]
    simp only [parseTransformToken, List.getElem?_cons_zero,
      List.getElem?_cons_succ, Option.getD_some]
    rw [show SHORT_KEY_TO_TRANSFORM "cr".data = some .collapseResource from by
      decide]
    simp only [convertToTransformType, jsParseIntOpt, Option.some_bind]
    rw [jsParseInt_intToChars _ h1, jsParseInt_intToChars _ h2]
    simp only [toValidImplementationFilterOpt]
    rw [toValid_implChars]
    rw [if_pos h1]
  | mergeCallNode implementation callNodePath =>
    rw [stringifyOneTransform]
    simp only [Transform.ttype, TRANSFORM_TO_SHORT_KEY]
    have hfree : ∀ t ∈ ["mcn".data, implementationChars implementation,
        encodeUintArrayForUrlComponentChars callNodePath], '-' ∉ t := by
      intro t ht
      simp only [List.mem_cons, List.not_mem_nil, or_false] at ht
      rcases ht with rfl | rfl | rfl
      · decide
      · exact implChars_no_dash _
      · exact mem_encodeChars_ne _ '-' (by decide)
    rw [splitOnChar_joinChar '-' _ (by simp) hfree]
    simp only [parseTransformToken, List.getElem?_cons_zero,
      List.getElem?_cons_succ, Option.getD_some]
    rw [show SHORT_KEY_TO_TRANSFORM "mcn".data = some .mergeCallNode from by
      decide]
    simp only [convertToTransformType, toValidImplementationFilterOpt,
      Option.getD_some]
    rw [toValid_implChars, decodeChars_encode_list]
  | focusSubtree implementation callNodePath inverted =>
    rw [stringifyOneTransform]
    simp only [Transform.ttype, TRANSFORM_TO_SHORT_KEY]
    have hfree : ∀ t ∈ ["f".data, implementationChars implementation,
        encodeUintArrayForUrlComponentChars callNodePath], '-' ∉ t := by
      intro t ht
      simp only [List.mem_cons, List.not_mem_nil, or_false] at ht
      rcases ht with rfl | rfl | rfl
      · decide
      · exact implChars_no_dash _
      · exact mem_encodeChars_ne _ '-' (by decide)
    cases inverted with
    | false =>
      simp only [Bool.false_eq_true, if_false]
      rw [splitOnChar_joinChar '-' _ (by simp) hfree]
      simp only [parseTransformToken, List.getElem?_cons_zero,
        List.getElem?_cons_succ, Option.getD_some, List.getElem?_nil]
      rw [show SHORT_KEY_TO_TRANSFORM "f".data = some .focusSubtree from by
        decide]
      simp only [convertToTransformType, toValidImplementationFilterOpt,
        Option.getD_some]
      rw [toValid_implChars, decodeChars_encode_list]
    | true =>
      simp only [if_true]
      have hsnoc : joinChar '-' ["f".data, implementationChars implementation,
            encodeUintArrayForUrlComponentChars callNodePath] ++ "-i".data =
          joinChar '-' ["f".data, implementationChars implementation,
            encodeUintArrayForUrlComponentChars callNodePath, "i".data] := by
        exact joinChar_append_snoc '-' _ _ (by simp)
      rw [hsnoc]
      have hfree4 : ∀ t ∈ ["f".data, implementationChars implementation,
          encodeUintArrayForUrlComponentChars callNodePath, "i".data],
          '-' ∉ t := by
        intro t ht
        simp only [List.mem_cons, List.not_mem_nil, or_false] at ht
        rcases ht with rfl | rfl | rfl | rfl
        · decide
        · exact implChars_no_dash _
        · exact mem_encodeChars_ne _ '-' (by decide)
        · decide
      rw [splitOnChar_joinChar '-' _ (by simp) hfree4]
      simp only [parseTransformToken, List.getElem?_cons_zero,
        List.getElem?_cons_succ, Option.getD_some]
      rw [show SHORT_KEY_TO_TRANSFORM "f".data = some .focusSubtree from by
        decide]
      simp only [convertToTransformType, toValidImplementationFilterOpt,
        Option.getD_some]
      rw [toValid_implChars, decodeChars_encode_list]
      simp

theorem flatten_map_singleton (l : List α) :
    (l.map fun x => [x]).flatten = l := by
  induction l with
  | nil => rfl
  | cons x rest ih => simp [ih]

/-- Claim C3: for every well-formed transform list (non-negative numeric
index fields; the implementation filter, call-node paths and the inverted
flag are well typed by construction), parsing the stringified list yields
the list back. -/
theorem claim3_parse_stringify_roundtrip (ts : List Transform)
    (h : ts.all Transform.wellFormedB = true) :
    parseTransforms (stringifyTransforms ts) = ts := by
  rw [parseTransforms, stringifyTransforms]
  show parseTransformsChars (joinChar '~' (ts.map stringifyOneTransform)) = ts
  cases ts with
  | nil => rfl
  | cons t rest =>
    rw [parseTransformsChars]
    rw [if_neg (show ¬ joinChar '~' ((t :: rest).map stringifyOneTransform) =
      [] from joinChar_cons_ne_nil _ _ _ (stringifyOne_ne_nil t))]
    rw [splitOnChar_joinChar '~' _ (by simp) ?_]
    · rw [List.map_map]
      have hcongr : ∀ tr ∈ t :: rest,
          ((fun tok => (parseTransformToken (splitOnChar '-' tok)).1) ∘
            stringifyOneTransform) tr = [tr] := by
        intro tr htr
        have hwf : tr.wellFormedB = true := by
          rw [List.all_eq_true] at h
          exact h tr htr
        show (parseTransformToken
          (splitOnChar '-' (stringifyOneTransform tr))).1 = [tr]
        rw [parseToken_stringifyOne tr hwf]
      rw [List.map_congr_left hcongr, flatten_map_singleton]
    · intro tok htok
      obtain ⟨tr, _, rfl⟩ := List.mem_map.mp htok
      exact stringifyOne_no_tilde tr

/-- Witness for claim C3 at a concrete list covering the eight transform
kinds. -/
theorem claim3_witness :
    ([Transform.mergeFunction 5, Transform.collapseResource .js 3 7,
        Transform.focusSubtree .cpp [1, 2, 3] true,
        Transform.mergeCallNode .combined [],
        Transform.collapseDirectRecursion .js 2, Transform.dropFunction 0,
        Transform.focusFunction 1, Transform.collapseFunctionSubtree 9,
        Transform.focusSubtree .combined [] false].all
      Transform.wellFormedB = true) ∧
    parseTransforms (stringifyTransforms
      [Transform.mergeFunction 5, Transform.collapseResource .js 3 7,
        Transform.focusSubtree .cpp [1, 2, 3] true,
        Transform.mergeCallNode .combined [],
        Transform.collapseDirectRecursion .js 2, Transform.dropFunction 0,
        Transform.focusFunction 1, Transform.collapseFunctionSubtree 9,
        Transform.focusSubtree .combined [] false]) =
      [Transform.mergeFunction 5, Transform.collapseResource .js 3 7,
        Transform.focusSubtree .cpp [1, 2, 3] true,
        Transform.mergeCallNode .combined [],
        Transform.collapseDirectRecursion .js 2, Transform.dropFunction 0,
        Transform.focusFunction 1, Transform.collapseFunctionSubtree 9,
        Transform.focusSubtree .combined [] false] :=
  ⟨by decide, claim3_parse_stringify_roundtrip _ (by decide)⟩

/-- Claim C9: `parseTransforms` is total and tolerant.  (1) Parsing
decomposes over the `~`-separated tokens, so every token is parsed and
whatever the other tokens contribute is returned regardless of any one
token's fate (the embedding is a total function, so no token can abort
parsing); (2) a token whose leading short key is unknown contributes no
transform and its key is logged; (3) a token with a known key whose numeric
index field does not parse as a number (including a missing field) is
dropped silently, for every transform kind with a numeric field. -/
theorem claim9_parse_tolerant :
    (∀ toks : List (List Char), toks ≠ [] → toks ≠ [[]] →
      (∀ t ∈ toks, '~' ∉ t) →
      parseTransformsChars (joinChar '~' toks) =
        (toks.map fun tok =>
          (parseTransformToken (splitOnChar '-' tok)).1).flatten ∧
      parseTransformsLogsChars (joinChar '~' toks) =
        (toks.map fun tok =>
          (parseTransformToken (splitOnChar '-' tok)).2).flatten) ∧
    (∀ tuple : List (List Char),
      SHORT_KEY_TO_TRANSFORM ((tuple[0]?).getD []) = none →
      parseTransformToken tuple = ([], [(tuple[0]?).getD []])) ∧
    (∀ tuple : List (List Char), ∀ ttype : TransformType,
      SHORT_KEY_TO_TRANSFORM ((tuple[0]?).getD []) = some ttype →
      (ttype = .mergeFunction ∨ ttype = .focusFunction ∨
        ttype = .dropFunction ∨ ttype = .collapseFunctionSubtree) →
      jsParseIntOpt tuple[1]? = none →
      parseTransformToken tuple = ([], [])) ∧
    (∀ tuple : List (List Char),
      SHORT_KEY_TO_TRANSFORM ((tuple[0]?).getD []) =
        some .collapseDirectRecursion →
      jsParseIntOpt tuple[2]? = none →
      parseTransformToken tuple = ([], [])) ∧
    (∀ tuple : List (List Char),
      SHORT_KEY_TO_TRANSFORM ((tuple[0]?).getD []) = some .collapseResource →
      (jsParseIntOpt tuple[2]? = none ∨ jsParseIntOpt tuple[3]? = none) →
      parseTransformToken tuple = ([], [])) := by
  refine ⟨?_, ?_, ?_, ?_, ?_⟩
  · intro toks hne hne1 hfree
    have hne' : joinChar '~' toks ≠ [] := by
      cases toks with
      | nil => exact (hne rfl).elim
      | cons t ts =>
        cases ts with
        | nil =>
          show t ≠ []
          intro ht
          exact hne1 (by rw [ht])
        | cons u us =>
          show t ++ '~' :: joinChar '~' (u :: us) ≠ []
          simp
    constructor
    · rw [parseTransformsChars, if_neg hne', splitOnChar_joinChar '~' toks hne
        hfree]
    · rw [parseTransformsLogsChars, if_neg hne', splitOnChar_joinChar '~' toks
        hne hfree]
  · intro tuple hkey
    rw [parseTransformToken, hkey]
    exact rfl
  · intro tuple ttype hkey hmem hnum
    rw [parseTransformToken, hkey]
    rcases hmem with rfl | rfl | rfl | rfl <;> rw [hnum] <;> exact rfl
  · intro tuple hkey hnum
    rw [parseTransformToken, hkey]
    rw [hnum]
    exact rfl
  · intro tuple hkey hnum
    rw [parseTransformToken, hkey]
    rcases hnum with hnum | hnum
    · rw [hnum]
      show (match (none : Option Int), jsParseIntOpt tuple[3]? with
        | some resourceIndex, some collapsedFuncIndex =>
          if 0 ≤ resourceIndex then
            ([Transform.collapseResource
                (toValidImplementationFilterOpt tuple[1]?) resourceIndex
                collapsedFuncIndex], [])
          else (([] : List Transform), ([] : List (List Char)))
        | _, _ => ([], [])) = ([], [])
      cases jsParseIntOpt tuple[3]? <;> rfl
    · rw [hnum]
      cases jsParseIntOpt tuple[2]? <;> rfl

/-- Witness for claim C9: a stack with an unknown key, a malformed numeric
field and a good token parses to just the good token's transform, logging
only the unknown key. -/
theorem claim9_witness :
    parseTransformsChars (joinChar '~'
        ["xy-3".data, "mf-zz".data, "mf-2".data]) =
      [Transform.mergeFunction 2] ∧
    parseTransformsLogsChars (joinChar '~'
        ["xy-3".data, "mf-zz".data, "mf-2".data]) = ["xy".data] := by
  have ha := claim9_parse_tolerant.1 ["xy-3".data, "mf-zz".data, "mf-2".data]
    (by decide) (by decide) (by decide)
  exact ⟨by rw [ha.1]; decide, by rw [ha.2]; decide⟩

/-- Claim C10: at the level of one split token tuple, a negative parsed
index is dropped without logging for collapse-resource (resourceIndex),
collapse-direct-recursion and the four funcIndex-only kinds, while a
negative collapsedFuncIndex on collapse-resource is accepted.  (Through a
URL string itself the premise cannot arise: `-` is the field separator, so
a split field never contains a minus sign.) -/
theorem claim10_parse_negative_silent :
    (∀ implStr funcStr : List Char, ∀ n : Int, jsParseInt funcStr = some n →
      n < 0 →
      parseTransformToken ["rec".data, implStr, funcStr] = ([], [])) ∧
    (∀ funcStr : List Char, ∀ n : Int, jsParseInt funcStr = some n → n < 0 →
      parseTransformToken ["mf".data, funcStr] = ([], []) ∧
      parseTransformToken ["ff".data, funcStr] = ([], []) ∧
      parseTransformToken ["df".data, funcStr] = ([], []) ∧
      parseTransformToken ["cfs".data, funcStr] = ([], [])) ∧
    (∀ implStr rStr cStr : List Char, ∀ r c : Int, jsParseInt rStr = some r →
      r < 0 → jsParseInt cStr = some c →
      parseTransformToken ["cr".data, implStr, rStr, cStr] = ([], [])) ∧
    (∀ implStr rStr cStr : List Char, ∀ r c : Int, jsParseInt rStr = some r →
      0 ≤ r → jsParseInt cStr = some c → c < 0 →
      parseTransformToken ["cr".data, implStr, rStr, cStr] =
        ([Transform.collapseResource (toValidImplementationFilter implStr)
            r c], [])) := by
  refine ⟨?_, ?_, ?_, ?_⟩
  · intro implStr funcStr n hn hneg
    rw [parseTransformToken]
    simp only [List.getElem?_cons_zero, List.getElem?_cons_succ,
      List.getElem?_nil, Option.getD_some]
    rw [show SHORT_KEY_TO_TRANSFORM "rec".data =
      some TransformType.collapseDirectRecursion from by decide]
    simp only [convertToTransformType, jsParseIntOpt, Option.some_bind, hn]
    simp [hneg]
  · intro funcStr n hn hneg
    have hlt : ¬ (0 : Int) ≤ n := by omega
    refine ⟨?_, ?_, ?_, ?_⟩
    · rw [parseTransformToken]
      simp only [List.getElem?_cons_zero, List.getElem?_cons_succ,
        List.getElem?_nil, Option.getD_some]
      rw [show SHORT_KEY_TO_TRANSFORM "mf".data =
        some TransformType.mergeFunction from by decide]
      simp only [convertToTransformType, jsParseIntOpt, Option.some_bind, hn]
      simp [hlt]
    · rw [parseTransformToken]
      simp only [List.getElem?_cons_zero, List.getElem?_cons_succ,
        List.getElem?_nil, Option.getD_some]
      rw [show SHORT_KEY_TO_TRANSFORM "ff".data =
        some TransformType.focusFunction from by decide]
      simp only [convertToTransformType, jsParseIntOpt, Option.some_bind, hn]
      simp [hlt]
    · rw [parseTransformToken]
      simp only [List.getElem?_cons_zero, List.getElem?_cons_succ,
        List.getElem?_nil, Option.getD_some]
      rw [show SHORT_KEY_TO_TRANSFORM "df".data =
        some TransformType.dropFunction from by decide]
      simp only [convertToTransformType, jsParseIntOpt, Option.some_bind, hn]
      simp [hlt]
    · rw [parseTransformToken]
      simp only [List.getElem?_cons_zero, List.getElem?_cons_succ,
        List.getElem?_nil, Option.getD_some]
      rw [show SHORT_KEY_TO_TRANSFORM "cfs".data =
        some TransformType.collapseFunctionSubtree from by decide]
      simp only [convertToTransformType, jsParseIntOpt, Option.some_bind, hn]
      simp [hlt]
  · intro implStr rStr cStr r c hr hrneg hc
    have hlt : ¬ (0 : Int) ≤ r := by omega
    rw [parseTransformToken]
    simp only [List.getElem?_cons_zero, List.getElem?_cons_succ,
      List.getElem?_nil, Option.getD_some]
    rw [show SHORT_KEY_TO_TRANSFORM "cr".data =
      some TransformType.collapseResource from by decide]
    simp only [convertToTransformType, jsParseIntOpt, Option.some_bind, hr, hc]
    simp [hlt]
  · intro implStr rStr cStr r c hr hrpos hc hcneg
    rw [parseTransformToken]
    simp only [List.getElem?_cons_zero, List.getElem?_cons_succ,
      List.getElem?_nil, Option.getD_some]
    rw [show SHORT_KEY_TO_TRANSFORM "cr".data =
      some TransformType.collapseResource from by decide]
    simp only [convertToTransformType, jsParseIntOpt, Option.some_bind, hr, hc]
    simp only [toValidImplementationFilterOpt]
    simp [hrpos]

/-- Witness for claim C10 at concrete tuples with negative fields. -/
theorem claim10_witness :
    parseTransformToken ["rec".data, "js".data, "-4".data] = ([], []) ∧
    parseTransformToken ["mf".data, "-4".data] = ([], []) ∧
    parseTransformToken ["cr".data, "js".data, "-4".data, "5".data] =
      ([], []) ∧
    parseTransformToken ["cr".data, "js".data, "4".data, "-5".data] =
      ([Transform.collapseResource .js 4 (-5)], []) := by
  refine ⟨?_, ?_, ?_, ?_⟩
  · exact claim10_parse_negative_silent.1 "js".data "-4".data (-4) (by decide)
      (by decide)
  · exact (claim10_parse_negative_silent.2.1 "-4".data (-4) (by decide)
      (by decide)).1
  · exact claim10_parse_negative_silent.2.2.1 "js".data "-4".data "5".data
      (-4) 5 (by decide) (by decide) (by decide)
  · have h := claim10_parse_negative_silent.2.2.2 "js".data "4".data
      "-5".data 4 (-5) (by decide) (by decide) (by decide) (by decide)
    rw [h]
    decide

theorem drop_map_idem (A : List Bool) (l : List (Option Nat)) :
    (l.map fun stack => match stack with
      | none => none
      | some s => if (A[s]?).getD false then none else some s).map
        (fun stack => match stack with
          | none => none
          | some s => if (A[s]?).getD false then none else some s) =
      l.map fun stack => match stack with
        | none => none
        | some s => if (A[s]?).getD false then none else some s := by
  rw [List.map_map]
  apply List.map_congr_left
  intro x _
  cases x with
  | none => rfl
  | some s =>
    show (match (if (A[s]?).getD false then none else some s : Option Nat) with
      | none => none
      | some s => if (A[s]?).getD false then none else some s) =
      (if (A[s]?).getD false then none else some s : Option Nat)
    by_cases h : (A[s]?).getD false = true
    · simp [h]
    · simp [h]

/-- Claim C7: applying drop-function twice yields the same thread as
applying it once, for every thread and every func index. -/
theorem claim7_dropFunction_idempotent (t : Thread) (f : Int) :
    dropFunction (dropFunction t f) f = dropFunction t f := by
  obtain ⟨st, ft, fut, rt, strt, samples, jsa, nativea⟩ := t
  simp only [dropFunction, updateThreadStacks, SamplesTable.mapStacks,
    Thread.mk.injEq, SamplesTable.mk.injEq, true_and, and_true]
  refine ⟨?_, ?_, ?_⟩
  · exact drop_map_idem _ _
  · cases jsa with
    | none => rfl
    | some a =>
      show some _ = some _
      congr 1
      simp only [SamplesTable.mk.injEq, true_and, and_true]
      exact drop_map_idem _ _
  · cases nativea with
    | none => rfl
    | some a =>
      show some _ = some _
      congr 1
      simp only [SamplesTable.mk.injEq, true_and, and_true]
      exact drop_map_idem _ _

/-! ## A generic induction principle for the transform loops -/

theorem foldl_range_induction {σ : Type _} (len : Nat) (step : σ → Nat → σ)
    (init : σ) (P : σ → Nat → Prop) (h0 : P init 0)
    (hstep : ∀ s i, i < len → P s i → P (step s i) (i + 1)) :
    ∀ n, n ≤ len → P ((List.range n).foldl step init) n := by
  intro n
  induction n with
  | zero => intro _; simpa using h0
  | succ n ih =>
    intro hle
    rw [List.range_succ, List.foldl_append, List.foldl_cons, List.foldl_nil]
    exact hstep _ n (by omega) (ih (by omega))

theorem orderedB_spec (st : StackTable) (h : st.orderedB = true) :
    ∀ (i : Nat) (row : StackRow), st.rows[i]? = some row →
      ∀ p, row.prefixCol = some p → p < i := by
  intro i row hrow p hp
  have hi : i < st.rows.length := by
    by_contra hge
    rw [List.getElem?_eq_none (by omega)] at hrow
    exact Option.noConfusion hrow
  rw [StackTable.orderedB, List.all_eq_true] at h
  have h2 := h i (List.mem_range.mpr hi)
  simp only [hrow, hp] at h2
  exact of_decide_eq_true h2

/-! ## Lemmas for drop-function (claim C8) -/

theorem stackHasFuncInAncestry_none (rows : List StackRow)
    (funcCol : List Nat) (f : Int) (fuel : Nat) :
    stackHasFuncInAncestry rows funcCol f fuel none = false := by
  cases fuel <;> rfl

theorem stackHasFuncInAncestry_succ (rows : List StackRow)
    (funcCol : List Nat) (f : Int) (fuel : Nat) (s : Nat) :
    stackHasFuncInAncestry rows funcCol f (fuel + 1) (some s) =
      match rows[s]? with
      | none => false
      | some row =>
        decide ((funcCol[row.frame]?).map (fun n => (n : Int)) = some f)
          || stackHasFuncInAncestry rows funcCol f fuel row.prefixCol := rfl

theorem hasAncestry_fuel (rows : List StackRow) (funcCol : List Nat) (f : Int)
    (hord : StackTable.orderedB ⟨rows⟩ = true) :
    ∀ s fuel1 fuel2, s < fuel1 → s < fuel2 →
      stackHasFuncInAncestry rows funcCol f fuel1 (some s) =
        stackHasFuncInAncestry rows funcCol f fuel2 (some s) := by
  intro s
  induction s using Nat.strong_induction_on with
  | _ s ih =>
    intro fuel1 fuel2 h1 h2
    obtain ⟨a, rfl⟩ : ∃ a, fuel1 = a + 1 := ⟨fuel1 - 1, by omega⟩
    obtain ⟨b, rfl⟩ : ∃ b, fuel2 = b + 1 := ⟨fuel2 - 1, by omega⟩
    rw [stackHasFuncInAncestry_succ, stackHasFuncInAncestry_succ]
    cases hrow : rows[s]? with
    | none => rfl
    | some row =>
      simp only []
      cases hp : row.prefixCol with
      | none =>
        rw [stackHasFuncInAncestry_none, stackHasFuncInAncestry_none]
      | some p =>
        have hps : p < s := orderedB_spec ⟨rows⟩ hord s row hrow p hp
        rw [ih p hps a b (by omega) (by omega)]

theorem dropFunctionContains_spec (rows : List StackRow) (funcCol : List Nat)
    (f : Int) (hord : StackTable.orderedB ⟨rows⟩ = true) :
    ∀ s : Nat, ((dropFunctionContains rows funcCol f)[s]?).getD false =
      stackHasFuncInAncestry rows funcCol f rows.length (some s) := by
  have main : ∀ n, n ≤ rows.length →
      (((List.range n).foldl
          (fun acc stackIndex =>
            match rows[stackIndex]? with
            | none => acc ++ [false]
            | some row =>
              let funcIndex := (funcCol[row.frame]?).map fun n => (n : Int)
              let prefixContains :=
                match row.prefixCol with
                | none => false
                | some p => (acc[p]?).getD false
              acc ++ [decide (funcIndex = some f) || prefixContains])
          []).length = n ∧
        ∀ s, s < n →
          (((List.range n).foldl
            (fun acc stackIndex =>
              match rows[stackIndex]? with
              | none => acc ++ [false]
              | some row =>
                let funcIndex := (funcCol[row.frame]?).map fun n => (n : Int)
                let prefixContains :=
                  match row.prefixCol with
                  | none => false
                  | some p => (acc[p]?).getD false
                acc ++ [decide (funcIndex = some f) || prefixContains])
            [])[s]?) =
            some (stackHasFuncInAncestry rows funcCol f rows.length
              (some s))) := by
    refine foldl_range_induction rows.length _ []
      (fun acc n => acc.length = n ∧ ∀ s, s < n → (acc[s]?) =
        some (stackHasFuncInAncestry rows funcCol f rows.length (some s)))
      ⟨rfl, by omega⟩ ?_
    rintro acc i hi ⟨hlen, hget⟩
    cases hrow : rows[i]? with
    | none =>
      exfalso
      rw [List.getElem?_eq_none_iff] at hrow
      omega
    | some row =>
      simp only [hrow]
      constructor
      · simp [hlen]
      · intro s hs
        by_cases hcase : s < i
        · rw [List.getElem?_append_left (by omega)]
          exact hget s hcase
        · have hsi : s = i := by omega
          subst hsi
          rw [List.getElem?_append_right (by omega), hlen]
          simp only [Nat.sub_self, List.getElem?_cons_zero]
          congr 1
          obtain ⟨a, ha⟩ : ∃ a, rows.length = a + 1 :=
            ⟨rows.length - 1, by omega⟩
          conv_rhs => rw [ha]
          rw [stackHasFuncInAncestry_succ]
          simp only [hrow]
          cases hp : row.prefixCol with
          | none => rw [stackHasFuncInAncestry_none]
          | some p =>
            have hps : p < s := orderedB_spec ⟨rows⟩ hord s row hrow p hp
            congr 1
            show (acc[p]?).getD false =
              stackHasFuncInAncestry rows funcCol f a (some p)
            rw [hget p (by omega)]
            simp only [Option.getD_some]
            exact hasAncestry_fuel rows funcCol f hord p rows.length a
              (by omega) (by omega)
  intro s
  by_cases hs : s < rows.length
  · rw [dropFunctionContains, (main rows.length (le_refl _)).2 s hs]
    rfl
  · have h1 : (dropFunctionContains rows funcCol f).length = rows.length := by
      rw [dropFunctionContains]
      exact (main rows.length (le_refl _)).1
    rw [List.getElem?_eq_none (by omega)]
    cases hlen : rows.length with
    | zero => rfl
    | succ a =>
      rw [stackHasFuncInAncestry_succ,
        List.getElem?_eq_none (by omega)]
      rfl

/-- Claim C8: drop-function leaves the stack table (and the frame, func,
resource and string tables) unchanged and rewrites only the stack columns
of the sample-like tables: a sample whose stack has the func anywhere in
its ancestry gets a null stack, every other entry (null included) is
unchanged, and the remaining sample columns are untouched.  The ordering
invariant makes ancestry well defined. -/
theorem claim8_dropFunction_effect (t : Thread) (f : Int)
    (hord : t.stackTable.orderedB = true) :
    (dropFunction t f).stackTable = t.stackTable ∧
    (dropFunction t f).frameTable = t.frameTable ∧
    (dropFunction t f).funcTable = t.funcTable ∧
    (dropFunction t f).resourceTable = t.resourceTable ∧
    (dropFunction t f).stringTable = t.stringTable ∧
    (dropFunction t f).samples.time = t.samples.time ∧
    (dropFunction t f).samples.weight = t.samples.weight ∧
    (dropFunction t f).samples.weightType = t.samples.weightType ∧
    (dropFunction t f).samples.stack = t.samples.stack.map (fun os =>
      if stackHasFuncInAncestry t.stackTable.rows t.frameTable.func f
          t.stackTable.rows.length os then none else os) ∧
    (dropFunction t f).jsAllocations = t.jsAllocations.map (fun a =>
      { a with stack := a.stack.map (fun os =>
          if stackHasFuncInAncestry t.stackTable.rows t.frameTable.func f
              t.stackTable.rows.length os then none else os) }) ∧
    (dropFunction t f).nativeAllocations = t.nativeAllocations.map (fun a =>
      { a with stack := a.stack.map (fun os =>
          if stackHasFuncInAncestry t.stackTable.rows t.frameTable.func f
              t.stackTable.rows.length os then none else os) }) := by
  obtain ⟨st, ft, fut, rt, strt, samples, jsa, nativea⟩ := t
  have hpt : ∀ os : Option Nat,
      (match os with
        | none => none
        | some s =>
          if ((dropFunctionContains st.rows ft.func f)[s]?).getD false then
            none
          else some s) =
      (if stackHasFuncInAncestry st.rows ft.func f st.rows.length os then
        none
      else os) := by
    intro os
    cases os with
    | none =>
      rw [stackHasFuncInAncestry_none]
      rfl
    | some s =>
      show (if ((dropFunctionContains st.rows ft.func f)[s]?).getD false then
          none
        else some s : Option Nat) = _
      rw [dropFunctionContains_spec st.rows ft.func f hord s]
  refine ⟨rfl, rfl, rfl, rfl, rfl, rfl, rfl, rfl, ?_, ?_, ?_⟩
  · exact List.map_congr_left fun os _ => hpt os
  · cases jsa with
    | none => rfl
    | some a =>
      obtain ⟨astack, atime, aweight, awt⟩ := a
      show some _ = some _
      congr 1
      simp only [SamplesTable.mapStacks, SamplesTable.mk.injEq, true_and,
        and_true]
      exact List.map_congr_left fun os _ => hpt os
  · cases nativea with
    | none => rfl
    | some a =>
      obtain ⟨astack, atime, aweight, awt⟩ := a
      show some _ = some _
      congr 1
      simp only [SamplesTable.mapStacks, SamplesTable.mk.injEq, true_and,
        and_true]
      exact List.map_congr_left fun os _ => hpt os

/-- Witness for claim C8 on the `A -> B -> B` thread, dropping func `B`. -/
theorem claim8_witness :
    exThreadABB.stackTable.orderedB = true ∧
    (dropFunction exThreadABB 1).stackTable = exThreadABB.stackTable ∧
    (dropFunction exThreadABB 1).samples.stack =
      exThreadABB.samples.stack.map (fun os =>
        if stackHasFuncInAncestry exThreadABB.stackTable.rows
            exThreadABB.frameTable.func 1 exThreadABB.stackTable.rows.length
            os then none
        else os) := by
  have h := claim8_dropFunction_effect exThreadABB 1 (by decide)
  exact ⟨by decide, h.1, h.2.2.2.2.2.2.2.2.1⟩

/-! ## Shared lemmas for the stack-table invariants (claims C1 and C2) -/

theorem foldl_preserve {σ : Type _} (step : σ → Nat → σ) (P : σ → Prop)
    (h : ∀ s i, P s → P (step s i)) :
    ∀ (l : List Nat) (init : σ), P init → P (l.foldl step init) := by
  intro l
  induction l with
  | nil => intro init h0; exact h0
  | cons i rest ih =>
    intro init h0
    rw [List.foldl_cons]
    exact ih (step init i) (h init i h0)

theorem orderedB_of_spec (rows : List StackRow)
    (h : ∀ (i : Nat) (row : StackRow), rows[i]? = some row →
      ∀ p, row.prefixCol = some p → p < i) :
    StackTable.orderedB ⟨rows⟩ = true := by
  rw [StackTable.orderedB, List.all_eq_true]
  intro i _
  cases hrow : rows[i]? with
  | none => rfl
  | some row =>
    show (match row.prefixCol with
      | none => true
      | some p => decide (p < i)) = true
    cases hp : row.prefixCol with
    | none => rfl
    | some p =>
      show decide (p < i) = true
      exact decide_eq_true (h i row hrow p hp)

theorem ordered_push (rows : List StackRow) (row : StackRow)
    (hord : StackTable.orderedB ⟨rows⟩ = true)
    (hpref : ∀ p, row.prefixCol = some p → p < rows.length) :
    StackTable.orderedB ⟨rows ++ [row]⟩ = true := by
  apply orderedB_of_spec
  intro i r hr p hp
  by_cases hi : i < rows.length
  · rw [List.getElem?_append_left hi] at hr
    exact orderedB_spec ⟨rows⟩ hord i r hr p hp
  · have hlen : i < (rows ++ [row]).length := by
      by_contra hge
      rw [List.getElem?_eq_none (by omega)] at hr
      exact Option.noConfusion hr
    rw [List.length_append, List.length_singleton] at hlen
    have hieq : i = rows.length := by omega
    subst hieq
    rw [List.getElem?_append_right (by omega), Nat.sub_self,
      List.getElem?_cons_zero] at hr
    cases hr
    exact hpref p hp

theorem ordered_set (rows : List StackRow) (n : Nat) (r r' : StackRow)
    (hord : StackTable.orderedB ⟨rows⟩ = true) (hn : rows[n]? = some r)
    (hpre : r'.prefixCol = r.prefixCol) :
    StackTable.orderedB ⟨rows.set n r'⟩ = true := by
  apply orderedB_of_spec
  intro i row hrow p hp
  by_cases hi : n = i
  · subst hi
    have hlt : n < rows.length := by
      by_contra hge
      rw [List.getElem?_eq_none (by omega)] at hn
      exact Option.noConfusion hn
    rw [List.getElem?_set_self hlt] at hrow
    cases hrow
    rw [hpre] at hp
    exact orderedB_spec ⟨rows⟩ hord n r hn p hp
  · rw [List.getElem?_set_ne hi] at hrow
    exact orderedB_spec ⟨rows⟩ hord i row hrow p hp

theorem mapFindVal_bounded (m : StackMap) (len : Nat)
    (hb : ∀ e ∈ m, ∀ w, e = some (some w) → w < len) :
    ∀ (k : Option Nat) (w : Nat), (mapFind m k).getD none = some w →
      w < len := by
  intro k w hk
  cases k with
  | none => simp [mapFind] at hk
  | some p =>
    rw [mapFind] at hk
    cases hmp : m[p]? with
    | none => rw [hmp] at hk; simp at hk
    | some e =>
      rw [hmp] at hk
      simp only [Option.getD_some] at hk
      cases e with
      | none => simp at hk
      | some v =>
        simp only [Option.getD_some] at hk
        subst hk
        exact hb (some (some w)) (List.getElem?_mem hmp) w rfl

theorem mapFindJoin_bounded (m : StackMap) (len : Nat)
    (hb : ∀ e ∈ m, ∀ w, e = some (some w) → w < len) :
    ∀ (k : Option Nat) (w : Nat), (mapFind m k).join = some w → w < len := by
  intro k w hk
  cases k with
  | none => simp [mapFind] at hk
  | some p =>
    rw [mapFind] at hk
    cases hmp : m[p]? with
    | none => rw [hmp] at hk; simp at hk
    | some e =>
      rw [hmp] at hk
      simp only [Option.getD_some] at hk
      rw [Option.join_eq_some] at hk
      subst hk
      exact hb (some (some w)) (List.getElem?_mem hmp) w rfl

theorem bounded_mono (m : StackMap) (len len' : Nat) (hle : len ≤ len')
    (hb : ∀ e ∈ m, ∀ w, e = some (some w) → w < len) :
    ∀ e ∈ m, ∀ w, e = some (some w) → w < len' :=
  fun e he w hw => Nat.lt_of_lt_of_le (hb e he w hw) hle

theorem bounded_push (m : StackMap) (len : Nat) (x : Option (Option Nat))
    (hb : ∀ e ∈ m, ∀ w, e = some (some w) → w < len)
    (hx : ∀ w, x = some (some w) → w < len) :
    ∀ e ∈ m ++ [x], ∀ w, e = some (some w) → w < len := by
  intro e he w hw
  rcases List.mem_append.mp he with h1 | h2
  · exact hb e h1 w hw
  · rw [List.mem_singleton] at h2
    subst h2
    exact hx w hw

theorem mergeFunction_inv (t : Thread) (f : Int) :
    (∀ e ∈ (mergeFunctionState t f).map, ∀ w, e = some (some w) →
      w < (mergeFunctionState t f).newRows.length) ∧
    StackTable.orderedB ⟨(mergeFunctionState t f).newRows⟩ = true := by
  refine foldl_preserve (mergeFunctionStep t f)
    (fun st => (∀ e ∈ st.map, ∀ w, e = some (some w) →
      w < st.newRows.length) ∧
      StackTable.orderedB ⟨st.newRows⟩ = true)
    ?_ (List.range t.stackTable.rows.length) ⟨[], []⟩ ⟨by simp, by decide⟩
  rintro st i ⟨hb, hord⟩
  rw [mergeFunctionStep]
  cases hrow : t.stackTable.rows[i]? with
  | none => exact ⟨hb, hord⟩
  | some row =>
    by_cases hm : frameFuncInt t row.frame = some f
    · simp only [if_pos hm]
      refine ⟨?_, hord⟩
      apply bounded_push _ _ _ hb
      intro w hw
      have := Option.some.inj hw
      exact mapFindVal_bounded _ _ hb _ w this
    · simp only [if_neg hm]
      constructor
      · apply bounded_push _ _ _
          (bounded_mono _ _ _ (by simp) hb)
        intro w hw
        have h2 := Option.some.inj hw
        have h3 := Option.some.inj h2
        subst h3
        simp
      · apply ordered_push _ _ hord
        intro p hp
        exact mapFindVal_bounded _ _ hb _ p hp

theorem mapFindEntry_bounded (m : StackMap) (len : Nat)
    (hb : ∀ e ∈ m, ∀ w, e = some (some w) → w < len) :
    ∀ (k : Option Nat) (v : Option Nat), mapFind m k = some v →
      ∀ w, v = some w → w < len := by
  intro k v hk w hw
  subst hw
  cases k with
  | none => simp [mapFind] at hk
  | some p =>
    rw [mapFind] at hk
    cases hmp : m[p]? with
    | none => rw [hmp] at hk; simp at hk
    | some e =>
      rw [hmp] at hk
      simp only [Option.getD_some] at hk
      subst hk
      exact hb (some (some w)) (List.getElem?_mem hmp) w rfl

theorem focusFunction_inv (t : Thread) (f : Int) :
    (∀ e ∈ (focusFunctionState t f).map, ∀ w, e = some (some w) →
      w < (focusFunctionState t f).newRows.length) ∧
    StackTable.orderedB ⟨(focusFunctionState t f).newRows⟩ = true := by
  refine foldl_preserve (focusFunctionStep t f)
    (fun st => (∀ e ∈ st.map, ∀ w, e = some (some w) →
      w < st.newRows.length) ∧
      StackTable.orderedB ⟨st.newRows⟩ = true)
    ?_ (List.range t.stackTable.rows.length) ⟨[], []⟩ ⟨by simp, by decide⟩
  rintro st i ⟨hb, hord⟩
  rw [focusFunctionStep]
  split
  · exact ⟨hb, hord⟩
  · dsimp only
    split
    · constructor
      · apply bounded_push _ _ _ (bounded_mono _ _ _ (by simp) hb)
        intro w hw
        have h3 := Option.some.inj (Option.some.inj hw)
        subst h3
        simp
      · apply ordered_push _ _ hord
        intro p hp
        exact mapFindVal_bounded _ _ hb _ p hp
    · refine ⟨?_, hord⟩
      apply bounded_push _ _ _ hb
      intro w hw
      exact absurd (Option.some.inj hw) (by simp)

theorem collapseDirectRecursion_inv (t : Thread) (f : Int)
    (implementation : ImplementationFilter) :
    (∀ e ∈ (collapseDirectRecursionState t f implementation).map, ∀ w,
      e = some (some w) →
      w < (collapseDirectRecursionState t f implementation).newRows.length) ∧
    StackTable.orderedB
      ⟨(collapseDirectRecursionState t f implementation).newRows⟩ = true := by
  refine foldl_preserve (collapseDirectRecursionStep t f implementation)
    (fun st => (∀ e ∈ st.map, ∀ w, e = some (some w) →
      w < st.newRows.length) ∧
      StackTable.orderedB ⟨st.newRows⟩ = true)
    ?_ (List.range t.stackTable.rows.length) ⟨[], [], []⟩
    ⟨by simp, by decide⟩
  rintro st i ⟨hb, hord⟩
  rw [collapseDirectRecursionStep]
  split
  · exact ⟨hb, hord⟩
  · dsimp only
    split
    · refine ⟨?_, hord⟩
      apply bounded_push _ _ _ hb
      intro w hw
      exact mapFindVal_bounded _ _ hb _ w (Option.some.inj hw)
    · constructor
      · apply bounded_push _ _ _ (bounded_mono _ _ _ (by simp) hb)
        intro w hw
        have h3 := Option.some.inj (Option.some.inj hw)
        subst h3
        simp
      · apply ordered_push _ _ hord
        intro p hp
        exact mapFindVal_bounded _ _ hb _ p hp

theorem mergeCallNode_inv (t : Thread) (callNodePath : List Nat)
    (implementation : ImplementationFilter) :
    (∀ e ∈ (mergeCallNodeState t callNodePath implementation).map, ∀ w,
      e = some (some w) →
      w < (mergeCallNodeState t callNodePath implementation).newRows.length) ∧
    StackTable.orderedB
      ⟨(mergeCallNodeState t callNodePath implementation).newRows⟩ = true := by
  refine foldl_preserve (mergeCallNodeStep t callNodePath implementation)
    (fun st => (∀ e ∈ st.map, ∀ w, e = some (some w) →
      w < st.newRows.length) ∧
      StackTable.orderedB ⟨st.newRows⟩ = true)
    ?_ (List.range t.stackTable.rows.length) ⟨[], [], [], []⟩
    ⟨by simp, by decide⟩
  rintro st i ⟨hb, hord⟩
  rw [mergeCallNodeStep]
  split
  · exact ⟨hb, hord⟩
  · dsimp only
    split
    · refine ⟨?_, hord⟩
      apply bounded_push _ _ _ hb
      intro w hw
      exact mapFindVal_bounded _ _ hb _ w (Option.some.inj hw)
    · constructor
      · apply bounded_push _ _ _ (bounded_mono _ _ _ (by simp) hb)
        intro w hw
        have h3 := Option.some.inj (Option.some.inj hw)
        subst h3
        simp
      · apply ordered_push _ _ hord
        intro p hp
        exact mapFindVal_bounded _ _ hb _ p hp

theorem collapseFunctionSubtree_inv (t : Thread) (f : Int)
    (defaultCategory : Nat) :
    (∀ e ∈ (collapseFunctionSubtreeState t f defaultCategory).map, ∀ w,
      e = some (some w) →
      w < (collapseFunctionSubtreeState t f defaultCategory).newRows.length) ∧
    StackTable.orderedB
      ⟨(collapseFunctionSubtreeState t f defaultCategory).newRows⟩ = true := by
  refine foldl_preserve (collapseFunctionSubtreeStep t f defaultCategory)
    (fun st => (∀ e ∈ st.map, ∀ w, e = some (some w) →
      w < st.newRows.length) ∧
      StackTable.orderedB ⟨st.newRows⟩ = true)
    ?_ (List.range t.stackTable.rows.length) ⟨[], [], []⟩
    ⟨by simp, by decide⟩
  rintro st i ⟨hb, hord⟩
  rw [collapseFunctionSubtreeStep]
  split
  · exact ⟨hb, hord⟩
  · dsimp only
    split
    · -- collapsed branch: rows possibly category-adjusted in place
      split
      · -- newPrefixStackIndex = none: rows unchanged
        refine ⟨?_, hord⟩
        apply bounded_push _ _ _ hb
        intro w hw
        exact mapFindVal_bounded _ _ hb _ w (Option.some.inj hw)
      · -- some np
        split
        · -- rows[np]? = none: rows unchanged
          refine ⟨?_, hord⟩
          apply bounded_push _ _ _ hb
          intro w hw
          exact mapFindVal_bounded _ _ hb _ w (Option.some.inj hw)
        · -- some er
          next np er heq =>
          split
          · constructor
            · simp only [List.length_set]
              apply bounded_push _ _ _ hb
              intro w hw
              exact mapFindVal_bounded _ _ hb _ w (Option.some.inj hw)
            · exact ordered_set _ _ _ _ hord heq rfl
          · split
            · constructor
              · simp only [List.length_set]
                apply bounded_push _ _ _ hb
                intro w hw
                exact mapFindVal_bounded _ _ hb _ w (Option.some.inj hw)
              · exact ordered_set _ _ _ _ hord heq rfl
            · refine ⟨?_, hord⟩
              apply bounded_push _ _ _ hb
              intro w hw
              exact mapFindVal_bounded _ _ hb _ w (Option.some.inj hw)
    · constructor
      · apply bounded_push _ _ _ (bounded_mono _ _ _ (by simp) hb)
        intro w hw
        have h3 := Option.some.inj (Option.some.inj hw)
        subst h3
        simp
      · apply ordered_push _ _ hord
        intro p hp
        exact mapFindVal_bounded _ _ hb _ p hp

theorem focusSubtree_inv (t : Thread) (callNodePath : List Nat)
    (implementation : ImplementationFilter) :
    (∀ e ∈ (focusSubtreeState t callNodePath implementation).map, ∀ w,
      e = some (some w) →
      w < (focusSubtreeState t callNodePath implementation).newRows.length) ∧
    StackTable.orderedB
      ⟨(focusSubtreeState t callNodePath implementation).newRows⟩ = true := by
  refine foldl_preserve (focusSubtreeStep t callNodePath implementation)
    (fun st => (∀ e ∈ st.map, ∀ w, e = some (some w) →
      w < st.newRows.length) ∧
      StackTable.orderedB ⟨st.newRows⟩ = true)
    ?_ (List.range t.stackTable.rows.length) ⟨[], [], []⟩
    ⟨by simp, by decide⟩
  rintro st i ⟨hb, hord⟩
  rw [focusSubtreeStep]
  split
  · exact ⟨hb, hord⟩
  · dsimp only
    repeat' split
    all_goals
      first
      | (refine ⟨?_, hord⟩
         apply bounded_push _ _ _ hb
         intro w hw
         exact Option.noConfusion hw)
      | (constructor
         · apply bounded_push _ _ _ (bounded_mono _ _ _ (by simp) hb)
           intro w hw
           have h3 := Option.some.inj (Option.some.inj hw)
           subst h3
           simp
         · apply ordered_push _ _ hord
           intro p hp
           exact mapFindJoin_bounded _ _ hb _ p hp)

theorem assocFind_mem (l : List (Option Nat × Nat)) (k : Option Nat)
    (v : Nat) (h : assocFind l k = some v) : ∃ pr ∈ l, pr.2 = v := by
  rw [assocFind, Option.map_eq_some'] at h
  obtain ⟨pr, hf, hv⟩ := h
  exact ⟨pr, List.mem_of_find?_eq_some hf, hv⟩

theorem collapseResource_inv (t : Thread) (R : Int)
    (implementation : ImplementationFilter) (defaultCategory : Nat) :
    (∀ e ∈ (collapseResourceState t R implementation defaultCategory).map,
      ∀ w, e = some (some w) →
      w < (collapseResourceState t R implementation
        defaultCategory).newRows.length) ∧
    StackTable.orderedB
      ⟨(collapseResourceState t R implementation
        defaultCategory).newRows⟩ = true := by
  have hmain :
      (∀ e ∈ (collapseResourceState t R implementation defaultCategory).map,
        ∀ w, e = some (some w) →
        w < (collapseResourceState t R implementation
          defaultCategory).newRows.length) ∧
      StackTable.orderedB
        ⟨(collapseResourceState t R implementation
          defaultCategory).newRows⟩ = true ∧
      (∀ pr ∈ (collapseResourceState t R implementation
          defaultCategory).prefixToCollapsed,
        pr.2 < (collapseResourceState t R implementation
          defaultCategory).newRows.length) := by
    refine foldl_preserve
      (collapseResourceStep t R implementation defaultCategory)
      (fun st => (∀ e ∈ st.map, ∀ w, e = some (some w) →
        w < st.newRows.length) ∧
        StackTable.orderedB ⟨st.newRows⟩ = true ∧
        (∀ pr ∈ st.prefixToCollapsed, pr.2 < st.newRows.length))
      ?_ (List.range t.stackTable.rows.length)
      ⟨shallowCloneFrameTable t.frameTable,
        shallowCloneFuncTable t.funcTable, [], [], [], [], none, none⟩
      ⟨by simp, rfl, by simp⟩
    rintro st i ⟨hb, hord, hpc⟩
    rw [collapseResourceStep]
    split
    · exact ⟨hb, hord, hpc⟩
    · dsimp only
      split
      · exact ⟨hb, hord, hpc⟩
      · next newStackPrefix hfind =>
        split
        · -- the row's func belongs to the collapsed resource
          split
          · -- its new prefix is not itself a collapsed node
            split
            · -- no collapsed sibling yet at this prefix: create a node
              split
              all_goals
                refine ⟨?_, ?_, ?_⟩
                · apply bounded_push _ _ _ (bounded_mono _ _ _ (by simp) hb)
                  intro w hw
                  have h3 := Option.some.inj (Option.some.inj hw)
                  subst h3
                  simp
                · apply ordered_push _ _ hord
                  intro p hp
                  exact mapFindEntry_bounded _ _ hb _ _ hfind p hp
                · intro pr hmem
                  rcases List.mem_cons.mp hmem with h1 | h2
                  · subst h1
                    simp
                  · exact Nat.lt_of_lt_of_le (hpc pr h2) (by simp)
            · -- a collapsed sibling exists: merge into it
              next existing hassoc =>
              have hex : existing < st.newRows.length := by
                obtain ⟨pr, hmem, hv⟩ := assocFind_mem _ _ _ hassoc
                exact hv ▸ hpc pr hmem
              have hpush : ∀ e ∈ st.map ++ [some (some existing)], ∀ w,
                  e = some (some w) → w < st.newRows.length := by
                apply bounded_push _ _ _ hb
                intro w hw
                have h3 := Option.some.inj (Option.some.inj hw)
                subst h3
                exact hex
              split
              · exact ⟨hpush, hord, hpc⟩
              · next er herq =>
                split
                · refine ⟨?_, ?_, ?_⟩
                  · simpa only [List.length_set] using hpush
                  · exact ordered_set _ _ _ _ hord herq rfl
                  · simpa only [List.length_set] using hpc
                · split
                  · refine ⟨?_, ?_, ?_⟩
                    · simpa only [List.length_set] using hpush
                    · exact ordered_set _ _ _ _ hord herq rfl
                    · simpa only [List.length_set] using hpc
                  · exact ⟨hpush, hord, hpc⟩
          · -- prefix already collapsed: drop the row into its prefix
            refine ⟨?_, hord, hpc⟩
            apply bounded_push _ _ _ hb
            intro w hw
            exact mapFindEntry_bounded _ _ hb _ _ hfind w (Option.some.inj hw)
        · -- other resource: skip as collapsed tail or re-emit
          repeat' split
          all_goals
            first
            | (refine ⟨?_, hord, hpc⟩
               apply bounded_push _ _ _ hb
               intro w hw
               exact mapFindEntry_bounded _ _ hb _ _ hfind w
                 (Option.some.inj hw))
            | (refine ⟨?_, ?_, ?_⟩
               · apply bounded_push _ _ _ (bounded_mono _ _ _ (by simp) hb)
                 intro w hw
                 have h3 := Option.some.inj (Option.some.inj hw)
                 subst h3
                 simp
               · apply ordered_push _ _ hord
                 intro p hp
                 exact mapFindEntry_bounded _ _ hb _ _ hfind p hp
               · intro pr hmem
                 exact Nat.lt_of_lt_of_le (hpc pr hmem) (by simp))
  exact ⟨hmain.1, hmain.2.1⟩

theorem stacksOk_map_of (s : SamplesTable) (lenIn lenOut : Nat)
    (conv : Option Nat → Option Nat)
    (h : s.stacksOkB lenIn = true)
    (hconv : ∀ o, (∀ w, o = some w → w < lenIn) →
      ∀ v, conv o = some v → v < lenOut) :
    (s.mapStacks conv).stacksOkB lenOut = true := by
  rw [SamplesTable.stacksOkB, List.all_eq_true] at h
  have hstack : (s.mapStacks conv).stack = s.stack.map conv := rfl
  rw [SamplesTable.stacksOkB, hstack, List.all_eq_true]
  intro os hos
  obtain ⟨o, ho, rfl⟩ := List.mem_map.mp hos
  have hbnd : ∀ w, o = some w → w < lenIn := by
    intro w hw
    subst hw
    have h2 := h (some w) ho
    simpa using h2
  cases hc : conv o with
  | none => rfl
  | some v => exact decide_eq_true (hconv o hbnd v hc)

theorem samplesOk_update (t : Thread) (nst : StackTable)
    (conv : Option Nat → Option Nat)
    (hsk : t.samplesOkB = true)
    (hconv : ∀ o, (∀ w, o = some w → w < t.stackTable.rows.length) →
      ∀ v, conv o = some v → v < nst.rows.length) :
    (updateThreadStacks t nst conv).samplesOkB = true := by
  rw [Thread.samplesOkB] at hsk
  simp only [Bool.and_eq_true] at hsk
  obtain ⟨⟨h1, h2⟩, h3⟩ := hsk
  rw [Thread.samplesOkB]
  simp only [updateThreadStacks, Bool.and_eq_true]
  refine ⟨⟨stacksOk_map_of _ _ _ _ h1 hconv, ?_⟩, ?_⟩
  · cases hja : t.jsAllocations with
    | none => rfl
    | some a =>
      rw [hja] at h2
      simp only [Option.map_some']
      exact stacksOk_map_of _ _ _ _ h2 hconv
  · cases hna : t.nativeAllocations with
    | none => rfl
    | some a =>
      rw [hna] at h3
      simp only [Option.map_some']
      exact stacksOk_map_of _ _ _ _ h3 hconv

theorem convertStackGo_bounded (t : Thread) (postfixCallNodePath : List Nat)
    (implementation : ImplementationFilter) :
    ∀ (fuel d : Nat) (os : Option Nat) (v : Nat),
      convertStackGo t postfixCallNodePath implementation fuel d os =
        some v →
      v < t.stackTable.rows.length := by
  intro fuel
  induction fuel with
  | zero =>
    intro d os v h
    cases os with
    | none => exact Option.noConfusion h
    | some s => exact Option.noConfusion h
  | succ n ih =>
    intro d os v h
    cases os with
    | none => exact Option.noConfusion h
    | some s =>
      rw [convertStackGo] at h
      split at h
    -- next cases
      · exact Option.noConfusion h
      · next row hrow =>
        dsimp only at h
        split at h
        · split at h
          · injection h with h2
            subst h2
            by_contra hge
            rw [List.getElem?_eq_none (by omega)] at hrow
            exact Option.noConfusion hrow
          · exact ih _ _ _ h
        · split at h
          · exact Option.noConfusion h
          · exact ih _ _ _ h

/-- C2: for every thread whose input stack table satisfies the ordering
invariant and every transform of the eight kinds, the stack table of the
thread returned by `applyTransform` satisfies, for every row `i`, that
`prefix[i]` is null or strictly less than `i`. -/
theorem claim2_prefix_ordering_preserved (t : Thread) (tr : Transform)
    (defaultCategory : Nat)
    (hord : StackTable.orderedB t.stackTable = true) :
    StackTable.orderedB (applyTransform t tr defaultCategory).stackTable =
      true := by
  cases tr with
  | focusSubtree implementation callNodePath inverted =>
    cases inverted with
    | false => exact (focusSubtree_inv t callNodePath implementation).2
    | true => exact hord
  | focusFunction funcIndex => exact (focusFunction_inv t funcIndex).2
  | mergeCallNode implementation callNodePath =>
    exact (mergeCallNode_inv t callNodePath implementation).2
  | mergeFunction funcIndex => exact (mergeFunction_inv t funcIndex).2
  | dropFunction funcIndex => exact hord
  | collapseResource implementation resourceIndex collapsedFuncIndex =>
    exact (collapseResource_inv t resourceIndex implementation
      defaultCategory).2
  | collapseDirectRecursion implementation funcIndex =>
    exact (collapseDirectRecursion_inv t funcIndex implementation).2
  | collapseFunctionSubtree funcIndex =>
    exact (collapseFunctionSubtree_inv t funcIndex defaultCategory).2

theorem claim2_witness :
    StackTable.orderedB exThreadABB.stackTable = true ∧
    StackTable.orderedB
      (applyTransform exThreadABB (.mergeFunction 1) 0).stackTable = true :=
  ⟨by decide,
    claim2_prefix_ordering_preserved exThreadABB (.mergeFunction 1) 0
      (by decide)⟩

/-- C1: for every thread whose sample-like stack columns hold only null or
valid indices into its (ordering-invariant) stack table, and every
transform of the eight kinds, every sample-like row's stack in the thread
returned by `applyTransform` is null or a valid index into the returned
thread's stack table. -/
theorem claim1_sample_stack_validity (t : Thread) (tr : Transform)
    (defaultCategory : Nat)
    (hsk : t.samplesOkB = true)
    (hord : StackTable.orderedB t.stackTable = true) :
    (applyTransform t tr defaultCategory).samplesOkB = true := by
  cases tr with
  | focusSubtree implementation callNodePath inverted =>
    cases inverted with
    | false =>
      refine samplesOk_update t _ _ hsk ?_
      intro o _ v hv
      cases o with
      | none => exact Option.noConfusion hv
      | some s =>
        change (if ((focusSubtreeState t callNodePath
              implementation).stackMatches[s]?).getD 0 ≠
            (callNodePath.length : Int) then none
          else (mapFind (focusSubtreeState t callNodePath
            implementation).map (some s)).getD none) = some v at hv
        split at hv
        · exact Option.noConfusion hv
        · exact mapFindVal_bounded _ _
            (focusSubtree_inv t callNodePath implementation).1 (some s) v hv
    | true =>
      refine samplesOk_update t _ _ hsk ?_
      intro o _ v hv
      cases o with
      | none => exact Option.noConfusion hv
      | some s =>
        exact convertStackGo_bounded t callNodePath implementation _ _ _ _ hv
  | focusFunction funcIndex =>
    refine samplesOk_update t _ _ hsk ?_
    intro o _ v hv
    exact mapFindVal_bounded _ _ (focusFunction_inv t funcIndex).1 o v hv
  | mergeCallNode implementation callNodePath =>
    refine samplesOk_update t _ _ hsk ?_
    intro o _ v hv
    exact mapFindVal_bounded _ _
      (mergeCallNode_inv t callNodePath implementation).1 o v hv
  | mergeFunction funcIndex =>
    refine samplesOk_update t _ _ hsk ?_
    intro o _ v hv
    exact mapFindVal_bounded _ _ (mergeFunction_inv t funcIndex).1 o v hv
  | dropFunction funcIndex =>
    refine samplesOk_update t _ _ hsk ?_
    intro o hbnd v hv
    cases o with
    | none => exact Option.noConfusion hv
    | some s =>
      change (if (dropFunctionContains t.stackTable.rows t.frameTable.func
          funcIndex)[s]?.getD false then none else (some s : Option Nat)) =
        some v at hv
      split at hv
      · exact Option.noConfusion hv
      · injection hv with h2
        subst h2
        exact hbnd _ rfl
  | collapseResource implementation resourceIndex collapsedFuncIndex =>
    refine samplesOk_update _ _ _ hsk ?_
    intro o _ v hv
    exact mapFindVal_bounded _ _
      (collapseResource_inv t resourceIndex implementation
        defaultCategory).1 o v hv
  | collapseDirectRecursion implementation funcIndex =>
    refine samplesOk_update t _ _ hsk ?_
    intro o _ v hv
    exact mapFindVal_bounded _ _
      (collapseDirectRecursion_inv t funcIndex implementation).1 o v hv
  | collapseFunctionSubtree funcIndex =>
    refine samplesOk_update t _ _ hsk ?_
    intro o _ v hv
    exact mapFindVal_bounded _ _
      (collapseFunctionSubtree_inv t funcIndex defaultCategory).1 o v hv

theorem claim1_witness :
    exThreadABB.samplesOkB = true ∧
    StackTable.orderedB exThreadABB.stackTable = true ∧
    (applyTransform exThreadABB (.focusFunction 1) 0).samplesOkB = true :=
  ⟨by decide, by decide,
    claim1_sample_stack_validity exThreadABB (.focusFunction 1) 0
      (by decide) (by decide)⟩

theorem mcnMatchDepth_none (t : Thread) (callNodePath : List Nat)
    (implementation : ImplementationFilter) (fuel : Nat) :
    mcnMatchDepth t callNodePath implementation fuel none = (true, -1) := by
  cases fuel <;> rfl

theorem mcnMatchDepth_succ (t : Thread) (callNodePath : List Nat)
    (implementation : ImplementationFilter) (fuel : Nat) (s : Nat) :
    mcnMatchDepth t callNodePath implementation (fuel + 1) (some s) =
      match t.stackTable.rows[s]? with
      | none => (false, 0)
      | some row =>
        let pm :=
          mcnMatchDepth t callNodePath implementation fuel row.prefixCol
        let res := mcnRowMatch t callNodePath implementation pm.1 pm.2
          t.frameTable.func[row.frame]?
        (res.2.1, res.2.2) := rfl

theorem mcnMatchDepth_fuel (t : Thread) (callNodePath : List Nat)
    (implementation : ImplementationFilter)
    (hord : StackTable.orderedB t.stackTable = true) :
    ∀ s fuel1 fuel2, s < fuel1 → s < fuel2 →
      mcnMatchDepth t callNodePath implementation fuel1 (some s) =
        mcnMatchDepth t callNodePath implementation fuel2 (some s) := by
  intro s
  induction s using Nat.strong_induction_on with
  | _ s ih =>
    intro fuel1 fuel2 h1 h2
    obtain ⟨a, rfl⟩ : ∃ a, fuel1 = a + 1 := ⟨fuel1 - 1, by omega⟩
    obtain ⟨b, rfl⟩ : ∃ b, fuel2 = b + 1 := ⟨fuel2 - 1, by omega⟩
    rw [mcnMatchDepth_succ, mcnMatchDepth_succ]
    cases hrow : t.stackTable.rows[s]? with
    | none => rfl
    | some row =>
      simp only []
      cases hp : row.prefixCol with
      | none => rw [mcnMatchDepth_none, mcnMatchDepth_none]
      | some p =>
        have hps : p < s := orderedB_spec t.stackTable hord s row hrow p hp
        rw [ih p hps a b (by omega) (by omega)]

theorem mapFind_append (m : StackMap) (x : Option (Option Nat))
    (k : Option Nat) (hk : ∀ p, k = some p → p < m.length) :
    mapFind (m ++ [x]) k = mapFind m k := by
  cases k with
  | none => rfl
  | some p =>
    rw [mapFind, mapFind, List.getElem?_append_left (hk p rfl)]

theorem mcnOld_stable (t : Thread) (callNodePath : List Nat)
    (implementation : ImplementationFilter)
    (hord : StackTable.orderedB t.stackTable = true)
    (m : StackMap) (nr : List StackRow) (i : Nat) (hm : m.length = i)
    (x : Option (Option Nat)) (nrx : List StackRow)
    (hnr : ∀ j, j < nr.length → nrx[j]? = nr[j]?)
    (hcorr : ∀ s, s < i → ∀ row, t.stackTable.rows[s]? = some row →
      (mcnMerged t callNodePath implementation s = true →
        m[s]? = some (some ((mapFind m row.prefixCol).getD none))) ∧
      (mcnMerged t callNodePath implementation s = false →
        ∃ j, m[s]? = some (some (some j)) ∧
          nr[j]? = some (StackRow.mk ((mapFind m row.prefixCol).getD none)
            row.frame row.category row.subcategory))) :
    ∀ s, s < i → ∀ row, t.stackTable.rows[s]? = some row →
      (mcnMerged t callNodePath implementation s = true →
        (m ++ [x])[s]? =
          some (some ((mapFind (m ++ [x]) row.prefixCol).getD none))) ∧
      (mcnMerged t callNodePath implementation s = false →
        ∃ j, (m ++ [x])[s]? = some (some (some j)) ∧
          nrx[j]? = some (StackRow.mk
            ((mapFind (m ++ [x]) row.prefixCol).getD none)
            row.frame row.category row.subcategory)) := by
  intro s hs row hrow
  have hpb : ∀ p, row.prefixCol = some p → p < m.length := by
    intro p hp
    have := orderedB_spec t.stackTable hord s row hrow p hp
    omega
  have hms : s < m.length := by omega
  obtain ⟨h1, h2⟩ := hcorr s hs row hrow
  constructor
  · intro hmg
    rw [List.getElem?_append_left hms, mapFind_append _ _ _ hpb]
    exact h1 hmg
  · intro hmg
    obtain ⟨j, hj1, hj2⟩ := h2 hmg
    have hjlt : j < nr.length := by
      by_contra hge
      rw [List.getElem?_eq_none (by omega)] at hj2
      exact Option.noConfusion hj2
    refine ⟨j, ?_, ?_⟩
    · rw [List.getElem?_append_left hms]
      exact hj1
    · rw [hnr j hjlt, mapFind_append _ _ _ hpb]
      exact hj2

theorem mergeCallNode_corr (t : Thread) (callNodePath : List Nat)
    (implementation : ImplementationFilter)
    (hord : StackTable.orderedB t.stackTable = true) :
    (mergeCallNodeState t callNodePath implementation).map.length =
      t.stackTable.rows.length ∧
    (mergeCallNodeState t callNodePath implementation).newRows.length =
      ((List.range t.stackTable.rows.length).filter fun s =>
        !mcnMerged t callNodePath implementation s).length ∧
    (∀ s, s < t.stackTable.rows.length →
      ∀ row, t.stackTable.rows[s]? = some row →
      (mcnMerged t callNodePath implementation s = true →
        (mergeCallNodeState t callNodePath implementation).map[s]? =
          some (some ((mapFind (mergeCallNodeState t callNodePath
            implementation).map row.prefixCol).getD none))) ∧
      (mcnMerged t callNodePath implementation s = false →
        ∃ j, (mergeCallNodeState t callNodePath implementation).map[s]? =
            some (some (some j)) ∧
          (mergeCallNodeState t callNodePath
              implementation).newRows[j]? =
            some (StackRow.mk ((mapFind (mergeCallNodeState t callNodePath
              implementation).map row.prefixCol).getD none)
              row.frame row.category row.subcategory))) := by
  have main : ∀ n, n ≤ t.stackTable.rows.length →
      (fun (acc : MCNState) (n : Nat) =>
        acc.map.length = n ∧ acc.stackMatches.length = n ∧
        acc.stackDepths.length = n ∧
        acc.newRows.length = ((List.range n).filter fun s =>
          !mcnMerged t callNodePath implementation s).length ∧
        (∀ s, s < n →
          acc.stackMatches[s]? = some ((mcnMatchDepth t callNodePath
            implementation t.stackTable.rows.length (some s)).1) ∧
          acc.stackDepths[s]? = some ((mcnMatchDepth t callNodePath
            implementation t.stackTable.rows.length (some s)).2)) ∧
        (∀ s, s < n → ∀ row, t.stackTable.rows[s]? = some row →
          (mcnMerged t callNodePath implementation s = true →
            acc.map[s]? =
              some (some ((mapFind acc.map row.prefixCol).getD none))) ∧
          (mcnMerged t callNodePath implementation s = false →
            ∃ j, acc.map[s]? = some (some (some j)) ∧
              acc.newRows[j]? = some (StackRow.mk
                ((mapFind acc.map row.prefixCol).getD none)
                row.frame row.category row.subcategory))))
        ((List.range n).foldl
          (mergeCallNodeStep t callNodePath implementation) ⟨[], [], [], []⟩)
        n := by
    refine foldl_range_induction t.stackTable.rows.length
      (mergeCallNodeStep t callNodePath implementation) ⟨[], [], [], []⟩
      (fun (acc : MCNState) (n : Nat) =>
        acc.map.length = n ∧ acc.stackMatches.length = n ∧
        acc.stackDepths.length = n ∧
        acc.newRows.length = ((List.range n).filter fun s =>
          !mcnMerged t callNodePath implementation s).length ∧
        (∀ s, s < n →
          acc.stackMatches[s]? = some ((mcnMatchDepth t callNodePath
            implementation t.stackTable.rows.length (some s)).1) ∧
          acc.stackDepths[s]? = some ((mcnMatchDepth t callNodePath
            implementation t.stackTable.rows.length (some s)).2)) ∧
        (∀ s, s < n → ∀ row, t.stackTable.rows[s]? = some row →
          (mcnMerged t callNodePath implementation s = true →
            acc.map[s]? =
              some (some ((mapFind acc.map row.prefixCol).getD none))) ∧
          (mcnMerged t callNodePath implementation s = false →
            ∃ j, acc.map[s]? = some (some (some j)) ∧
              acc.newRows[j]? = some (StackRow.mk
                ((mapFind acc.map row.prefixCol).getD none)
                row.frame row.category row.subcategory))))
      ⟨rfl, rfl, rfl, rfl,
        by intro s hs; exact absurd hs (by omega),
        by intro s hs; exact absurd hs (by omega)⟩ ?_
    rintro acc i hi ⟨hm, hsm, hsd, hnr, hcache, hcorr⟩
    cases hrow : t.stackTable.rows[i]? with
    | none =>
      exfalso
      rw [List.getElem?_eq_none_iff] at hrow
      omega
    | some row =>
      have hdp : (match row.prefixCol with
          | none => true
          | some p => (acc.stackMatches[p]?).getD false) =
          (mcnMatchDepth t callNodePath implementation
            t.stackTable.rows.length row.prefixCol).1 := by
        cases hp : row.prefixCol with
        | none => rw [mcnMatchDepth_none]
        | some p =>
          have hps : p < i := orderedB_spec t.stackTable hord i row hrow p hp
          show (acc.stackMatches[p]?).getD false = _
          rw [(hcache p (by omega)).1]
          rfl
      have hdd : (match row.prefixCol with
          | none => (-1 : Int)
          | some p => (acc.stackDepths[p]?).getD 0) =
          (mcnMatchDepth t callNodePath implementation
            t.stackTable.rows.length row.prefixCol).2 := by
        cases hp : row.prefixCol with
        | none => rw [mcnMatchDepth_none]
        | some p =>
          have hps : p < i := orderedB_spec t.stackTable hord i row hrow p hp
          show (acc.stackDepths[p]?).getD 0 = _
          rw [(hcache p (by omega)).2]
          rfl
      have hMi : mcnMatchDepth t callNodePath implementation
          t.stackTable.rows.length (some i) =
          ((mcnRowMatch t callNodePath implementation
            (mcnMatchDepth t callNodePath implementation
              t.stackTable.rows.length row.prefixCol).1
            (mcnMatchDepth t callNodePath implementation
              t.stackTable.rows.length row.prefixCol).2
            t.frameTable.func[row.frame]?).2.1,
           (mcnRowMatch t callNodePath implementation
            (mcnMatchDepth t callNodePath implementation
              t.stackTable.rows.length row.prefixCol).1
            (mcnMatchDepth t callNodePath implementation
              t.stackTable.rows.length row.prefixCol).2
            t.frameTable.func[row.frame]?).2.2) := by
        obtain ⟨a, ha⟩ : ∃ a, t.stackTable.rows.length = a + 1 :=
          ⟨t.stackTable.rows.length - 1, by omega⟩
        have hpm : mcnMatchDepth t callNodePath implementation a
            row.prefixCol =
            mcnMatchDepth t callNodePath implementation
              t.stackTable.rows.length row.prefixCol := by
          cases hp : row.prefixCol with
          | none => rw [mcnMatchDepth_none, mcnMatchDepth_none]
          | some p =>
            have hps : p < i :=
              orderedB_spec t.stackTable hord i row hrow p hp
            exact mcnMatchDepth_fuel t callNodePath implementation hord p
              a t.stackTable.rows.length (by omega) (by omega)
        conv_lhs => rw [ha, mcnMatchDepth_succ]
        simp only [hrow, hpm]
      have hMG : mcnMerged t callNodePath implementation i =
          (mcnRowMatch t callNodePath implementation
            (mcnMatchDepth t callNodePath implementation
              t.stackTable.rows.length row.prefixCol).1
            (mcnMatchDepth t callNodePath implementation
              t.stackTable.rows.length row.prefixCol).2
            t.frameTable.func[row.frame]?).1 := by
        rw [mcnMerged]
        simp only [hrow]
      show (fun (acc : MCNState) (n : Nat) => _)
        (mergeCallNodeStep t callNodePath implementation acc i) (i + 1)
      rw [mergeCallNodeStep]
      simp only [hrow]
      rw [hdp, hdd]
      split
      · next hcond =>
        have hmgi : mcnMerged t callNodePath implementation i = true := by
          rw [hMG]
          exact hcond
        refine ⟨by simp [hm], by simp [hsm], by simp [hsd], ?_, ?_, ?_⟩
        · rw [List.range_succ, List.filter_append]
          simp [hmgi, hnr]
        · intro s hs
          by_cases hsi : s < i
          · obtain ⟨h1, h2⟩ := hcache s hsi
            constructor
            · rw [List.getElem?_append_left (by omega)]
              exact h1
            · rw [List.getElem?_append_left (by omega)]
              exact h2
          · have hsi2 : s = i := by omega
            subst hsi2
            constructor
            · rw [List.getElem?_append_right (by omega), hsm,
                Nat.sub_self, List.getElem?_cons_zero, hMi]
            · rw [List.getElem?_append_right (by omega), hsd,
                Nat.sub_self, List.getElem?_cons_zero, hMi]
        · intro s hs row' hrow'
          by_cases hsi : s < i
          · exact mcnOld_stable t callNodePath implementation hord
              acc.map acc.newRows i hm _ acc.newRows (fun j hj => rfl)
              hcorr s hsi row' hrow'
          · have hsi2 : s = i := by omega
            subst hsi2
            rw [hrow] at hrow'
            have hre : row' = row := (Option.some.inj hrow').symm
            subst hre
            have hpb : ∀ p, row'.prefixCol = some p →
                p < acc.map.length := by
              intro p hp
              have := orderedB_spec t.stackTable hord s row' hrow p hp
              omega
            constructor
            · intro _
              rw [List.getElem?_append_right (by omega), hm,
                Nat.sub_self, List.getElem?_cons_zero,
                mapFind_append _ _ _ hpb]
            · intro hmgf
              rw [hmgi] at hmgf
              exact Bool.noConfusion hmgf
      · next hcond =>
        have hmgi : mcnMerged t callNodePath implementation i = false := by
          rw [hMG]
          exact Bool.eq_false_iff.mpr hcond
        refine ⟨by simp [hm], by simp [hsm], by simp [hsd], ?_, ?_, ?_⟩
        · rw [List.range_succ, List.filter_append]
          simp [hmgi, hnr]
        · intro s hs
          by_cases hsi : s < i
          · obtain ⟨h1, h2⟩ := hcache s hsi
            constructor
            · rw [List.getElem?_append_left (by omega)]
              exact h1
            · rw [List.getElem?_append_left (by omega)]
              exact h2
          · have hsi2 : s = i := by omega
            subst hsi2
            constructor
            · rw [List.getElem?_append_right (by omega), hsm,
                Nat.sub_self, List.getElem?_cons_zero, hMi]
            · rw [List.getElem?_append_right (by omega), hsd,
                Nat.sub_self, List.getElem?_cons_zero, hMi]
        · intro s hs row' hrow'
          by_cases hsi : s < i
          · exact mcnOld_stable t callNodePath implementation hord
              acc.map acc.newRows i hm _ _
              (fun j hj => List.getElem?_append_left hj)
              hcorr s hsi row' hrow'
          · have hsi2 : s = i := by omega
            subst hsi2
            rw [hrow] at hrow'
            have hre : row' = row := (Option.some.inj hrow').symm
            subst hre
            have hpb : ∀ p, row'.prefixCol = some p →
                p < acc.map.length := by
              intro p hp
              have := orderedB_spec t.stackTable hord s row' hrow p hp
              omega
            constructor
            · intro hmgf
              rw [hmgi] at hmgf
              exact Bool.noConfusion hmgf
            · intro _
              refine ⟨acc.newRows.length, ?_, ?_⟩
              · rw [List.getElem?_append_right (by omega), hm,
                  Nat.sub_self, List.getElem?_cons_zero]
              · rw [List.getElem?_append_right (by omega),
                  Nat.sub_self, List.getElem?_cons_zero,
                  mapFind_append _ _ _ hpb]
  obtain ⟨h1, h2, h3, h4, h5, h6⟩ :=
    main t.stackTable.rows.length (le_refl _)
  exact ⟨h1, h4, fun s hs => h6 s hs⟩

/-- C4 (amended): `mergeCallNode` removes exactly the stacks whose
implementation-filtered prefix chain walks the call-node path to its leaf
(`mcnMerged`) — when the tip's func directly recurses beneath a removed
node, those repetitions are removed too, so more than one node can go —
and (1) the new stack table has exactly one row per non-merged stack,
(2) a merged stack's samples are redirected to its parent's image,
(3) every non-merged stack is re-emitted with frame, category and
subcategory unchanged and its prefix attached to its parent's image, and
(4) the sample stacks are rewritten through the old-to-new map. -/
theorem claim4_merge_call_node_amended (t : Thread)
    (callNodePath : List Nat) (implementation : ImplementationFilter)
    (hord : StackTable.orderedB t.stackTable = true) :
    (mergeCallNode t callNodePath implementation).stackTable.rows.length =
      ((List.range t.stackTable.rows.length).filter fun s =>
        !mcnMerged t callNodePath implementation s).length ∧
    (∀ s row, t.stackTable.rows[s]? = some row →
      mcnMerged t callNodePath implementation s = true →
      getMapStackUpdater (mergeCallNodeState t callNodePath
          implementation).map (some s) =
        getMapStackUpdater (mergeCallNodeState t callNodePath
          implementation).map row.prefixCol) ∧
    (∀ s row, t.stackTable.rows[s]? = some row →
      mcnMerged t callNodePath implementation s = false →
      ∃ j, getMapStackUpdater (mergeCallNodeState t callNodePath
          implementation).map (some s) = some j ∧
        (mergeCallNode t callNodePath
            implementation).stackTable.rows[j]? =
          some (StackRow.mk (getMapStackUpdater (mergeCallNodeState t
            callNodePath implementation).map row.prefixCol)
            row.frame row.category row.subcategory)) ∧
    (mergeCallNode t callNodePath implementation).samples.stack =
      t.samples.stack.map (getMapStackUpdater
        (mergeCallNodeState t callNodePath implementation).map) := by
  obtain ⟨hlen, hcount, hcorr⟩ :=
    mergeCallNode_corr t callNodePath implementation hord
  refine ⟨hcount, ?_, ?_, rfl⟩
  · intro s row hrow hmg
    have hs : s < t.stackTable.rows.length := by
      by_contra hge
      rw [List.getElem?_eq_none (by omega)] at hrow
      exact Option.noConfusion hrow
    have h := (hcorr s hs row hrow).1 hmg
    show ((mergeCallNodeState t callNodePath
      implementation).map[s]?.getD none).getD none = _
    rw [h]
    rfl
  · intro s row hrow hmg
    have hs : s < t.stackTable.rows.length := by
      by_contra hge
      rw [List.getElem?_eq_none (by omega)] at hrow
      exact Option.noConfusion hrow
    obtain ⟨j, hj1, hj2⟩ := (hcorr s hs row hrow).2 hmg
    refine ⟨j, ?_, hj2⟩
    show ((mergeCallNodeState t callNodePath
      implementation).map[s]?.getD none).getD none = _
    rw [hj1]
    rfl

theorem claim4_witness :
    StackTable.orderedB exThreadABB.stackTable = true ∧
    (mergeCallNode exThreadABB [0, 1]
        ImplementationFilter.combined).stackTable.rows.length =
      ((List.range exThreadABB.stackTable.rows.length).filter fun s =>
        !mcnMerged exThreadABB [0, 1] ImplementationFilter.combined
          s).length :=
  ⟨by decide,
    (claim4_merge_call_node_amended exThreadABB [0, 1]
      ImplementationFilter.combined (by decide)).1⟩

/-- C4 as stated is false: on the thread `A -> B -> B` (`B` directly
recursive) with call-node path `[A, B]`, merge-call-node removes BOTH
stacks whose func is `B` — the direct-recursive repetition of the tip
beneath the removed node matches again — not exactly the one stack at the
tip of the path, so only one of the three stacks survives. -/
theorem claim4_counterexample :
    mergeCallNodeClaimB exThreadABB [0, 1] ImplementationFilter.combined =
      false ∧
    mcnMerged exThreadABB [0, 1] ImplementationFilter.combined 1 = true ∧
    mcnMerged exThreadABB [0, 1] ImplementationFilter.combined 2 = true ∧
    (mergeCallNode exThreadABB [0, 1]
      ImplementationFilter.combined).stackTable.rows.length = 1 := by
  decide

theorem collapseDRPathGo_snoc (f : Int) (xs : List Int) (y : Int) :
    ∀ pv, collapseDRPathGo f (xs ++ [y]) pv =
      collapseDRPathGo f xs pv ++
        (if y = f ∧ some y = (xs.getLast?).or pv then [] else [y]) := by
  induction xs with
  | nil =>
    intro pv
    by_cases h : y = f ∧ some y = (List.getLast? []).or pv
    · have h1 : ¬ (y ≠ f ∨ some y ≠ pv) := by
        push_neg
        exact ⟨h.1, by simpa using h.2⟩
      show (if y ≠ f ∨ some y ≠ pv then
          y :: collapseDRPathGo f [] (some y)
        else collapseDRPathGo f [] (some y)) = _
      rw [if_neg h1, if_pos h]
      rfl
    · have h1 : y ≠ f ∨ some y ≠ pv := by
        by_contra hno
        push_neg at hno
        exact h ⟨hno.1, by simpa using hno.2⟩
      show (if y ≠ f ∨ some y ≠ pv then
          y :: collapseDRPathGo f [] (some y)
        else collapseDRPathGo f [] (some y)) = _
      rw [if_pos h1, if_neg h]
      rfl
  | cons x xs ih =>
    intro pv
    show (if x ≠ f ∨ some x ≠ pv then
        x :: collapseDRPathGo f (xs ++ [y]) (some x)
      else collapseDRPathGo f (xs ++ [y]) (some x)) =
      (if x ≠ f ∨ some x ≠ pv then
        x :: collapseDRPathGo f xs (some x)
      else collapseDRPathGo f xs (some x)) ++ _
    rw [ih (some x)]
    have hlast : (xs.getLast?).or (some x) = ((x :: xs).getLast?).or pv := by
      cases hx : xs.getLast? with
      | none =>
        rw [List.getLast?_eq_none_iff] at hx
        subst hx
        rfl
      | some l =>
        have : (x :: xs).getLast? = some l := by
          rw [List.getLast?_cons, hx]
          rfl
        rw [this]
        rfl
    rw [hlast]
    split
    · rw [List.cons_append]
    · rfl

theorem funcChain_none (rows : List StackRow) (funcCol : List Nat)
    (fuel : Nat) : funcChain rows funcCol fuel none = [] := by
  cases fuel <;> rfl

theorem funcChain_succ (rows : List StackRow) (funcCol : List Nat)
    (fuel : Nat) (s : Nat) :
    funcChain rows funcCol (fuel + 1) (some s) =
      match rows[s]? with
      | none => []
      | some row =>
        funcChain rows funcCol fuel row.prefixCol ++
          [((funcCol[row.frame]?).map fun n => (n : Int)).getD (-1)] := rfl

theorem funcChain_fuel (rows : List StackRow) (funcCol : List Nat)
    (hord : StackTable.orderedB ⟨rows⟩ = true) :
    ∀ s fuel1 fuel2, s < fuel1 → s < fuel2 →
      funcChain rows funcCol fuel1 (some s) =
        funcChain rows funcCol fuel2 (some s) := by
  intro s
  induction s using Nat.strong_induction_on with
  | _ s ih =>
    intro fuel1 fuel2 h1 h2
    obtain ⟨a, rfl⟩ : ∃ a, fuel1 = a + 1 := ⟨fuel1 - 1, by omega⟩
    obtain ⟨b, rfl⟩ : ∃ b, fuel2 = b + 1 := ⟨fuel2 - 1, by omega⟩
    rw [funcChain_succ, funcChain_succ]
    cases hrow : rows[s]? with
    | none => rfl
    | some row =>
      simp only []
      cases hp : row.prefixCol with
      | none => rw [funcChain_none, funcChain_none]
      | some p =>
        have hps : p < s := orderedB_spec ⟨rows⟩ hord s row hrow p hp
        rw [ih p hps a b (by omega) (by omega)]

theorem funcChain_append (rows : List StackRow) (funcCol : List Nat)
    (ext : List StackRow)
    (hord : StackTable.orderedB ⟨rows⟩ = true) :
    ∀ fuel s, s < rows.length →
      funcChain (rows ++ ext) funcCol fuel (some s) =
        funcChain rows funcCol fuel (some s) := by
  intro fuel
  induction fuel with
  | zero => intro s _; rfl
  | succ n ih =>
    intro s hs
    rw [funcChain_succ, funcChain_succ, List.getElem?_append_left hs]
    cases hrow : rows[s]? with
    | none => rfl
    | some row =>
      simp only []
      cases hp : row.prefixCol with
      | none => rw [funcChain_none, funcChain_none]
      | some p =>
        have hps : p < s := orderedB_spec ⟨rows⟩ hord s row hrow p hp
        rw [ih p (by omega)]

theorem funcChain_getLast (rows : List StackRow) (funcCol : List Nat)
    (fuel : Nat) (s : Nat) (row : StackRow) (hrow : rows[s]? = some row) :
    (funcChain rows funcCol (fuel + 1) (some s)).getLast? =
      some (((funcCol[row.frame]?).map fun n => (n : Int)).getD (-1)) := by
  rw [funcChain_succ, hrow, List.getLast?_append]
  rfl

theorem collapseDirectRecursion_chain (t : Thread) (funcToCollapse : Int)
    (implementation : ImplementationFilter)
    (hord : StackTable.orderedB t.stackTable = true)
    (hmatch : t.stackFuncsMatchB implementation = true) :
    ∀ s, s < t.stackTable.rows.length →
      funcChain (collapseDirectRecursionState t funcToCollapse
            implementation).newRows t.frameTable.func
          t.stackTable.rows.length
          ((mapFind (collapseDirectRecursionState t funcToCollapse
            implementation).map (some s)).getD none) =
        collapseDirectRecursionInCallNodePath funcToCollapse
          (funcChain t.stackTable.rows t.frameTable.func
            t.stackTable.rows.length (some s)) := by
  rw [Thread.stackFuncsMatchB, List.all_eq_true] at hmatch
  suffices main : ∀ n, n ≤ t.stackTable.rows.length →
      (fun (acc : CDRState) (n : Nat) =>
        acc.map.length = n ∧
        acc.newRows.length ≤ n ∧
        (∀ e ∈ acc.map, ∀ w, e = some (some w) → w < acc.newRows.length) ∧
        StackTable.orderedB ⟨acc.newRows⟩ = true ∧
        (∀ s, s ∈ acc.recursiveStacks ↔ (s < n ∧ ∃ row,
          t.stackTable.rows[s]? = some row ∧
          frameFuncInt t row.frame = some funcToCollapse)) ∧
        (∀ s, s < n →
          funcChain acc.newRows t.frameTable.func
              t.stackTable.rows.length
              ((mapFind acc.map (some s)).getD none) =
            collapseDirectRecursionInCallNodePath funcToCollapse
              (funcChain t.stackTable.rows t.frameTable.func
                t.stackTable.rows.length (some s))))
        ((List.range n).foldl
          (collapseDirectRecursionStep t funcToCollapse implementation)
          ⟨[], [], []⟩) n by
    intro s hs
    exact (main t.stackTable.rows.length (le_refl _)).2.2.2.2.2 s hs
  refine foldl_range_induction t.stackTable.rows.length
    (collapseDirectRecursionStep t funcToCollapse implementation)
    ⟨[], [], []⟩
    (fun (acc : CDRState) (n : Nat) =>
      acc.map.length = n ∧
      acc.newRows.length ≤ n ∧
      (∀ e ∈ acc.map, ∀ w, e = some (some w) → w < acc.newRows.length) ∧
      StackTable.orderedB ⟨acc.newRows⟩ = true ∧
      (∀ s, s ∈ acc.recursiveStacks ↔ (s < n ∧ ∃ row,
        t.stackTable.rows[s]? = some row ∧
        frameFuncInt t row.frame = some funcToCollapse)) ∧
      (∀ s, s < n →
        funcChain acc.newRows t.frameTable.func
            t.stackTable.rows.length
            ((mapFind acc.map (some s)).getD none) =
          collapseDirectRecursionInCallNodePath funcToCollapse
            (funcChain t.stackTable.rows t.frameTable.func
              t.stackTable.rows.length (some s))))
    ⟨rfl, by exact Nat.le_refl 0, by simp, rfl,
      by intro s; simp,
      by intro s hs; exact absurd hs (by omega)⟩ ?_
  rintro acc i hi ⟨hm, hnl, hb, hordn, hrec, hchain⟩
  cases hrow : t.stackTable.rows[i]? with
  | none =>
    exfalso
    rw [List.getElem?_eq_none_iff] at hrow
    omega
  | some row =>
    have hmr := hmatch row (List.getElem?_mem hrow)
    rw [Bool.and_eq_true] at hmr
    obtain ⟨fn, hfn⟩ := Option.isSome_iff_exists.mp hmr.1
    have hfm := hmr.2
    have hchainI : funcChain t.stackTable.rows t.frameTable.func
        t.stackTable.rows.length (some i) =
        funcChain t.stackTable.rows t.frameTable.func
          t.stackTable.rows.length row.prefixCol ++ [(fn : Int)] := by
      obtain ⟨a, ha⟩ : ∃ a, t.stackTable.rows.length = a + 1 :=
        ⟨t.stackTable.rows.length - 1, by omega⟩
      conv_lhs => rw [ha, funcChain_succ]
      simp only [hrow, hfn]
      cases hp : row.prefixCol with
      | none =>
        rw [funcChain_none, funcChain_none]
        rfl
      | some p =>
        have hps : p < i := orderedB_spec t.stackTable hord i row hrow p hp
        rw [funcChain_fuel t.stackTable.rows t.frameTable.func hord p
          a t.stackTable.rows.length (by omega) (by omega)]
        rfl
    show (fun (acc : CDRState) (n : Nat) => _)
      (collapseDirectRecursionStep t funcToCollapse implementation acc i)
      (i + 1)
    rw [collapseDirectRecursionStep]
    simp only [hrow]
    split
    · next hcond =>
      obtain ⟨hpr, hfa⟩ := hcond
      have hfa2 : frameFuncInt t row.frame = some funcToCollapse := by
        rcases hfa with h | h
        · exact h
        · exact absurd hfm h
      obtain ⟨p, hp, hpin⟩ : ∃ p, row.prefixCol = some p ∧
          p ∈ acc.recursiveStacks := by
        cases hp : row.prefixCol with
        | none =>
          rw [hp] at hpr
          exact Bool.noConfusion hpr
        | some p =>
          rw [hp] at hpr
          exact ⟨p, rfl, of_decide_eq_true hpr⟩
      have hps : p < i := orderedB_spec t.stackTable hord i row hrow p hp
      obtain ⟨_, prow, hprow, hpfa⟩ := (hrec p).mp hpin
      have hmp := hmatch prow (List.getElem?_mem hprow)
      rw [Bool.and_eq_true] at hmp
      obtain ⟨pfn, hpfn⟩ := Option.isSome_iff_exists.mp hmp.1
      refine ⟨by simp [hm],
        by show acc.newRows.length ≤ i + 1; omega, ?_, hordn, ?_, ?_⟩
      · apply bounded_push _ _ _ hb
        intro w hw
        exact mapFindVal_bounded _ _ hb _ w (Option.some.inj hw)
      · intro s
        constructor
        · intro hs
          rcases List.mem_cons.mp hs with h1 | h2
          · subst h1
            exact ⟨by omega, row, hrow, hfa2⟩
          · obtain ⟨h3, h4⟩ := (hrec s).mp h2
            exact ⟨by omega, h4⟩
        · rintro ⟨hs, row', hrow', hfa'⟩
          by_cases hsi : s < i
          · exact List.mem_cons_of_mem _
              ((hrec s).mpr ⟨hsi, row', hrow', hfa'⟩)
          · have hsieq : s = i := by omega
            subst hsieq
            exact List.mem_cons_self _ _
      · intro s hs
        by_cases hsi : s < i
        · show funcChain acc.newRows t.frameTable.func
              t.stackTable.rows.length
              ((mapFind (acc.map ++ [some ((mapFind acc.map
                row.prefixCol).getD none)]) (some s)).getD none) = _
          rw [mapFind_append _ _ _ (by intro q hq; cases hq; omega)]
          exact hchain s hsi
        · have hsieq : s = i := by omega
          subst hsieq
          show funcChain acc.newRows t.frameTable.func
              t.stackTable.rows.length
              ((mapFind (acc.map ++ [some ((mapFind acc.map
                row.prefixCol).getD none)]) (some s)).getD none) = _
          have hL : (mapFind (acc.map ++ [some ((mapFind acc.map
              row.prefixCol).getD none)]) (some s)).getD none =
              (mapFind acc.map row.prefixCol).getD none := by
            show (((acc.map ++ [some ((mapFind acc.map
              row.prefixCol).getD none)])[s]?).getD none).getD none = _
            rw [List.getElem?_append_right (by omega), hm, Nat.sub_self,
              List.getElem?_cons_zero]
            rfl
          rw [hL, hp, hchain p (by omega), hchainI, hp,
            collapseDirectRecursionInCallNodePath,
            collapseDirectRecursionInCallNodePath,
            collapseDRPathGo_snoc]
          have hfnA : (fn : Int) = funcToCollapse := by
            have h1 : ((t.frameTable.func[row.frame]?).map
                fun n => (n : Int)) = some funcToCollapse := hfa2
            rw [hfn] at h1
            simpa using h1
          have hlastp : (funcChain t.stackTable.rows t.frameTable.func
              t.stackTable.rows.length (some p)).getLast? =
              some funcToCollapse := by
            obtain ⟨a, ha⟩ : ∃ a, t.stackTable.rows.length = a + 1 :=
              ⟨t.stackTable.rows.length - 1, by omega⟩
            rw [ha, funcChain_getLast t.stackTable.rows t.frameTable.func
              a p prow hprow]
            have h2 : ((t.frameTable.func[prow.frame]?).map
                fun n => (n : Int)) = some funcToCollapse := hpfa
            rw [h2]
            rfl
          rw [if_pos ⟨hfnA, by rw [hlastp, hfnA]; rfl⟩, List.append_nil]
    · next hcond =>
      have hNot : ¬ ((match row.prefixCol with
          | none => false
          | some p => decide (p ∈ acc.recursiveStacks)) = true ∧
          frameFuncInt t row.frame = some funcToCollapse) := by
        intro ⟨h1, h2⟩
        exact hcond ⟨h1, Or.inl h2⟩
      refine ⟨by simp [hm], by simpa using hnl, ?_, ?_, ?_, ?_⟩
      · apply bounded_push _ _ _ (bounded_mono _ _ _ (by simp) hb)
        intro w hw
        have h3 := Option.some.inj (Option.some.inj hw)
        subst h3
        simp
      · apply ordered_push _ _ hordn
        intro q hq
        exact mapFindVal_bounded _ _ hb _ q hq
      · intro s
        constructor
        · intro hs
          by_cases hfi : frameFuncInt t row.frame = some funcToCollapse
          · rw [if_pos hfi] at hs
            rcases List.mem_cons.mp hs with h1 | h2
            · subst h1
              exact ⟨by omega, row, hrow, hfi⟩
            · obtain ⟨h3, h4⟩ := (hrec s).mp h2
              exact ⟨by omega, h4⟩
          · rw [if_neg hfi] at hs
            obtain ⟨h3, h4⟩ := (hrec s).mp hs
            exact ⟨by omega, h4⟩
        · rintro ⟨hs, row', hrow', hfa'⟩
          by_cases hsi : s < i
          · have hmem := (hrec s).mpr ⟨hsi, row', hrow', hfa'⟩
            by_cases hfi : frameFuncInt t row.frame = some funcToCollapse
            · rw [if_pos hfi]
              exact List.mem_cons_of_mem _ hmem
            · rw [if_neg hfi]
              exact hmem
          · have hsieq : s = i := by omega
            subst hsieq
            rw [hrow] at hrow'
            have hre : row' = row := (Option.some.inj hrow').symm
            subst hre
            rw [if_pos hfa']
            exact List.mem_cons_self _ _
      · intro s hs
        by_cases hsi : s < i
        · show funcChain (acc.newRows ++
              [StackRow.mk ((mapFind acc.map row.prefixCol).getD none)
                row.frame row.category row.subcategory])
              t.frameTable.func t.stackTable.rows.length
              ((mapFind (acc.map ++ [some (some acc.newRows.length)])
                (some s)).getD none) = _
          rw [mapFind_append _ _ _ (by intro q hq; cases hq; omega)]
          have hcs := hchain s hsi
          cases hv : (mapFind acc.map (some s)).getD none with
          | none =>
            rw [hv, funcChain_none] at hcs
            rw [funcChain_none]
            exact hcs
          | some w =>
            have hw : w < acc.newRows.length :=
              mapFindVal_bounded _ _ hb (some s) w hv
            rw [hv] at hcs
            rw [funcChain_append acc.newRows t.frameTable.func _
              hordn _ w hw]
            exact hcs
        · have hsieq : s = i := by omega
          subst hsieq
          show funcChain (acc.newRows ++
              [StackRow.mk ((mapFind acc.map row.prefixCol).getD none)
                row.frame row.category row.subcategory])
              t.frameTable.func t.stackTable.rows.length
              ((mapFind (acc.map ++ [some (some acc.newRows.length)])
                (some s)).getD none) = _
          have hL : (mapFind (acc.map ++ [some (some acc.newRows.length)])
              (some s)).getD none = some acc.newRows.length := by
            show (((acc.map ++ [some (some acc.newRows.length)])[s]?).getD
              none).getD none = _
            rw [List.getElem?_append_right (by omega), hm, Nat.sub_self,
              List.getElem?_cons_zero]
            rfl
          rw [hL]
          obtain ⟨a, ha⟩ : ∃ a, t.stackTable.rows.length = a + 1 :=
            ⟨t.stackTable.rows.length - 1, by omega⟩
          rw [ha, funcChain_succ, List.getElem?_append_right (le_refl _),
            Nat.sub_self, List.getElem?_cons_zero]
          show (funcChain (acc.newRows ++ [_]) t.frameTable.func a
            ((mapFind acc.map row.prefixCol).getD none) ++
            [((t.frameTable.func[row.frame]?).map fun n => (n : Int)).getD
              (-1)]) = _
          have hstep : funcChain (acc.newRows ++
              [StackRow.mk ((mapFind acc.map row.prefixCol).getD none)
                row.frame row.category row.subcategory])
              t.frameTable.func a
              ((mapFind acc.map row.prefixCol).getD none) =
              funcChain acc.newRows t.frameTable.func
                t.stackTable.rows.length
                ((mapFind acc.map row.prefixCol).getD none) := by
            cases hv : (mapFind acc.map row.prefixCol).getD none with
            | none => rw [funcChain_none, funcChain_none]
            | some w =>
              have hw : w < acc.newRows.length :=
                mapFindVal_bounded _ _ hb _ w hv
              rw [funcChain_append acc.newRows t.frameTable.func _
                hordn _ w hw]
              exact funcChain_fuel acc.newRows t.frameTable.func hordn w
                a t.stackTable.rows.length (by omega) (by omega)
          rw [hstep, hfn, ← ha]
          cases hp : row.prefixCol with
          | none =>
            rw [hchainI, hp]
            rw [show (mapFind acc.map none).getD none = (none : Option Nat)
              from rfl]
            simp only [funcChain_none]
            rw [collapseDirectRecursionInCallNodePath, collapseDRPathGo_snoc,
              if_neg (by simp)]
            rfl
          | some p =>
            have hps : p < s := orderedB_spec t.stackTable hord s row hrow
              p hp
            obtain ⟨prow, hprow⟩ : ∃ prow,
                t.stackTable.rows[p]? = some prow := by
              cases hq : t.stackTable.rows[p]? with
              | none =>
                rw [List.getElem?_eq_none_iff] at hq
                omega
              | some prow => exact ⟨prow, rfl⟩
            have hmp := hmatch prow (List.getElem?_mem hprow)
            rw [Bool.and_eq_true] at hmp
            obtain ⟨pfn, hpfn⟩ := Option.isSome_iff_exists.mp hmp.1
            rw [hchain p (by omega), hchainI, hp,
              collapseDirectRecursionInCallNodePath,
              collapseDirectRecursionInCallNodePath,
              collapseDRPathGo_snoc]
            have hlastp : (funcChain t.stackTable.rows t.frameTable.func
                t.stackTable.rows.length (some p)).getLast? =
                some ((pfn : Int)) := by
              rw [ha, funcChain_getLast t.stackTable.rows t.frameTable.func
                a p prow hprow, hpfn]
              rfl
            rw [if_neg]
            · exact rfl
            · intro hcpair
              obtain ⟨hc1, hc2⟩ := hcpair
              rw [hlastp] at hc2
              have h4 : some (fn : Int) = some (pfn : Int) := hc2
              have hc3 : (fn : Int) = (pfn : Int) := Option.some.inj h4
              refine hNot ⟨?_, ?_⟩
              · rw [hp]
                apply decide_eq_true
                refine (hrec p).mpr ⟨hps, prow, hprow, ?_⟩
                show ((t.frameTable.func[prow.frame]?).map
                  fun n => (n : Int)) = some funcToCollapse
                rw [hpfn]
                show some ((pfn : Int)) = some funcToCollapse
                rw [← hc3, hc1]
              · show ((t.frameTable.func[row.frame]?).map
                  fun n => (n : Int)) = some funcToCollapse
                rw [hfn]
                show some ((fn : Int)) = some funcToCollapse
                rw [hc1]

/-- C6: collapse-direct-recursion collapses every run of consecutive
occurrences of the collapsed func down to its first occurrence and leaves
non-adjacent occurrences separate: when every stack's func matches the
implementation filter, the func chain of every stack's image is the
collapsed (`_collapseDirectRecursionInCallNodePath`) version of its old
func chain; on the path `[A, A, A, B, A, A]` that collapse yields
`[A, B, A]`; and an interleaved stack whose func does not match the filter
(the non-JS `X` in `A -> X -> A` under the `js` filter) does not break the
run — it is merged away, leaving the single chain `[A]`. -/
theorem claim6_collapse_direct_recursion (t : Thread) (A : Int)
    (implementation : ImplementationFilter)
    (hord : StackTable.orderedB t.stackTable = true)
    (hmatch : t.stackFuncsMatchB implementation = true) :
    (∀ s, s < t.stackTable.rows.length →
      funcChain (collapseDirectRecursion t A
            implementation).stackTable.rows
          t.frameTable.func t.stackTable.rows.length
          (getMapStackUpdater (collapseDirectRecursionState t A
            implementation).map (some s)) =
        collapseDirectRecursionInCallNodePath A
          (funcChain t.stackTable.rows t.frameTable.func
            t.stackTable.rows.length (some s))) ∧
    collapseDirectRecursionInCallNodePath 0 [0, 0, 0, 1, 0, 0] =
      [0, 1, 0] ∧
    funcChain (collapseDirectRecursion exThreadAXA 0
        ImplementationFilter.js).stackTable.rows
      exThreadAXA.frameTable.func 3
      (getMapStackUpdater (collapseDirectRecursionState exThreadAXA 0
        ImplementationFilter.js).map (some 2)) = [0] := by
  refine ⟨?_, by decide, by decide⟩
  intro s hs
  exact collapseDirectRecursion_chain t A implementation hord hmatch s hs

theorem claim6_witness :
    StackTable.orderedB exThreadAAABAA.stackTable = true ∧
    exThreadAAABAA.stackFuncsMatchB ImplementationFilter.combined = true ∧
    funcChain (collapseDirectRecursion exThreadAAABAA 0
        ImplementationFilter.combined).stackTable.rows
      exThreadAAABAA.frameTable.func 6
      (getMapStackUpdater (collapseDirectRecursionState exThreadAAABAA 0
        ImplementationFilter.combined).map (some 5)) =
      collapseDirectRecursionInCallNodePath 0
        (funcChain exThreadAAABAA.stackTable.rows
          exThreadAAABAA.frameTable.func 6 (some 5)) :=
  ⟨by decide, by decide,
    (claim6_collapse_direct_recursion exThreadAAABAA 0
      ImplementationFilter.combined (by decide) (by decide)).1 5
      (by decide)⟩

theorem assocFind_cons_self (l : List (Option Nat × Nat)) (k : Option Nat)
    (x : Nat) : assocFind ((k, x) :: l) k = some x := by
  rw [assocFind, List.find?_cons_of_pos]
  · rfl
  · exact decide_eq_true rfl

theorem assocFind_cons_stable (l : List (Option Nat × Nat))
    (k k' : Option Nat) (x : Nat) (hk' : assocFind l k' = none) (v : Nat)
    (h : assocFind l k = some v) :
    assocFind ((k', x) :: l) k = some v := by
  have hne : ¬ ((k', x).1 = k) := by
    intro he
    rw [show k' = k from he] at hk'
    rw [assocFind] at h hk'
    rw [hk'] at h
    exact Option.noConfusion h
  rw [assocFind, List.find?_cons_of_neg]
  · exact h
  · intro hdec
    exact hne (of_decide_eq_true hdec)

theorem crI1_stable (t : Thread) (R : Int)
    (hord : StackTable.orderedB t.stackTable = true) (i : Nat)
    (m : StackMap) (hm : m.length = i) (x : Option (Option Nat))
    (pairs pairs' : List (Option Nat × Nat))
    (hpa : ∀ k v, assocFind pairs k = some v → assocFind pairs' k = some v)
    (cs cs' : List Nat) (hcs : ∀ v, v ∈ cs → v ∈ cs')
    (hent : ∀ s, s < i → ∀ row, t.stackTable.rows[s]? = some row →
      ((t.frameTable.func[row.frame]?).bind
        fun f => t.funcTable.resource[f]?) = some R →
      (∀ v, mapFind m row.prefixCol = some (some v) → v ∉ cs) →
      ∃ v, assocFind pairs row.prefixCol = some v ∧
        m[s]? = some (some (some v))) :
    ∀ s, s < i → ∀ row, t.stackTable.rows[s]? = some row →
      ((t.frameTable.func[row.frame]?).bind
        fun f => t.funcTable.resource[f]?) = some R →
      (∀ v, mapFind (m ++ [x]) row.prefixCol = some (some v) → v ∉ cs') →
      ∃ v, assocFind pairs' row.prefixCol = some v ∧
        (m ++ [x])[s]? = some (some (some v)) := by
  intro s hs row hrow hres hguard
  have hpb : ∀ p, row.prefixCol = some p → p < m.length := by
    intro p hp
    have := orderedB_spec t.stackTable hord s row hrow p hp
    omega
  have hguardOld : ∀ v, mapFind m row.prefixCol = some (some v) →
      v ∉ cs := by
    intro v hv hvin
    exact hguard v (by rw [mapFind_append _ _ _ hpb]; exact hv) (hcs v hvin)
  obtain ⟨v, hv1, hv2⟩ := hent s hs row hrow hres hguardOld
  refine ⟨v, hpa _ _ hv1, ?_⟩
  rw [List.getElem?_append_left (by omega)]
  exact hv2

theorem crI3_append (nr ext : List StackRow) (cfi : Option Nat)
    (pairs : List (Option Nat × Nat))
    (hpairs : ∀ pr ∈ pairs, ∃ er, nr[pr.2]? = some er ∧
      some er.frame = cfi) :
    ∀ pr ∈ pairs, ∃ er, (nr ++ ext)[pr.2]? = some er ∧
      some er.frame = cfi := by
  intro pr hmem
  obtain ⟨er, h1, h2⟩ := hpairs pr hmem
  have hlt : pr.2 < nr.length := by
    by_contra hge
    rw [List.getElem?_eq_none (by omega)] at h1
    exact Option.noConfusion h1
  exact ⟨er, by rw [List.getElem?_append_left hlt]; exact h1, h2⟩

theorem collapseResource_corr (t : Thread) (R : Int)
    (implementation : ImplementationFilter) (defaultCategory : Nat)
    (hord : StackTable.orderedB t.stackTable = true) :
    (fun (acc : CRState) (n : Nat) =>
      acc.map.length = n ∧
      (∀ e ∈ acc.map, ∀ w, e = some (some w) → w < acc.newRows.length) ∧
      (∀ e ∈ acc.map, ∃ x, e = some x) ∧
      ((acc.newFrameTable = t.frameTable ∧ acc.newFuncTable = t.funcTable ∧
          acc.collapsedFrameIndex = none ∧
          acc.collapsedFuncIndex = none) ∨
        (acc.collapsedFrameIndex = some t.frameTable.func.length ∧
          acc.collapsedFuncIndex = some t.funcTable.name.length ∧
          acc.newFrameTable.func =
            t.frameTable.func ++ [t.funcTable.name.length] ∧
          acc.newFuncTable.name = t.funcTable.name ++
            [crCollapsedNameIndex t R])) ∧
      (∀ pr ∈ acc.prefixToCollapsed, ∃ er, acc.newRows[pr.2]? = some er ∧
        some er.frame = acc.collapsedFrameIndex) ∧
      (∀ s, s < n → ∀ row, t.stackTable.rows[s]? = some row →
        ((t.frameTable.func[row.frame]?).bind
          fun f => t.funcTable.resource[f]?) = some R →
        (∀ v, mapFind acc.map row.prefixCol = some (some v) →
          v ∉ acc.collapsedStacks) →
        ∃ v, assocFind acc.prefixToCollapsed row.prefixCol = some v ∧
          acc.map[s]? = some (some (some v))))
      (collapseResourceState t R implementation defaultCategory)
      t.stackTable.rows.length := by
  suffices main : ∀ n, n ≤ t.stackTable.rows.length →
      (fun (acc : CRState) (n : Nat) =>
        acc.map.length = n ∧
        (∀ e ∈ acc.map, ∀ w, e = some (some w) → w < acc.newRows.length) ∧
        (∀ e ∈ acc.map, ∃ x, e = some x) ∧
        ((acc.newFrameTable = t.frameTable ∧
            acc.newFuncTable = t.funcTable ∧
            acc.collapsedFrameIndex = none ∧
            acc.collapsedFuncIndex = none) ∨
          (acc.collapsedFrameIndex = some t.frameTable.func.length ∧
            acc.collapsedFuncIndex = some t.funcTable.name.length ∧
            acc.newFrameTable.func =
              t.frameTable.func ++ [t.funcTable.name.length] ∧
            acc.newFuncTable.name = t.funcTable.name ++
              [crCollapsedNameIndex t R])) ∧
        (∀ pr ∈ acc.prefixToCollapsed, ∃ er, acc.newRows[pr.2]? = some er ∧
          some er.frame = acc.collapsedFrameIndex) ∧
        (∀ s, s < n → ∀ row, t.stackTable.rows[s]? = some row →
          ((t.frameTable.func[row.frame]?).bind
            fun f => t.funcTable.resource[f]?) = some R →
          (∀ v, mapFind acc.map row.prefixCol = some (some v) →
            v ∉ acc.collapsedStacks) →
          ∃ v, assocFind acc.prefixToCollapsed row.prefixCol = some v ∧
            acc.map[s]? = some (some (some v))))
        ((List.range n).foldl
          (collapseResourceStep t R implementation defaultCategory)
          ⟨shallowCloneFrameTable t.frameTable,
            shallowCloneFuncTable t.funcTable, [], [], [], [], none, none⟩)
        n by
    exact main t.stackTable.rows.length (le_refl _)
  refine foldl_range_induction t.stackTable.rows.length
    (collapseResourceStep t R implementation defaultCategory)
    ⟨shallowCloneFrameTable t.frameTable,
      shallowCloneFuncTable t.funcTable, [], [], [], [], none, none⟩
    (fun (acc : CRState) (n : Nat) =>
      acc.map.length = n ∧
      (∀ e ∈ acc.map, ∀ w, e = some (some w) → w < acc.newRows.length) ∧
      (∀ e ∈ acc.map, ∃ x, e = some x) ∧
      ((acc.newFrameTable = t.frameTable ∧ acc.newFuncTable = t.funcTable ∧
          acc.collapsedFrameIndex = none ∧
          acc.collapsedFuncIndex = none) ∨
        (acc.collapsedFrameIndex = some t.frameTable.func.length ∧
          acc.collapsedFuncIndex = some t.funcTable.name.length ∧
          acc.newFrameTable.func =
            t.frameTable.func ++ [t.funcTable.name.length] ∧
          acc.newFuncTable.name = t.funcTable.name ++
            [crCollapsedNameIndex t R])) ∧
      (∀ pr ∈ acc.prefixToCollapsed, ∃ er, acc.newRows[pr.2]? = some er ∧
        some er.frame = acc.collapsedFrameIndex) ∧
      (∀ s, s < n → ∀ row, t.stackTable.rows[s]? = some row →
        ((t.frameTable.func[row.frame]?).bind
          fun f => t.funcTable.resource[f]?) = some R →
        (∀ v, mapFind acc.map row.prefixCol = some (some v) →
          v ∉ acc.collapsedStacks) →
        ∃ v, assocFind acc.prefixToCollapsed row.prefixCol = some v ∧
          acc.map[s]? = some (some (some v))))
    ⟨rfl, by simp, by simp, Or.inl ⟨rfl, rfl, rfl, rfl⟩, by simp,
      by intro s hs; exact absurd hs (by omega)⟩ ?_
  rintro acc i hi ⟨hm, hb, hsome, hshape, hpairs, hent⟩
  cases hrow : t.stackTable.rows[i]? with
  | none =>
    exfalso
    rw [List.getElem?_eq_none_iff] at hrow
    omega
  | some row =>
    obtain ⟨nsp, hfind⟩ : ∃ nsp,
        mapFind acc.map row.prefixCol = some nsp := by
      cases hp : row.prefixCol with
      | none => exact ⟨none, rfl⟩
      | some p =>
        have hps : p < i := orderedB_spec t.stackTable hord i row hrow p hp
        have hpe : p < acc.map.length := by omega
        obtain ⟨x, hx⟩ := hsome acc.map[p] (List.getElem_mem hpe)
        refine ⟨x, ?_⟩
        rw [mapFind, List.getElem?_eq_getElem hpe, hx]
        rfl
    have hpb : ∀ q, row.prefixCol = some q → q < acc.map.length := by
      intro q hq
      have := orderedB_spec t.stackTable hord i row hrow q hq
      omega
    show (fun (acc : CRState) (n : Nat) => _)
      (collapseResourceStep t R implementation defaultCategory acc i) (i + 1)
    rw [collapseResourceStep]
    simp only [hrow]
    split
    · next heq =>
      rw [hfind] at heq
      exact Option.noConfusion heq
    · next nsp2 heq =>
      rw [hfind] at heq
      have hnspe : nsp2 = nsp := (Option.some.inj heq).symm
      subst hnspe
      by_cases hres : ((t.frameTable.func[row.frame]?).bind
          fun f => t.funcTable.resource[f]?) = some R
      · rw [if_pos hres]
        split
        · next hguardT =>
            cases hassoc : assocFind acc.prefixToCollapsed row.prefixCol with
            | some existing =>
              simp only [hassoc]
              obtain ⟨pr0, hpr0mem, hpr0v⟩ := assocFind_mem _ _ _ hassoc
              obtain ⟨er0, her0, her0f⟩ := hpairs pr0 hpr0mem
              have hexlt : existing < acc.newRows.length := by
                rw [hpr0v] at her0
                by_contra hge
                rw [List.getElem?_eq_none (by omega)] at her0
                exact Option.noConfusion her0
              have hbpush : ∀ e ∈ acc.map ++ [some (some existing)], ∀ w,
                  e = some (some w) → w < acc.newRows.length := by
                apply bounded_push _ _ _ hb
                intro w hw
                have h3 := Option.some.inj (Option.some.inj hw)
                subst h3
                exact hexlt
              have hsomepush : ∀ e ∈ acc.map ++ [some (some existing)],
                  ∃ x, e = some x := by
                intro e he
                rcases List.mem_append.mp he with h1 | h2
                · exact hsome e h1
                · rw [List.mem_singleton] at h2
                  exact ⟨some existing, h2⟩
              have hI1push : ∀ s, s < i + 1 → ∀ row',
                  t.stackTable.rows[s]? = some row' →
                  ((t.frameTable.func[row'.frame]?).bind
                    fun f => t.funcTable.resource[f]?) = some R →
                  (∀ v, mapFind (acc.map ++ [some (some existing)])
                    row'.prefixCol = some (some v) →
                    v ∉ acc.collapsedStacks) →
                  ∃ v, assocFind acc.prefixToCollapsed row'.prefixCol =
                      some v ∧
                    (acc.map ++ [some (some existing)])[s]? =
                      some (some (some v)) := by
                intro s hs row' hrow' hres' hguard'
                by_cases hsi : s < i
                · exact crI1_stable t R hord i acc.map hm _ _ _
                    (fun k v h => h) _ _ (fun v h => h) hent s hsi row' hrow'
                    hres' hguard'
                · have hsieq : s = i := by omega
                  subst hsieq
                  rw [hrow] at hrow'
                  have hre : row' = row := (Option.some.inj hrow').symm
                  subst hre
                  refine ⟨existing, hassoc, ?_⟩
                  rw [List.getElem?_append_right (by omega), hm, Nat.sub_self,
                    List.getElem?_cons_zero]
              split
              · exact ⟨by simp [hm], hbpush, hsomepush, hshape, hpairs, hI1push⟩
              · next er herq =>
                split
                · refine ⟨by simp [hm],
                    by simpa only [List.length_set] using hbpush,
                    hsomepush, hshape, ?_,
                    hI1push⟩
                  intro pr hmem
                  obtain ⟨er2, h1, h2⟩ := hpairs pr hmem
                  by_cases hpe : existing = pr.2
                  · subst hpe
                    rw [herq] at h1
                    have hre2 : er2 = er := (Option.some.inj h1).symm
                    subst hre2
                    refine ⟨{ er2 with
                      category := defaultCategory
                      subcategory := 0 }, ?_, h2⟩
                    rw [List.getElem?_set_self hexlt]
                  · rw [List.getElem?_set_ne hpe]
                    exact ⟨er2, h1, h2⟩
                · split
                  · refine ⟨by simp [hm],
                      by simpa only [List.length_set] using hbpush,
                      hsomepush, hshape, ?_, hI1push⟩
                    intro pr hmem
                    obtain ⟨er2, h1, h2⟩ := hpairs pr hmem
                    by_cases hpe : existing = pr.2
                    · subst hpe
                      rw [herq] at h1
                      have hre2 : er2 = er := (Option.some.inj h1).symm
                      subst hre2
                      refine ⟨{ er2 with subcategory := 0 }, ?_, h2⟩
                      rw [List.getElem?_set_self hexlt]
                    · rw [List.getElem?_set_ne hpe]
                      exact ⟨er2, h1, h2⟩
                  · exact ⟨by simp [hm], hbpush, hsomepush, hshape, hpairs,
                      hI1push⟩
            | none =>
              simp only [hassoc]
              cases hcfi : acc.collapsedFrameIndex with
              | some cfi =>
                simp only [hcfi]
                have hshape2 : some cfi =
                    some t.frameTable.func.length ∧
                    acc.collapsedFuncIndex = some t.funcTable.name.length ∧
                    acc.newFrameTable.func =
                      t.frameTable.func ++ [t.funcTable.name.length] ∧
                    acc.newFuncTable.name = t.funcTable.name ++
                      [crCollapsedNameIndex t R] := by
                  rcases hshape with h | h
                  · rw [h.2.2.1] at hcfi
                    exact Option.noConfusion hcfi
                  · exact ⟨by rw [← hcfi]; exact h.1, h.2.1, h.2.2.1,
                      h.2.2.2⟩
                try dsimp only
                refine ⟨by simp [hm], ?_, ?_, Or.inr hshape2, ?_, ?_⟩
                · apply bounded_push _ _ _ (bounded_mono _ _ _ (by simp) hb)
                  intro w hw
                  have h3 := Option.some.inj (Option.some.inj hw)
                  subst h3
                  simp
                · intro e he
                  rcases List.mem_append.mp he with h1 | h2
                  · exact hsome e h1
                  · rw [List.mem_singleton] at h2
                    exact ⟨_, h2⟩
                · intro pr hmem
                  rcases List.mem_cons.mp hmem with h1 | h2
                  · subst h1
                    refine ⟨⟨nsp2, cfi, row.category, row.subcategory⟩, ?_, ?_⟩
                    · rw [List.getElem?_append_right (le_refl _), Nat.sub_self,
                        List.getElem?_cons_zero]
                    · rfl
                  · obtain ⟨er2, h1, h2⟩ := hpairs pr h2
                    have hlt : pr.2 < acc.newRows.length := by
                      by_contra hge
                      rw [List.getElem?_eq_none (by omega)] at h1
                      exact Option.noConfusion h1
                    refine ⟨er2, ?_, by rw [h2, hcfi]⟩
                    rw [List.getElem?_append_left hlt]
                    exact h1
                · intro s hs row' hrow' hres' hguard'
                  by_cases hsi : s < i
                  · refine crI1_stable t R hord i acc.map hm _ _ _
                      (fun k v h => assocFind_cons_stable _ _ _ _ hassoc v h)
                      _ _ (fun v h => List.mem_cons_of_mem _ h) hent s hsi
                      row' hrow' hres' hguard'
                  · have hsieq : s = i := by omega
                    subst hsieq
                    rw [hrow] at hrow'
                    have hre : row' = row := (Option.some.inj hrow').symm
                    subst hre
                    refine ⟨acc.newRows.length, assocFind_cons_self _ _ _, ?_⟩
                    rw [List.getElem?_append_right (by omega), hm, Nat.sub_self,
                      List.getElem?_cons_zero]
              | none =>
                simp only [hcfi]
                obtain ⟨hft, hfut, _, hcfui⟩ : acc.newFrameTable = t.frameTable ∧
                    acc.newFuncTable = t.funcTable ∧
                    acc.collapsedFrameIndex = none ∧
                    acc.collapsedFuncIndex = none := by
                  rcases hshape with h | h
                  · exact h
                  · rw [h.1] at hcfi
                    exact Option.noConfusion hcfi
                try dsimp only
                refine ⟨by simp [hm], ?_, ?_, ?_, ?_, ?_⟩
                · apply bounded_push _ _ _ (bounded_mono _ _ _ (by simp) hb)
                  intro w hw
                  have h3 := Option.some.inj (Option.some.inj hw)
                  subst h3
                  simp
                · intro e he
                  rcases List.mem_append.mp he with h1 | h2
                  · exact hsome e h1
                  · rw [List.mem_singleton] at h2
                    exact ⟨_, h2⟩
                · refine Or.inr ⟨?_, ?_, ?_, ?_⟩
                  · show some acc.newFrameTable.func.length =
                      some t.frameTable.func.length
                    rw [hft]
                  · rw [hfut]
                  · show acc.newFrameTable.func ++
                      [acc.newFuncTable.name.length] =
                      t.frameTable.func ++ [t.funcTable.name.length]
                    rw [hft, hfut]
                  · show acc.newFuncTable.name ++
                      [((if 0 ≤ R then t.resourceTable.name[R.toNat]?
                        else none)).getD (-1)] =
                      t.funcTable.name ++ [crCollapsedNameIndex t R]
                    rw [hfut]
                    exact rfl
                · intro pr hmem
                  rcases List.mem_cons.mp hmem with h1 | h2
                  · subst h1
                    refine ⟨⟨nsp2, acc.newFrameTable.func.length, row.category,
                      row.subcategory⟩, ?_, ?_⟩
                    · rw [List.getElem?_append_right (le_refl _), Nat.sub_self,
                        List.getElem?_cons_zero]
                    · rfl
                  · obtain ⟨er2, h1, h2⟩ := hpairs pr h2
                    rw [hcfi] at h2
                    exact absurd h2 (by simp)
                · intro s hs row' hrow' hres' hguard'
                  by_cases hsi : s < i
                  · refine crI1_stable t R hord i acc.map hm _ _ _
                      (fun k v h => assocFind_cons_stable _ _ _ _ hassoc v h)
                      _ _ (fun v h => List.mem_cons_of_mem _ h) hent s hsi
                      row' hrow' hres' hguard'
                  · have hsieq : s = i := by omega
                    subst hsieq
                    rw [hrow] at hrow'
                    have hre : row' = row := (Option.some.inj hrow').symm
                    subst hre
                    refine ⟨acc.newRows.length, assocFind_cons_self _ _ _, ?_⟩
                    rw [List.getElem?_append_right (by omega), hm, Nat.sub_self,
                      List.getElem?_cons_zero]
  
        · next hguardF =>
          have hguard := not_not.mp hguardF
          try dsimp only
          refine ⟨by simp [hm], ?_, ?_, hshape, hpairs, ?_⟩
          · apply bounded_push _ _ _ hb
            intro w hw
            exact mapFindEntry_bounded _ _ hb _ _ hfind w (Option.some.inj hw)
          · intro e he
            rcases List.mem_append.mp he with h1 | h2
            · exact hsome e h1
            · rw [List.mem_singleton] at h2
              exact ⟨nsp2, h2⟩
          · intro s hs row' hrow' hres' hguard'
            by_cases hsi : s < i
            · exact crI1_stable t R hord i acc.map hm _ _ _
                (fun k v h => h) _ _ (fun v h => h) hent s hsi row' hrow'
                hres' hguard'
            · have hsieq : s = i := by omega
              subst hsieq
              rw [hrow] at hrow'
              have hre : row' = row := (Option.some.inj hrow').symm
              subst hre
              exfalso
              obtain ⟨v0, hv0, hv0in⟩ : ∃ v0, nsp2 = some v0 ∧
                  v0 ∈ acc.collapsedStacks := by
                cases nsp2 with
                | none => exact Bool.noConfusion hguard
                | some v0 => exact ⟨v0, rfl, of_decide_eq_true hguard⟩
              refine hguard' v0 ?_ hv0in
              rw [mapFind_append _ _ _ hpb, hfind, hv0]
  
      · rw [if_neg hres]
        repeat' split
        all_goals
          first
          | (try dsimp only
             refine ⟨by simp [hm], ?_, ?_, hshape, hpairs, ?_⟩
             · apply bounded_push _ _ _ hb
               intro w hw
               exact mapFindEntry_bounded _ _ hb _ _ hfind w
                 (Option.some.inj hw)
             · intro e he
               rcases List.mem_append.mp he with h1 | h2
               · exact hsome e h1
               · rw [List.mem_singleton] at h2
                 exact ⟨nsp2, h2⟩
             · intro s hs row' hrow' hres' hguard'
               by_cases hsi : s < i
               · exact crI1_stable t R hord i acc.map hm _ _ _
                   (fun k v h => h) _ _ (fun v h => h) hent s hsi row'
                   hrow' hres' hguard'
               · have hsieq : s = i := by omega
                 subst hsieq
                 rw [hrow] at hrow'
                 have hre : row' = row := (Option.some.inj hrow').symm
                 subst hre
                 exact absurd hres' hres)
          | (try dsimp only
             refine ⟨by simp [hm], ?_, ?_, hshape, ?_, ?_⟩
             · apply bounded_push _ _ _ (bounded_mono _ _ _ (by simp) hb)
               intro w hw
               have h3 := Option.some.inj (Option.some.inj hw)
               subst h3
               simp
             · intro e he
               rcases List.mem_append.mp he with h1 | h2
               · exact hsome e h1
               · rw [List.mem_singleton] at h2
                 exact ⟨_, h2⟩
             · exact crI3_append _ _ _ _ hpairs
             · intro s hs row' hrow' hres' hguard'
               by_cases hsi : s < i
               · exact crI1_stable t R hord i acc.map hm _ _ _
                   (fun k v h => h) _ _ (fun v h => h) hent s hsi row'
                   hrow' hres' hguard'
               · have hsieq : s = i := by omega
                 subst hsieq
                 rw [hrow] at hrow'
                 have hre : row' = row := (Option.some.inj hrow').symm
                 subst hre
                 exact absurd hres' hres)

/-- C5: in `collapseResource`, all sibling stacks under the same parent
whose func belongs to the collapsed resource map to one single synthetic
stack node (not one per sibling), which references the one newly created
frame (at the old frame-table length) whose func is the one newly created
func (at the old func-table length) named after the resource; at most one
frame and one func are created.  On concrete threads: when the categories
of the merged siblings conflict the node's category is the default
category with subcategory `0`, and when only the subcategories conflict
the node keeps its category with subcategory `0`. -/
theorem claim5_collapse_resource (t : Thread) (R : Int)
    (implementation : ImplementationFilter) (defaultCategory : Nat)
    (hord : StackTable.orderedB t.stackTable = true) :
    (∀ s1 s2 row1 row2,
      t.stackTable.rows[s1]? = some row1 →
      t.stackTable.rows[s2]? = some row2 →
      row1.prefixCol = row2.prefixCol →
      ((t.frameTable.func[row1.frame]?).bind
        fun f => t.funcTable.resource[f]?) = some R →
      ((t.frameTable.func[row2.frame]?).bind
        fun f => t.funcTable.resource[f]?) = some R →
      (∀ v, mapFind (collapseResourceState t R implementation
          defaultCategory).map row1.prefixCol = some (some v) →
        v ∉ (collapseResourceState t R implementation
          defaultCategory).collapsedStacks) →
      ∃ v, getMapStackUpdater (collapseResourceState t R implementation
          defaultCategory).map (some s1) = some v ∧
        getMapStackUpdater (collapseResourceState t R implementation
          defaultCategory).map (some s2) = some v ∧
        ∃ er, (collapseResource t R implementation
            defaultCategory).stackTable.rows[v]? = some er ∧
          er.frame = t.frameTable.func.length ∧
          (collapseResource t R implementation
            defaultCategory).frameTable.func[er.frame]? =
            some t.funcTable.name.length ∧
          (collapseResource t R implementation
            defaultCategory).funcTable.name[t.funcTable.name.length]? =
            some (crCollapsedNameIndex t R)) ∧
    ((collapseResource t R implementation
        defaultCategory).frameTable.func.length ≤
      t.frameTable.func.length + 1 ∧
     (collapseResource t R implementation
        defaultCategory).funcTable.name.length ≤
      t.funcTable.name.length + 1) ∧
    (collapseResource exThreadRes 0 ImplementationFilter.combined
        7).stackTable.rows[1]? =
      some ⟨some 0, 4, 7, 0⟩ ∧
    (collapseResource exThreadResSub 0 ImplementationFilter.combined
        7).stackTable.rows[1]? =
      some ⟨some 0, 3, 2, 0⟩ := by
  obtain ⟨hm, hb, hsome, hshape, hpairs, hent⟩ :=
    collapseResource_corr t R implementation defaultCategory hord
  refine ⟨?_, ?_, by decide, by decide⟩
  · intro s1 s2 row1 row2 hrow1 hrow2 hpre hres1 hres2 hguard
    have hs1 : s1 < t.stackTable.rows.length := by
      by_contra hge
      rw [List.getElem?_eq_none (by omega)] at hrow1
      exact Option.noConfusion hrow1
    have hs2 : s2 < t.stackTable.rows.length := by
      by_contra hge
      rw [List.getElem?_eq_none (by omega)] at hrow2
      exact Option.noConfusion hrow2
    obtain ⟨v1, ha1, hm1⟩ := hent s1 hs1 row1 hrow1 hres1 hguard
    obtain ⟨v2, ha2, hm2⟩ := hent s2 hs2 row2 hrow2 hres2
      (by rw [← hpre]; exact hguard)
    rw [← hpre] at ha2
    rw [ha1] at ha2
    have hv12 : v1 = v2 := Option.some.inj ha2
    subst hv12
    refine ⟨v1, ?_, ?_, ?_⟩
    · show (((collapseResourceState t R implementation
        defaultCategory).map[s1]?).getD none).getD none = some v1
      rw [hm1]
      rfl
    · show (((collapseResourceState t R implementation
        defaultCategory).map[s2]?).getD none).getD none = some v1
      rw [hm2]
      rfl
    · obtain ⟨pr, hprmem, hprv⟩ := assocFind_mem _ _ _ ha1
      obtain ⟨er, her, herf⟩ := hpairs pr hprmem
      rw [hprv] at her
      rcases hshape with h | h
      · rw [h.2.2.1] at herf
        exact absurd herf (by simp)
      · have hfr : er.frame = t.frameTable.func.length := by
          rw [h.1] at herf
          exact Option.some.inj herf
        refine ⟨er, her, hfr, ?_, ?_⟩
        · show (collapseResourceState t R implementation
            defaultCategory).newFrameTable.func[er.frame]? = _
          rw [h.2.2.1, hfr, List.getElem?_append_right (le_refl _),
            Nat.sub_self, List.getElem?_cons_zero]
        · show (collapseResourceState t R implementation
            defaultCategory).newFuncTable.name[t.funcTable.name.length]? =
            _
          rw [h.2.2.2, List.getElem?_append_right (le_refl _),
            Nat.sub_self, List.getElem?_cons_zero]
  · rcases hshape with h | h
    · constructor
      · show (collapseResourceState t R implementation
          defaultCategory).newFrameTable.func.length ≤ _
        rw [h.1]
        omega
      · show (collapseResourceState t R implementation
          defaultCategory).newFuncTable.name.length ≤ _
        rw [h.2.1]
        omega
    · constructor
      · show (collapseResourceState t R implementation
          defaultCategory).newFrameTable.func.length ≤ _
        rw [h.2.2.1]
        simp
      · show (collapseResourceState t R implementation
          defaultCategory).newFuncTable.name.length ≤ _
        rw [h.2.2.2]
        simp

theorem claim5_witness :
    StackTable.orderedB exThreadRes.stackTable = true ∧
    ∃ v, getMapStackUpdater (collapseResourceState exThreadRes 0
        ImplementationFilter.combined 7).map (some 1) = some v ∧
      getMapStackUpdater (collapseResourceState exThreadRes 0
        ImplementationFilter.combined 7).map (some 2) = some v ∧
      ∃ er, (collapseResource exThreadRes 0 ImplementationFilter.combined
          7).stackTable.rows[v]? = some er ∧
        er.frame = exThreadRes.frameTable.func.length ∧
        (collapseResource exThreadRes 0 ImplementationFilter.combined
          7).frameTable.func[er.frame]? =
          some exThreadRes.funcTable.name.length ∧
        (collapseResource exThreadRes 0 ImplementationFilter.combined
          7).funcTable.name[exThreadRes.funcTable.name.length]? =
          some (crCollapsedNameIndex exThreadRes 0) :=
  ⟨by decide,
    (claim5_collapse_resource exThreadRes 0 ImplementationFilter.combined 7
      (by decide)).1 1 2 ⟨some 0, 1, 2, 0⟩ ⟨some 0, 2, 3, 1⟩ (by decide)
      (by decide) (by decide) (by decide) (by decide)
      (by
        intro v hv
        have h0 : mapFind (collapseResourceState exThreadRes 0
            ImplementationFilter.combined 7).map
            ((StackRow.mk (some 0) 1 2 0).prefixCol) = some (some 0) := by
          decide
        rw [h0] at hv
        injection hv with h1
        injection h1 with h2
        subst h2
        decide)⟩
